import Mathlib

/-!
Verification of the Managed Link Lifecycle Engine of git-overlay.

The Go source is shallowly embedded:
* Go strings are `GoStr := List Char`; Go string functions (`strings.Split`,
  `strings.Contains`, `path/filepath.Clean`, `Join`, `Rel`, `Dir`, ...) are
  translated segment-for-segment from the Go standard library behaviour on
  Unix paths.
* the filesystem is a rose tree of directories, regular files and symlinks;
  mutating operations are explicit state passing.
* fallible Go functions return `Except`/`Option`; the distinct error returns
  of the source are distinguished by tags.
-/

/-- Decidable equality for `Except`, so that concrete runs of the embedded
fallible functions can be checked by `decide`. -/
instance exceptDecEq {ε α : Type} [DecidableEq ε] [DecidableEq α] :
    DecidableEq (Except ε α) := fun x y =>
  match x, y with
  | .ok a, .ok b =>
    if h : a = b then isTrue (by rw [h]) else isFalse (by simp [h])
  | .error a, .error b =>
    if h : a = b then isTrue (by rw [h]) else isFalse (by simp [h])
  | .ok _, .error _ => isFalse (by simp)
  | .error _, .ok _ => isFalse (by simp)

/-- Go strings, modelled as their list of characters. -/
abbrev GoStr := List Char

/-- Convenience: build a `GoStr` from a Lean string literal. -/
def gs (s : String) : GoStr := s.data

/-- The segment consisting of a single dot. -/
def dotSeg : GoStr := ['.']

/-- The parent-directory segment. -/
def dotdotSeg : GoStr := ['.', '.']

/-- Splitting a Go string at every slash character, as `strings.Split(s, "/")`
does: the result always has one more element than the number of slashes, and
empty segments are kept. -/
def splitSlash : GoStr → List GoStr
  | [] => [[]]
  | c :: rest =>
    if c = '/' then [] :: splitSlash rest
    else
      match splitSlash rest with
      | [] => [[c]]
      | s :: ss => (c :: s) :: ss

/-- Joining segments with slashes, as `strings.Join(l, "/")` does. -/
def joinSlash : List GoStr → GoStr
  | [] => []
  | [s] => s
  | s :: rest => s ++ '/' :: joinSlash rest

/-- Test for a list prefix, as `strings.HasPrefix` does. -/
def isPrefixSeq : GoStr → GoStr → Bool
  | [], _ => true
  | _ :: _, [] => false
  | a :: as, b :: bs => a = b && isPrefixSeq as bs

/-- Test for a list suffix, as `strings.HasSuffix` does. -/
def isSuffixSeq (pat s : GoStr) : Bool :=
  isPrefixSeq pat.reverse s.reverse

/-- Substring test, as `strings.Contains` does. -/
def containsSeq (pat : GoStr) : GoStr → Bool
  | [] => isPrefixSeq pat []
  | c :: rest => isPrefixSeq pat (c :: rest) || containsSeq pat rest

/-- Strip a leading occurrence of `pat`, as `strings.TrimPrefix` does. -/
def trimPre (pat s : GoStr) : GoStr :=
  if isPrefixSeq pat s then s.drop pat.length else s

/-- Count of slash characters of a path, as `strings.Count(s, "/")` does. -/
def countSlash (s : GoStr) : Nat := s.count '/'

/-- Go `filepath.IsAbs` on Unix: the path begins with a slash. -/
def filepathIsAbs : GoStr → Bool
  | [] => false
  | c :: _ => c = '/'

/-- The segment-processing loop of Go `filepath.Clean` on Unix, on the list of
slash-separated segments.  The accumulator is the output stack with the most
recent segment first.  Empty segments and dots are dropped; a `..` pops a
regular segment, piles up at the start of a relative path, and is dropped at
the root of an absolute path. -/
def cleanStack (rooted : Bool) : List GoStr → List GoStr → List GoStr
  | stack, [] => stack
  | stack, s :: rest =>
    if s = [] ∨ s = dotSeg then cleanStack rooted stack rest
    else if s = dotdotSeg then
      match stack with
      | [] => cleanStack rooted (if rooted then [] else [dotdotSeg]) rest
      | top :: more =>
        if top = dotdotSeg then cleanStack rooted (dotdotSeg :: stack) rest
        else cleanStack rooted more rest
    else cleanStack rooted (s :: stack) rest

/-- Go `filepath.Clean` on Unix paths. -/
def filepathClean (p : GoStr) : GoStr :=
  let rooted := filepathIsAbs p
  let stack := cleanStack rooted [] (splitSlash p)
  let body := joinSlash stack.reverse
  if rooted then '/' :: body
  else if body = [] then dotSeg
  else body

/-- Go `filepath.Join` of two path elements: non-empty elements are joined
with a slash and the result is cleaned; the join of empty elements is empty. -/
def filepathJoin (a b : GoStr) : GoStr :=
  if a = [] ∧ b = [] then []
  else if a = [] then filepathClean b
  else if b = [] then filepathClean a
  else filepathClean (a ++ '/' :: b)

/-- Go `filepath.Split`, returning the part up to and including the final
slash together with the remainder. -/
def splitLastSlash : GoStr → GoStr × GoStr
  | [] => ([], [])
  | c :: rest =>
    let (d, f) := splitLastSlash rest
    if d = [] then
      if c = '/' then (['/'], rest) else ([], c :: rest)
    else (c :: d, f)

/-- Go `filepath.Dir`: everything up to the final slash, cleaned. -/
def filepathDir (p : GoStr) : GoStr :=
  filepathClean (splitLastSlash p).1

/-- Segment list of a cleaned path body, treating the empty body as having no
segments (this mirrors how the element loop of Go `filepath.Rel` ranges over
an empty string). -/
def relSegsBody (b : GoStr) : List GoStr :=
  if b = [] then [] else splitSlash b

/-- Drop the common leading segments of two segment lists, returning both
remainders, as the element-comparison loop of Go `filepath.Rel` does. -/
def dropCommon : List GoStr → List GoStr → List GoStr × List GoStr
  | b :: bs, t :: ts => if b = t then dropCommon bs ts else (b :: bs, t :: ts)
  | bs, ts => (bs, ts)

/-- Go `filepath.Rel` on Unix paths; `none` is its error return (mixing an
absolute with a relative path, or a base whose first differing segment is
`..`). -/
def filepathRel (basepath targpath : GoStr) : Option GoStr :=
  let base₀ := filepathClean basepath
  let targ := filepathClean targpath
  if targ = base₀ then some dotSeg
  else
    let base := if base₀ = dotSeg then [] else base₀
    let baseSlashed := filepathIsAbs base
    let targSlashed := filepathIsAbs targ
    if baseSlashed ≠ targSlashed then none
    else
      let bb := if baseSlashed then base.drop 1 else base
      let tb := if targSlashed then targ.drop 1 else targ
      let (brem, trem) := dropCommon (relSegsBody bb) (relSegsBody tb)
      match brem with
      | [] => some (joinSlash trem)
      | b₁ :: _ =>
        if b₁ = dotdotSeg then none
        else some (joinSlash (brem.map (fun _ => dotdotSeg) ++ trem))

/-- Error returns of `validatePath` (src/cmd/validate.go): absolute path,
failure of `filepath.Rel`, and escape of the base directory. -/
inductive ValErr where
  | absolute (p : GoStr)
  | invalidRel (p : GoStr)
  | escapes (p : GoStr)
deriving DecidableEq

/-- Embedding of `validatePath` (src/cmd/validate.go): reject absolute paths,
then clean `base` and `Join(base, path)`, take `Rel` of the two, and reject
when the relative form starts with `..` or the original path contains the
substring `../`. -/
def validatePath (base path : GoStr) : Except ValErr Unit :=
  if filepathIsAbs path then .error (.absolute path)
  else
    let cleanBase := filepathClean base
    let cleanPath := filepathClean (filepathJoin base path)
    match filepathRel cleanBase cleanPath with
    | none => .error (.invalidRel path)
    | some rel =>
      if isPrefixSeq dotdotSeg rel || containsSeq (gs "../") path then
        .error (.escapes path)
      else .ok ()

/-- Regular path segment: non-empty and neither of the special dot segments. -/
def RegSeg (s : GoStr) : Prop := s ≠ [] ∧ s ≠ dotSeg ∧ s ≠ dotdotSeg

instance : DecidablePred RegSeg := fun s => by unfold RegSeg; infer_instance

/-- Well-formed segment of a base path: regular and slash-free. -/
def GoodSeg (s : GoStr) : Prop := RegSeg s ∧ '/' ∉ s

instance : DecidablePred GoodSeg := fun s => by unfold GoodSeg; infer_instance

theorem splitSlash_cons_slash (rest : GoStr) :
    splitSlash ('/' :: rest) = [] :: splitSlash rest := by
  simp [splitSlash]

theorem splitSlash_cons_ne (c : Char) (rest : GoStr) (hc : c ≠ '/') :
    splitSlash (c :: rest) =
      match splitSlash rest with
      | [] => [[c]]
      | s :: ss => (c :: s) :: ss := by
  simp [splitSlash, hc]

theorem splitSlash_ne_nil (p : GoStr) : splitSlash p ≠ [] := by
  cases p with
  | nil => simp [splitSlash]
  | cons c rest =>
    by_cases hc : c = '/'
    · subst hc; simp [splitSlash_cons_slash]
    · rw [splitSlash_cons_ne c rest hc]
      cases h : splitSlash rest <;> simp

theorem splitSlash_append (a b : GoStr) :
    splitSlash (a ++ '/' :: b) = splitSlash a ++ splitSlash b := by
  induction a with
  | nil => simp [splitSlash_cons_slash, splitSlash]
  | cons c a ih =>
    by_cases hc : c = '/'
    · subst hc
      rw [List.cons_append, splitSlash_cons_slash, splitSlash_cons_slash, ih,
        List.cons_append]
    · rcases h : splitSlash a with _ | ⟨s, ss⟩
      · exact absurd h (splitSlash_ne_nil a)
      · rw [List.cons_append, splitSlash_cons_ne c _ hc,
          splitSlash_cons_ne c _ hc, ih, h]
        simp

theorem joinSlash_cons_cons (c : Char) (s : GoStr) (ss : List GoStr) :
    joinSlash ((c :: s) :: ss) = c :: joinSlash (s :: ss) := by
  cases ss <;> simp [joinSlash]

theorem joinSlash_splitSlash (p : GoStr) : joinSlash (splitSlash p) = p := by
  induction p with
  | nil => simp [splitSlash, joinSlash]
  | cons c rest ih =>
    by_cases hc : c = '/'
    · subst hc
      rw [splitSlash_cons_slash]
      rcases h : splitSlash rest with _ | ⟨s, ss⟩
      · exact absurd h (splitSlash_ne_nil rest)
      · rw [h] at ih; simp [joinSlash, ih]
    · rw [splitSlash_cons_ne c rest hc]
      rcases h : splitSlash rest with _ | ⟨s, ss⟩
      · exact absurd h (splitSlash_ne_nil rest)
      · rw [h] at ih
        simpa [joinSlash_cons_cons] using congrArg (c :: ·) ih

theorem splitSlash_of_noSlash (p : GoStr) (hp : '/' ∉ p) : splitSlash p = [p] := by
  induction p with
  | nil => simp [splitSlash]
  | cons c rest ih =>
    have hc : c ≠ '/' := fun h => hp (h ▸ List.mem_cons_self c rest)
    have hr : '/' ∉ rest := fun h => hp (List.mem_cons_of_mem c h)
    rw [splitSlash_cons_ne c rest hc, ih hr]

theorem splitSlash_joinSlash (l : List GoStr) (hne : l ≠ [])
    (hs : ∀ s ∈ l, '/' ∉ s) : splitSlash (joinSlash l) = l := by
  induction l with
  | nil => exact absurd rfl hne
  | cons x t ih =>
    cases t with
    | nil => simpa [joinSlash] using splitSlash_of_noSlash x (hs x (by simp))
    | cons y u =>
      have hx : '/' ∉ x := hs x (by simp)
      have := ih (by simp) (fun s hmem => hs s (List.mem_cons_of_mem x hmem))
      simp only [joinSlash, splitSlash_append, splitSlash_of_noSlash x hx, this,
        List.singleton_append]

theorem mem_splitSlash_noSlash (p : GoStr) :
    ∀ s ∈ splitSlash p, '/' ∉ s := by
  induction p with
  | nil => simp [splitSlash]
  | cons c rest ih =>
    by_cases hc : c = '/'
    · subst hc
      rw [splitSlash_cons_slash]
      intro s hmem
      rcases List.mem_cons.1 hmem with h | h
      · simp [h]
      · exact ih s h
    · rw [splitSlash_cons_ne c rest hc]
      rcases h : splitSlash rest with _ | ⟨s₀, ss⟩
      · exact absurd h (splitSlash_ne_nil rest)
      · rw [h] at ih
        intro s hmem
        rcases List.mem_cons.1 hmem with h₁ | h₁
        · subst h₁
          intro hin
          rcases List.mem_cons.1 hin with h₂ | h₂
          · exact hc h₂.symm
          · exact ih s₀ (by simp) h₂
        · exact ih s (List.mem_cons_of_mem s₀ h₁)

theorem joinSlash_ne_nil (x : GoStr) (t : List GoStr) (hx : x ≠ []) :
    joinSlash (x :: t) ≠ [] := by
  cases t <;> cases x <;> simp_all [joinSlash]

theorem filepathIsAbs_joinSlash (x : GoStr) (t : List GoStr)
    (hx : x ≠ []) (hsl : '/' ∉ x) : filepathIsAbs (joinSlash (x :: t)) = false := by
  cases x with
  | nil => exact absurd rfl hx
  | cons c cs =>
    have hc : c ≠ '/' := fun h => hsl (h ▸ List.mem_cons_self c cs)
    cases t <;> simp [joinSlash, filepathIsAbs, hc]

/-- One step of `..`-resolution over a stack of regular segments (most recent
first) plus a count of `..` segments that have already underflowed. -/
def debtStep : List GoStr × Nat → GoStr → List GoStr × Nat
  | (st, m), s =>
    if s = [] ∨ s = dotSeg then (st, m)
    else if s = dotdotSeg then
      match st with
      | [] => ([], m + 1)
      | _ :: t => (t, m)
    else (s :: st, m)

/-- Resolution of a list of segments from a given stack and debt. -/
def debtRun : List GoStr × Nat → List GoStr → List GoStr × Nat
  | st, [] => st
  | st, s :: rest => debtRun (debtStep st s) rest

theorem debtStep_skip (st : List GoStr × Nat) (s : GoStr)
    (h : s = [] ∨ s = dotSeg) : debtStep st s = st := by
  rcases st with ⟨R, m⟩; simp [debtStep, h]

theorem debtStep_dd_nil (m : Nat) : debtStep ([], m) dotdotSeg = ([], m + 1) := by
  simp [debtStep, dotdotSeg, dotSeg]

theorem debtStep_dd_cons (r : GoStr) (t : List GoStr) (m : Nat) :
    debtStep (r :: t, m) dotdotSeg = (t, m) := by
  simp [debtStep, dotdotSeg, dotSeg]

theorem debtStep_reg (st : List GoStr × Nat) (s : GoStr)
    (h₁ : ¬(s = [] ∨ s = dotSeg)) (h₂ : s ≠ dotdotSeg) :
    debtStep st s = (s :: st.1, st.2) := by
  rcases st with ⟨R, m⟩; simp [debtStep, h₁, h₂]

theorem cleanStack_skip (rooted : Bool) (stack : List GoStr) (s : GoStr)
    (rest : List GoStr) (h : s = [] ∨ s = dotSeg) :
    cleanStack rooted stack (s :: rest) = cleanStack rooted stack rest := by
  simp [cleanStack, h]

theorem cleanStack_dd_nil (rooted : Bool) (rest : List GoStr) :
    cleanStack rooted [] (dotdotSeg :: rest) =
      cleanStack rooted (if rooted then [] else [dotdotSeg]) rest := by
  simp [cleanStack, dotdotSeg, dotSeg]

theorem cleanStack_dd_cons (rooted : Bool) (top : GoStr) (more rest : List GoStr)
    (htop : top ≠ dotdotSeg) :
    cleanStack rooted (top :: more) (dotdotSeg :: rest) =
      cleanStack rooted more rest := by
  have h : top = ['.', '.'] → False := by simpa [dotdotSeg] using htop
  simp [cleanStack, dotdotSeg, dotSeg]
  intro hh
  exact absurd hh h

theorem cleanStack_dd_top (rooted : Bool) (more rest : List GoStr) :
    cleanStack rooted (dotdotSeg :: more) (dotdotSeg :: rest) =
      cleanStack rooted (dotdotSeg :: dotdotSeg :: more) rest := by
  simp [cleanStack, dotdotSeg, dotSeg]

theorem cleanStack_reg (rooted : Bool) (stack : List GoStr) (s : GoStr)
    (rest : List GoStr) (h₁ : ¬(s = [] ∨ s = dotSeg)) (h₂ : s ≠ dotdotSeg) :
    cleanStack rooted stack (s :: rest) = cleanStack rooted (s :: stack) rest := by
  simp [cleanStack, h₁, h₂]

theorem debtRun_cons (st : List GoStr × Nat) (s : GoStr) (rest : List GoStr) :
    debtRun st (s :: rest) = debtRun (debtStep st s) rest := rfl

theorem debtRun_append (st : List GoStr × Nat) (a b : List GoStr) :
    debtRun st (a ++ b) = debtRun (debtRun st a) b := by
  induction a generalizing st with
  | nil => rfl
  | cons s rest ih => exact ih (debtStep st s)

/-- The Clean segment loop of a relative path is exactly `..`-resolution: a
stack of regular segments followed by the underflowed `..`s. -/
theorem cleanStack_eq_debtRun (P : List GoStr) :
    ∀ (R : List GoStr) (m : Nat), (∀ s ∈ R, RegSeg s) →
    cleanStack false (R ++ List.replicate m dotdotSeg) P =
      (debtRun (R, m) P).1 ++ List.replicate (debtRun (R, m) P).2 dotdotSeg := by
  induction P with
  | nil => intro R m _; rfl
  | cons s rest ih =>
    intro R m hR
    by_cases hskip : s = [] ∨ s = dotSeg
    · rw [cleanStack_skip _ _ _ _ hskip, debtRun_cons, debtStep_skip _ _ hskip]
      exact ih R m hR
    · by_cases hdd : s = dotdotSeg
      · subst hdd
        cases R with
        | nil =>
          cases m with
          | zero =>
            rw [List.nil_append, List.replicate_zero, cleanStack_dd_nil,
              debtRun_cons, debtStep_dd_nil]
            have := ih [] 1 (by simp)
            simpa using this
          | succ k =>
            rw [List.nil_append, List.replicate_succ, cleanStack_dd_top,
              debtRun_cons, debtStep_dd_nil]
            have := ih [] (k + 2) (by simp)
            simpa [List.replicate_succ] using this
        | cons r R₂ =>
          have hr : RegSeg r := hR r (by simp)
          rw [List.cons_append, cleanStack_dd_cons _ _ _ _ hr.2.2,
            debtRun_cons, debtStep_dd_cons]
          exact ih R₂ m (fun x hx => hR x (List.mem_cons_of_mem r hx))
      · have hreg : RegSeg s :=
          ⟨fun h => hskip (Or.inl h), fun h => hskip (Or.inr h), hdd⟩
        rw [cleanStack_reg _ _ _ _ hskip hdd, debtRun_cons,
          debtStep_reg _ _ hskip hdd]
        have := ih (s :: R) m (by
          intro x hx
          rcases List.mem_cons.1 hx with h | h
          · exact h ▸ hreg
          · exact hR x h)
        simpa using this

/-- Running the resolution from any stack and debt is determined by the
resolution from the empty stack: surviving segments are pushed on top, debt
first consumes the given stack and then accrues. -/
theorem debtRun_decomp (P : List GoStr) :
    ∀ (R : List GoStr) (m : Nat),
    debtRun (R, m) P =
      ((debtRun ([], 0) P).1 ++ R.drop (debtRun ([], 0) P).2,
        m + ((debtRun ([], 0) P).2 - R.length)) := by
  induction P with
  | nil => intro R m; simp [debtRun]
  | cons s rest ih =>
    intro R m
    rw [debtRun_cons ([], 0), debtRun_cons]
    by_cases hskip : s = [] ∨ s = dotSeg
    · rw [debtStep_skip _ _ hskip, debtStep_skip _ _ hskip]
      exact ih R m
    · by_cases hdd : s = dotdotSeg
      · subst hdd
        rcases h : debtRun ([], 0) rest with ⟨S₁, j₁⟩
        cases R with
        | nil =>
          rw [debtStep_dd_nil, debtStep_dd_nil]
          rw [ih [] (m + 1), ih [] 1, h]
          simp only [List.drop_nil, List.append_nil, List.length_nil,
            Nat.sub_zero]
          refine Prod.ext rfl ?_
          simp only []
          omega
        | cons r R₂ =>
          rw [debtStep_dd_cons, debtStep_dd_nil]
          rw [ih R₂ m, ih [] 1, h]
          simp only [List.drop_nil, List.append_nil, List.length_nil,
            Nat.sub_zero, List.length_cons]
          refine Prod.ext ?_ ?_
          · simp only [Nat.add_comm 1 j₁, List.drop_succ_cons]
          · simp only []
            omega
      · rw [debtStep_reg _ _ hskip hdd, debtStep_reg _ _ hskip hdd]
        rcases h : debtRun ([], 0) rest with ⟨S₁, j₁⟩
        simp only []
        rw [ih (s :: R) m, ih [s] 0, h]
        simp only [List.length_cons, List.length_singleton, List.length_nil]
        cases j₁ with
        | zero =>
          simp
        | succ k =>
          simp only [List.drop_succ_cons, List.drop_nil, List.append_nil]
          refine Prod.ext ?_ ?_
          · simp only []
            cases k <;> simp [List.drop_succ_cons]
          · simp only []
            omega

/-- Resolution of a list of regular segments pushes them all. -/
theorem debtRun_regular (B : List GoStr) :
    ∀ (R : List GoStr) (m : Nat), (∀ s ∈ B, RegSeg s) →
    debtRun (R, m) B = (B.reverse ++ R, m) := by
  induction B with
  | nil => intro R m _; simp [debtRun]
  | cons b t ih =>
    intro R m hB
    have hb : RegSeg b := hB b (by simp)
    have h₁ : ¬(b = [] ∨ b = dotSeg) := by
      rintro (h | h)
      · exact hb.1 h
      · exact hb.2.1 h
    rw [debtRun_cons, debtStep_reg _ _ h₁ hb.2.2]
    rw [ih (b :: R) m (fun x hx => hB x (List.mem_cons_of_mem b hx))]
    simp

/-- Surviving segments of a resolution are regular, and come from the stack
or from the input. -/
theorem debtRun_mem (P : List GoStr) :
    ∀ (R : List GoStr) (m : Nat), (∀ s ∈ R, RegSeg s) →
    ∀ s ∈ (debtRun (R, m) P).1, RegSeg s ∧ (s ∈ R ∨ s ∈ P) := by
  induction P with
  | nil =>
    intro R m hR s hs
    exact ⟨hR s hs, Or.inl hs⟩
  | cons x rest ih =>
    intro R m hR s hs
    by_cases hskip : x = [] ∨ x = dotSeg
    · rw [debtRun_cons, debtStep_skip _ _ hskip] at hs
      rcases ih R m hR s hs with ⟨h₁, h₂ | h₂⟩
      · exact ⟨h₁, Or.inl h₂⟩
      · exact ⟨h₁, Or.inr (List.mem_cons_of_mem x h₂)⟩
    · by_cases hdd : x = dotdotSeg
      · subst hdd
        cases R with
        | nil =>
          rw [debtRun_cons, debtStep_dd_nil] at hs
          rcases ih [] (m + 1) (by simp) s hs with ⟨h₁, h₂ | h₂⟩
          · simp at h₂
          · exact ⟨h₁, Or.inr (List.mem_cons_of_mem _ h₂)⟩
        | cons r R₂ =>
          rw [debtRun_cons, debtStep_dd_cons] at hs
          rcases ih R₂ m (fun y hy => hR y (List.mem_cons_of_mem r hy)) s hs with
            ⟨h₁, h₂ | h₂⟩
          · exact ⟨h₁, Or.inl (List.mem_cons_of_mem r h₂)⟩
          · exact ⟨h₁, Or.inr (List.mem_cons_of_mem _ h₂)⟩
      · have hreg : RegSeg x :=
          ⟨fun h => hskip (Or.inl h), fun h => hskip (Or.inr h), hdd⟩
        rw [debtRun_cons, debtStep_reg _ _ hskip hdd] at hs
        have hR₂ : ∀ y ∈ x :: R, RegSeg y := by
          intro y hy
          rcases List.mem_cons.1 hy with h | h
          · exact h ▸ hreg
          · exact hR y h
        rcases ih (x :: R) m hR₂ s hs with ⟨h₁, h₂ | h₂⟩
        · rcases List.mem_cons.1 h₂ with h₃ | h₃
          · exact ⟨h₁, Or.inr (h₃ ▸ List.mem_cons_self x rest)⟩
          · exact ⟨h₁, Or.inl h₃⟩
        · exact ⟨h₁, Or.inr (List.mem_cons_of_mem x h₂)⟩

/-- Rendering of the Clean stack of a relative path: the underflowed `..`s,
then the surviving segments; an empty body renders as a single dot. -/
def renderRel (S : List GoStr) (d : Nat) : GoStr :=
  let body := joinSlash (List.replicate d dotdotSeg ++ S.reverse)
  if body = [] then dotSeg else body

theorem filepathClean_relative (p : GoStr) (hp : filepathIsAbs p = false) :
    filepathClean p =
      renderRel (debtRun ([], 0) (splitSlash p)).1
        (debtRun ([], 0) (splitSlash p)).2 := by
  have hstack := cleanStack_eq_debtRun (splitSlash p) [] 0 (by simp)
  simp only [List.nil_append, List.replicate_zero, List.append_nil] at hstack
  unfold filepathClean renderRel
  rw [hp] at *
  simp only [Bool.false_eq_true, if_false, hstack, List.reverse_append,
    List.reverse_replicate]

theorem joinSlash_cons_of_ne (s : GoStr) (X : List GoStr) (hX : X ≠ []) :
    joinSlash (s :: X) = s ++ '/' :: joinSlash X := by
  cases X with
  | nil => exact absurd rfl hX
  | cons y t => rfl

theorem joinSlash_eq_nil_iff (l : List GoStr) (h : ∀ s ∈ l, s ≠ []) :
    joinSlash l = [] ↔ l = [] := by
  cases l with
  | nil => simp [joinSlash]
  | cons x t =>
    have hx : x ≠ [] := h x (by simp)
    simp only [iff_false, List.cons_ne_nil, iff_false_intro (List.cons_ne_nil x t)]
    exact fun hc => joinSlash_ne_nil x t hx hc

theorem debtRun_dd_replicate (d : Nat) :
    ∀ m : Nat, debtRun ([], m) (List.replicate d dotdotSeg) = ([], m + d) := by
  induction d with
  | zero => intro m; simp [debtRun]
  | succ k ih =>
    intro m
    rw [List.replicate_succ, debtRun_cons, debtStep_dd_nil, ih (m + 1)]
    simp [Nat.add_assoc, Nat.add_comm 1 k]

theorem filepathClean_renderRel (S : List GoStr) (d : Nat)
    (hS : ∀ s ∈ S, GoodSeg s) : filepathClean (renderRel S d) = renderRel S d := by
  have hmem : ∀ s ∈ List.replicate d dotdotSeg ++ S.reverse, s ≠ [] ∧ '/' ∉ s := by
    intro s hs
    rcases List.mem_append.1 hs with h | h
    · rw [List.eq_of_mem_replicate h]
      exact ⟨by simp [dotdotSeg], by simp [dotdotSeg]⟩
    · have := hS s (List.mem_reverse.1 h)
      exact ⟨this.1.1, this.2⟩
  by_cases hbody : joinSlash (List.replicate d dotdotSeg ++ S.reverse) = []
  · have hnil : List.replicate d dotdotSeg ++ S.reverse = [] :=
      (joinSlash_eq_nil_iff _ (fun s hs => (hmem s hs).1)).1 hbody
    rcases List.append_eq_nil.1 hnil with ⟨h₁, h₂⟩
    have hd : d = 0 := by
      by_contra hd
      rcases Nat.exists_eq_succ_of_ne_zero hd with ⟨k, rfl⟩
      simp [List.replicate_succ] at h₁
    have hSnil : S = [] := by simpa using congrArg List.reverse h₂
    subst hd; subst hSnil
    simp only [renderRel, List.replicate_zero, List.reverse_nil,
      List.append_nil, joinSlash, if_pos rfl]
    decide
  · rcases h : List.replicate d dotdotSeg ++ S.reverse with _ | ⟨x, t⟩
    · rw [h] at hbody; simp [joinSlash] at hbody
    · have hx : x ≠ [] ∧ '/' ∉ x := hmem x (by rw [h]; simp)
      have hrend : renderRel S d = joinSlash (List.replicate d dotdotSeg ++ S.reverse) := by
        simp only [renderRel, if_neg hbody]
      rw [hrend, h]
      have habs : filepathIsAbs (joinSlash (x :: t)) = false :=
        filepathIsAbs_joinSlash x t hx.1 hx.2
      rw [filepathClean_relative _ habs]
      have hsplit : splitSlash (joinSlash (x :: t)) = x :: t := by
        rw [← h]
        exact splitSlash_joinSlash _ (by rw [h]; simp)
          (fun s hs => (hmem s hs).2)
      rw [hsplit, ← h]
      rw [debtRun_append, debtRun_dd_replicate d 0]
      simp only [Nat.zero_add]
      rw [debtRun_regular S.reverse [] d (by
        intro s hs
        exact (hS s (List.mem_reverse.1 hs)).1)]
      simp only [List.reverse_reverse, List.append_nil]
      simp only [renderRel, if_neg hbody]

theorem containsSeq_cons_eq (pat : GoStr) (c : Char) (rest : GoStr) :
    containsSeq pat (c :: rest) =
      (isPrefixSeq pat (c :: rest) || containsSeq pat rest) := rfl

theorem containsSeq_of_isPre (pat s : GoStr) (h : isPrefixSeq pat s = true) :
    containsSeq pat s = true := by
  cases s with
  | nil => simpa [containsSeq] using h
  | cons c rest => simp [containsSeq_cons_eq, h]

theorem containsSeq_append_left (pat a b : GoStr)
    (h : containsSeq pat b = true) : containsSeq pat (a ++ b) = true := by
  induction a with
  | nil => simpa using h
  | cons c t ih => simp [containsSeq_cons_eq, ih]

theorem isPrefixSeq_self_append (l x : GoStr) :
    isPrefixSeq l (l ++ x) = true := by
  induction l with
  | nil => rfl
  | cons c t ih => simp [isPrefixSeq, ih]

theorem containsSeq_joinSlash_append (pat : GoStr) (a X : List GoStr)
    (hX : X ≠ []) (h : containsSeq pat (joinSlash X) = true) :
    containsSeq pat (joinSlash (a ++ X)) = true := by
  induction a with
  | nil => simpa using h
  | cons q a' ih =>
    have hne : a' ++ X ≠ [] := by
      intro hc
      exact hX (List.append_eq_nil.1 hc).2
    rw [List.cons_append, joinSlash_cons_of_ne q (a' ++ X) hne]
    apply containsSeq_append_left
    rw [containsSeq_cons_eq]
    simp [ih]

theorem dotdot_middle_contains (p : GoStr) (Q₁ Q₂ : List GoStr)
    (h : splitSlash p = Q₁ ++ dotdotSeg :: Q₂) (hne : Q₂ ≠ []) :
    containsSeq (gs "../") p = true := by
  have hp : p = joinSlash (Q₁ ++ dotdotSeg :: Q₂) := by
    rw [← h, joinSlash_splitSlash]
  rw [hp]
  apply containsSeq_joinSlash_append _ _ _ (by simp)
  rw [joinSlash_cons_of_ne dotdotSeg Q₂ hne]
  apply containsSeq_of_isPre
  have : gs "../" = ['.', '.', '/'] := by decide
  rw [this]
  simp [dotdotSeg, isPrefixSeq]

/-- If a path has no occurrence of the substring `../`, a `..` segment can
only be its final segment. -/
theorem noMidDotdot (p : GoStr) (hc : containsSeq (gs "../") p = false) :
    ∀ Q₁ Q₂, splitSlash p = Q₁ ++ dotdotSeg :: Q₂ → Q₂ = [] := by
  intro Q₁ Q₂ h
  by_contra hne
  rw [dotdot_middle_contains p Q₁ Q₂ h hne] at hc
  simp at hc

/-- If every `..` segment is final, a resolution that underflows ends with an
empty stack and a debt of exactly one. -/
theorem debtRun_trailing_dd (P : List GoStr)
    (hP : ∀ Q₁ Q₂, P = Q₁ ++ dotdotSeg :: Q₂ → Q₂ = []) :
    ∀ R : List GoStr, 1 ≤ (debtRun (R, 0) P).2 →
      (debtRun (R, 0) P).1 = [] ∧ (debtRun (R, 0) P).2 = 1 := by
  induction P with
  | nil => intro R h; simp [debtRun] at h
  | cons s rest ih =>
    intro R h
    have hrest : ∀ Q₁ Q₂, rest = Q₁ ++ dotdotSeg :: Q₂ → Q₂ = [] := by
      intro Q₁ Q₂ hr
      exact hP (s :: Q₁) Q₂ (by rw [hr]; rfl)
    by_cases hskip : s = [] ∨ s = dotSeg
    · rw [debtRun_cons, debtStep_skip _ _ hskip] at h ⊢
      exact ih hrest R h
    · by_cases hdd : s = dotdotSeg
      · subst hdd
        have hrnil : rest = [] := hP [] rest (by rfl)
        subst hrnil
        cases R with
        | nil =>
          rw [debtRun_cons, debtStep_dd_nil]
          exact ⟨rfl, rfl⟩
        | cons r R₂ =>
          rw [debtRun_cons, debtStep_dd_cons] at h
          simp [debtRun] at h
      · rw [debtRun_cons, debtStep_reg _ _ hskip hdd] at h ⊢
        exact ih hrest (s :: R) h

theorem isPrefixSeq_dd_joinSlash (f : GoStr) (t : List GoStr) (hf : f ≠ []) :
    isPrefixSeq dotdotSeg (joinSlash (f :: t)) = isPrefixSeq dotdotSeg f := by
  cases f with
  | nil => exact absurd rfl hf
  | cons c₁ f₁ =>
    cases f₁ with
    | nil =>
      cases t with
      | nil => rfl
      | cons y u =>
        rw [joinSlash_cons_of_ne _ _ (by simp)]
        simp [dotdotSeg, isPrefixSeq]
    | cons c₂ f₂ =>
      cases t with
      | nil => rfl
      | cons y u =>
        rw [joinSlash_cons_of_ne _ _ (by simp)]
        simp [dotdotSeg, isPrefixSeq]

theorem filepathIsAbs_append (a x : GoStr) (ha : a ≠ []) :
    filepathIsAbs (a ++ x) = filepathIsAbs a := by
  cases a with
  | nil => exact absurd rfl ha
  | cons c t => rfl

theorem joinSlash_good_inj {l₁ l₂ : List GoStr} (h₁ : l₁ ≠ []) (h₂ : l₂ ≠ [])
    (hs₁ : ∀ s ∈ l₁, '/' ∉ s) (hs₂ : ∀ s ∈ l₂, '/' ∉ s)
    (h : joinSlash l₁ = joinSlash l₂) : l₁ = l₂ := by
  rw [← splitSlash_joinSlash l₁ h₁ hs₁, ← splitSlash_joinSlash l₂ h₂ hs₂, h]

theorem filepathClean_good (B : List GoStr) (hB : ∀ s ∈ B, GoodSeg s)
    (hne : B ≠ []) : filepathClean (joinSlash B) = joinSlash B := by
  cases B with
  | nil => exact absurd rfl hne
  | cons b₀ B' =>
    have hb₀ := hB b₀ (by simp)
    rw [filepathClean_relative _ (filepathIsAbs_joinSlash b₀ B' hb₀.1.1 hb₀.2)]
    rw [splitSlash_joinSlash _ (by simp) (fun s hs => (hB s hs).2)]
    rw [debtRun_regular _ [] 0 (fun s hs => (hB s hs).1)]
    simp only [renderRel, List.append_nil, List.replicate_zero,
      List.nil_append, List.reverse_reverse]
    rw [if_neg (joinSlash_ne_nil b₀ B' hb₀.1.1)]

theorem joinSlash_good_ne_dot (B : List GoStr) (hB : ∀ s ∈ B, GoodSeg s)
    (hne : B ≠ []) : joinSlash B ≠ dotSeg := by
  intro h
  have hBd : B = [dotSeg] := by
    apply joinSlash_good_inj hne (by simp) (fun s hs => (hB s hs).2)
      (by intro s hs; simp at hs; simp [hs, dotSeg])
    simpa [joinSlash] using h
  have := (hB dotSeg (by simp [hBd])).1.2.1
  exact this rfl

theorem filepathIsAbs_good (B : List GoStr) (hB : ∀ s ∈ B, GoodSeg s)
    (hne : B ≠ []) : filepathIsAbs (joinSlash B) = false := by
  cases B with
  | nil => exact absurd rfl hne
  | cons b₀ B' =>
    have hb₀ := hB b₀ (by simp)
    exact filepathIsAbs_joinSlash b₀ B' hb₀.1.1 hb₀.2

theorem dropCommon_self_append (B T : List GoStr) :
    dropCommon B (B ++ T) = ([], T) := by
  induction B with
  | nil => cases T <;> rfl
  | cons b bs ih => simpa [dropCommon] using ih

theorem dropCommon_append_both (l a b : List GoStr) :
    dropCommon (l ++ a) (l ++ b) = dropCommon a b := by
  induction l with
  | nil => rfl
  | cons x t ih => simpa [dropCommon] using ih

theorem filepathRel_refl (x : GoStr) : filepathRel x x = some dotSeg := by
  unfold filepathRel
  simp

theorem filepathRel_good_extend (B T : List GoStr) (hB : ∀ s ∈ B, GoodSeg s)
    (hBne : B ≠ []) (hT : ∀ s ∈ T, GoodSeg s) (hTne : T ≠ []) :
    filepathRel (joinSlash B) (joinSlash (B ++ T)) = some (joinSlash T) := by
  have hBT : ∀ s ∈ B ++ T, GoodSeg s := by
    intro s hs
    rcases List.mem_append.1 hs with h | h
    · exact hB s h
    · exact hT s h
  have hBTne : B ++ T ≠ [] := by
    intro h; exact hBne (List.append_eq_nil.1 h).1
  have hne : joinSlash (B ++ T) ≠ joinSlash B := by
    intro h
    have := joinSlash_good_inj hBTne hBne (fun s hs => (hBT s hs).2)
      (fun s hs => (hB s hs).2) h
    rcases hTne (by simpa using congrArg (List.drop B.length) this)
  have hjBne : joinSlash B ≠ [] := by
    cases B with
    | nil => exact absurd rfl hBne
    | cons b₀ B' => exact joinSlash_ne_nil b₀ B' (hB b₀ (by simp)).1.1
  have hjBTne : joinSlash (B ++ T) ≠ [] := by
    cases B with
    | nil => exact absurd rfl hBne
    | cons b₀ B' =>
      rw [List.cons_append]
      exact joinSlash_ne_nil b₀ (B' ++ T) (hB b₀ (by simp)).1.1
  unfold filepathRel
  rw [filepathClean_good B hB hBne, filepathClean_good _ hBT hBTne]
  rw [if_neg hne, if_neg (joinSlash_good_ne_dot B hB hBne)]
  dsimp only
  rw [filepathIsAbs_good B hB hBne, filepathIsAbs_good _ hBT hBTne]
  rw [if_neg (by simp : ¬(false ≠ false))]
  rw [if_neg (by simp : ¬(false = true)), if_neg (by simp : ¬(false = true))]
  simp only [relSegsBody, if_neg hjBne, if_neg hjBTne]
  rw [splitSlash_joinSlash B hBne (fun s hs => (hB s hs).2)]
  rw [splitSlash_joinSlash _ hBTne (fun s hs => (hBT s hs).2)]
  rw [dropCommon_self_append]

theorem filepathRel_good_shrink (B₁ : List GoStr) (bl : GoStr)
    (hB : ∀ s ∈ B₁ ++ [bl], GoodSeg s) :
    ∃ r, filepathRel (joinSlash (B₁ ++ [bl])) (renderRel B₁.reverse 0) = some r ∧
      isPrefixSeq dotdotSeg r = true := by
  have hbl : GoodSeg bl := hB bl (by simp)
  have hB₁ : ∀ s ∈ B₁, GoodSeg s := fun s hs => hB s (by simp [hs])
  have hBne : B₁ ++ [bl] ≠ [] := by simp
  have hbase : filepathClean (joinSlash (B₁ ++ [bl])) = joinSlash (B₁ ++ [bl]) :=
    filepathClean_good _ hB hBne
  have habsB : filepathIsAbs (joinSlash (B₁ ++ [bl])) = false :=
    filepathIsAbs_good _ hB hBne
  have hsplitB : splitSlash (joinSlash (B₁ ++ [bl])) = B₁ ++ [bl] :=
    splitSlash_joinSlash _ hBne (fun s hs => (hB s hs).2)
  cases B₁ with
  | nil =>
    refine ⟨joinSlash [dotdotSeg, dotSeg], ?_, by decide⟩
    have hrend : renderRel ([] : List GoStr).reverse 0 = dotSeg := by decide
    have hjne : joinSlash ([] ++ [bl]) ≠ [] := by
      simpa using joinSlash_ne_nil bl [] hbl.1.1
    rw [hrend]
    unfold filepathRel
    rw [hbase]
    rw [show filepathClean dotSeg = dotSeg from by decide]
    rw [if_neg (fun h => joinSlash_good_ne_dot _ hB hBne h.symm)]
    rw [if_neg (joinSlash_good_ne_dot _ hB hBne)]
    dsimp only
    rw [habsB, show filepathIsAbs dotSeg = false from by decide]
    rw [if_neg (by simp : ¬(false ≠ false))]
    rw [if_neg (by simp : ¬(false = true)), if_neg (by simp : ¬(false = true))]
    simp only [relSegsBody, if_neg hjne,
      if_neg (by decide : ¬(dotSeg = ([] : GoStr)))]
    rw [hsplitB, show splitSlash dotSeg = [dotSeg] from by decide]
    rw [show dropCommon ([] ++ [bl]) [dotSeg] = ([bl], [dotSeg]) from by
      simp [dropCommon, fun h => hbl.1.2.1 h]]
    dsimp only
    rw [if_neg hbl.1.2.2]
    simp
  | cons f₁ B₁' =>
    have hf₁ : GoodSeg f₁ := hB₁ f₁ (by simp)
    have hB₁ne : (f₁ :: B₁') ≠ ([] : List GoStr) := by simp
    have htne : joinSlash (f₁ :: B₁') ≠ [] := joinSlash_ne_nil f₁ B₁' hf₁.1.1
    have hrend : renderRel (f₁ :: B₁').reverse 0 = joinSlash (f₁ :: B₁') := by
      simp only [renderRel, List.replicate_zero, List.nil_append,
        List.reverse_reverse]
      rw [if_neg htne]
    have hjne : joinSlash ((f₁ :: B₁') ++ [bl]) ≠ [] := by
      rw [List.cons_append]
      exact joinSlash_ne_nil f₁ (B₁' ++ [bl]) hf₁.1.1
    refine ⟨joinSlash [dotdotSeg], ?_, by decide⟩
    rw [hrend]
    unfold filepathRel
    rw [hbase, filepathClean_good _ hB₁ hB₁ne]
    rw [if_neg (by
      intro h
      have := joinSlash_good_inj hB₁ne hBne (fun s hs => (hB₁ s hs).2)
        (fun s hs => (hB s hs).2) h
      have hlen := congrArg List.length this
      simp at hlen)]
    rw [if_neg (joinSlash_good_ne_dot _ hB hBne)]
    dsimp only
    rw [habsB, filepathIsAbs_good _ hB₁ hB₁ne]
    rw [if_neg (by simp : ¬(false ≠ false))]
    rw [if_neg (by simp : ¬(false = true)), if_neg (by simp : ¬(false = true))]
    simp only [relSegsBody, if_neg hjne, if_neg htne]
    rw [hsplitB, splitSlash_joinSlash _ hB₁ne (fun s hs => (hB₁ s hs).2)]
    rw [show dropCommon (f₁ :: B₁' ++ [bl]) (f₁ :: B₁') =
        dropCommon ((f₁ :: B₁') ++ [bl]) ((f₁ :: B₁') ++ []) from by simp]
    rw [dropCommon_append_both (f₁ :: B₁') [bl] []]
    rw [show dropCommon [bl] [] = ([bl], []) from rfl]
    dsimp only
    rw [if_neg hbl.1.2.2]
    simp

/-- Resolution of the slash segments of a path: the surviving regular
segments (most recent first) and the number of `..` segments that lexically
escape past the start of the path. -/
def resolveSegs (path : GoStr) : List GoStr × Nat :=
  debtRun ([], 0) (splitSlash path)

/-- Spec-side predicate: the normalized form of the path stays inside any
base directory it is joined to, i.e. its own `..`-resolution never
underflows. -/
def staysInside (path : GoStr) : Bool :=
  (resolveSegs path).2 = 0

/-- Spec-side predicate: the first normalized segment, if any, does not begin
with two dots (for such segments the code mistakes the relative form returned
by `filepath.Rel` for an escape). -/
def firstSegDotDotFree (path : GoStr) : Bool :=
  match (resolveSegs path).1.reverse with
  | [] => true
  | f :: _ => !(isPrefixSeq dotdotSeg f)

example : validatePath (gs "overlay") (gs "test.txt") = .ok () := by decide
example : validatePath (gs "overlay") (gs "subdir/test.txt") = .ok () := by decide
example : validatePath (gs "overlay") (gs ".config") = .ok () := by decide
example : validatePath (gs "overlay") (gs "../test.txt") = .error (.escapes (gs "../test.txt")) := by decide
example : validatePath (gs "overlay") (gs "/etc/passwd") = .error (.absolute (gs "/etc/passwd")) := by decide
example : validatePath (gs "overlay") (gs "subdir/../../../test.txt") = .error (.escapes (gs "subdir/../../../test.txt")) := by decide
example : validatePath (gs "overlay") (gs "subdir/./test.txt") = .ok () := by decide
example : validatePath (gs "overlay") (gs "subdir//test.txt") = .ok () := by decide
example : filepathClean (gs "a/../b") = gs "b" := by decide
example : validatePath (gs "overlay") (gs "a/../b") ≠ .ok () := by decide
example : validatePath (gs "overlay") (gs "..foo/x") ≠ .ok () := by decide
example : validatePath (gs "overlay") (gs "a/..") = .ok () := by decide
example : filepathRel (gs "a") (gs ".") = some (gs "../.") := by decide
example : filepathDir (gs "d/a/b") = gs "d/a" := by decide
example : filepathDir (gs "a") = gs "." := by decide

theorem resolveSegs_eq (path : GoStr) :
    resolveSegs path = debtRun ([], 0) (splitSlash path) := rfl

/-- The characterization of validatePath over a well-formed relative base. -/
theorem validatePath_iff (B : List GoStr) (hB : ∀ s ∈ B, GoodSeg s)
    (hBne : B ≠ []) (path : GoStr) :
    validatePath (joinSlash B) path = .ok () ↔
      (filepathIsAbs path = false ∧ containsSeq (gs "../") path = false ∧
        staysInside path = true ∧ firstSegDotDotFree path = true) := by
  by_cases hb : filepathIsAbs path = true
  · constructor
    · intro h
      rw [validatePath, if_pos hb] at h
      cases h
    · rintro ⟨h₁, -⟩
      rw [hb] at h₁
      cases h₁
  have hb' : filepathIsAbs path = false := by
    cases h : filepathIsAbs path
    · rfl
    · exact absurd h hb
  have hBreg : ∀ s ∈ B, RegSeg s := fun s hs => (hB s hs).1
  have hBnosl : ∀ s ∈ B, '/' ∉ s := fun s hs => (hB s hs).2
  have hjBne : joinSlash B ≠ [] := by
    cases B with
    | nil => exact absurd rfl hBne
    | cons b₀ B' => exact joinSlash_ne_nil b₀ B' ((hB b₀ (by simp)).1.1)
  have hcleanB : filepathClean (joinSlash B) = joinSlash B :=
    filepathClean_good B hB hBne
  rw [validatePath, if_neg (by rw [hb']; exact fun h => by cases h)]
  dsimp only
  rw [hcleanB]
  by_cases hpnil : path = []
  · subst hpnil
    have hjoin : filepathJoin (joinSlash B) [] = filepathClean (joinSlash B) := by
      simp [filepathJoin, hjBne]
    rw [hjoin, hcleanB, hcleanB, filepathRel_refl]
    exact ⟨fun _ => ⟨hb', by decide, by decide, by decide⟩, fun _ => by decide⟩
  · have habsB : filepathIsAbs (joinSlash B) = false := filepathIsAbs_good B hB hBne
    have hjoin : filepathJoin (joinSlash B) path =
        filepathClean (joinSlash B ++ '/' :: path) := by
      simp [filepathJoin, hjBne, hpnil]
    have habsbp : filepathIsAbs (joinSlash B ++ '/' :: path) = false := by
      rw [filepathIsAbs_append _ _ hjBne]; exact habsB
    have hsplitbp : splitSlash (joinSlash B ++ '/' :: path) =
        B ++ splitSlash path := by
      rw [splitSlash_append, splitSlash_joinSlash B hBne hBnosl]
    rcases hsj : resolveSegs path with ⟨S, j⟩
    rw [resolveSegs_eq] at hsj
    have hSgood : ∀ s ∈ S, GoodSeg s := by
      intro s hs
      have hmem := debtRun_mem (splitSlash path) [] 0 (by simp) s (by
        rw [hsj]; exact hs)
      rcases hmem with ⟨hreg, h | h⟩
      · simp at h
      · exact ⟨hreg, mem_splitSlash_noSlash path s h⟩
    have hdebt : debtRun ([], 0) (B ++ splitSlash path) =
        (S ++ B.reverse.drop j, j - B.length) := by
      rw [debtRun_append, debtRun_regular B [] 0 hBreg]
      simp only [List.append_nil]
      rw [debtRun_decomp, hsj]
      simp [List.length_reverse]
    have hclean1 : filepathClean (joinSlash B ++ '/' :: path) =
        renderRel (S ++ B.reverse.drop j) (j - B.length) := by
      rw [filepathClean_relative _ habsbp, hsplitbp, hdebt]
    have hstackgood : ∀ s ∈ S ++ B.reverse.drop j, GoodSeg s := by
      intro s hs
      rcases List.mem_append.1 hs with h | h
      · exact hSgood s h
      · exact hB s (List.mem_reverse.1 (List.mem_of_mem_drop h))
    have hclean2 : filepathClean (filepathJoin (joinSlash B) path) =
        renderRel (S ++ B.reverse.drop j) (j - B.length) := by
      rw [hjoin, hclean1, filepathClean_renderRel _ _ hstackgood]
    rw [hclean2]
    have hstays : staysInside path = decide (j = 0) := by
      rw [staysInside, resolveSegs_eq, hsj]
    cases j with
    | zero =>
      rw [Nat.zero_sub]
      rcases hS : S.reverse with _ | ⟨f, frest⟩
      · have hSnil : S = [] := by simpa using congrArg List.reverse hS
        subst hSnil
        have hrend : renderRel (([] : List GoStr) ++ B.reverse.drop 0) 0 =
            joinSlash B := by
          simp only [renderRel, List.replicate_zero, List.nil_append,
            List.drop_zero, List.reverse_reverse]
          rw [if_neg hjBne]
        rw [hrend, filepathRel_refl]
        dsimp only
        rw [show isPrefixSeq dotdotSeg dotSeg = false from by decide]
        simp only [Bool.false_or]
        constructor
        · intro h
          refine ⟨hb', ?_, by rw [hstays]; decide, ?_⟩
          · cases hcon : containsSeq (gs "../") path
            · rfl
            · rw [hcon] at h; simp at h
          · rw [firstSegDotDotFree, resolveSegs_eq, hsj]
            simp
        · rintro ⟨-, hcon, -, -⟩
          rw [hcon]
          rfl
      · have hSne : S ≠ [] := by
          intro h; rw [h] at hS; cases hS
        have hfgood : GoodSeg f := hSgood f (by
          have : f ∈ S.reverse := by rw [hS]; simp
          exact List.mem_reverse.1 this)
        have hrevgood : ∀ s ∈ S.reverse, GoodSeg s :=
          fun s hs => hSgood s (List.mem_reverse.1 hs)
        have hrevne : S.reverse ≠ [] := by rw [hS]; simp
        have hrend : renderRel (S ++ B.reverse.drop 0) 0 =
            joinSlash (B ++ S.reverse) := by
          simp only [renderRel, List.replicate_zero, List.nil_append,
            List.drop_zero, List.reverse_append, List.reverse_reverse]
          rw [if_neg (by
            cases B with
            | nil => exact absurd rfl hBne
            | cons b₀ B' =>
              rw [List.cons_append]
              exact joinSlash_ne_nil b₀ (B' ++ S.reverse) ((hB b₀ (by simp)).1.1))]
        rw [hrend, filepathRel_good_extend B S.reverse hB hBne hrevgood hrevne, hS]
        dsimp only
        rw [isPrefixSeq_dd_joinSlash f frest hfgood.1.1]
        constructor
        · intro h
          refine ⟨hb', ?_, by rw [hstays]; decide, ?_⟩
          · cases hcon : containsSeq (gs "../") path
            · rfl
            · rw [hcon, Bool.or_true] at h; simp at h
          · rw [firstSegDotDotFree, resolveSegs_eq, hsj, hS]
            dsimp only
            cases hpre : isPrefixSeq dotdotSeg f
            · rfl
            · rw [hpre, Bool.true_or] at h; simp at h
        · rintro ⟨-, hcon, -, hfree⟩
          rw [firstSegDotDotFree, resolveSegs_eq, hsj, hS] at hfree
          dsimp only at hfree
          have hpre : isPrefixSeq dotdotSeg f = false := by
            simpa using hfree
          rw [hcon, hpre]
          rfl
    | succ k =>
      have hstaysf : staysInside path = false := by rw [hstays]; simp
      constructor
      · intro h
        exfalso
        by_cases hcon : containsSeq (gs "../") path = true
        · rcases hrel : filepathRel (joinSlash B)
              (renderRel (S ++ B.reverse.drop (k + 1)) (k + 1 - B.length)) with
            _ | r
          · rw [hrel] at h; simp at h
          · rw [hrel] at h; simp [hcon] at h
        · have hcf : containsSeq (gs "../") path = false := by
            cases hc : containsSeq (gs "../") path
            · rfl
            · exact absurd hc hcon
          have htrail := debtRun_trailing_dd (splitSlash path)
            (noMidDotdot path hcf) [] (by rw [hsj]; omega)
          rw [hsj] at htrail
          have hSnil : S = [] := htrail.1
          have hk0 : k = 0 := by
            have := htrail.2
            simpa using this
          subst hSnil; subst hk0
          obtain ⟨B₁, bl, hBc⟩ := (List.eq_nil_or_concat B).resolve_left hBne
          rw [List.concat_eq_append] at hBc
          have hdrop : B.reverse.drop 1 = B₁.reverse := by
            rw [hBc]; simp
          have hdebtz : 0 + 1 - B.length = 0 := by
            rw [hBc]; simp
          rw [List.nil_append, hdrop, hdebtz] at h
          obtain ⟨r, hrel, hpre⟩ := filepathRel_good_shrink B₁ bl (hBc ▸ hB)
          rw [hBc, hrel] at h
          simp [hpre] at h
      · rintro ⟨-, -, hst, -⟩
        rw [hstaysf] at hst
        cases hst

/-- C1 (corrected): over any well-formed relative base directory,
`validatePath` accepts a path exactly when the path is not absolute, does not
contain the literal substring `../` anywhere, its `..`-resolution stays
inside the base, and its first normalized segment does not begin with two
dots.  The original claim fails: a path with an internal `..` segment that
normalizes to a location still inside base, such as `a/../b`, is rejected by
the substring test. -/
theorem c1_validate_characterization (B : List GoStr) (hB : ∀ s ∈ B, GoodSeg s)
    (hBne : B ≠ []) (path : GoStr) :
    validatePath (joinSlash B) path = .ok () ↔
      (filepathIsAbs path = false ∧ containsSeq (gs "../") path = false ∧
        staysInside path = true ∧ firstSegDotDotFree path = true) :=
  validatePath_iff B hB hBne path

/-- Counterexample to C1 as stated: the path a/../b is not absolute, its
normalized join with the base stays fully inside the base (it cleans to
overlay/b), yet validatePath rejects it. -/
theorem c1_counterexample :
    filepathIsAbs (gs "a/../b") = false ∧
    filepathClean (filepathJoin (gs "overlay") (gs "a/../b")) = gs "overlay/b" ∧
    staysInside (gs "a/../b") = true ∧
    validatePath (gs "overlay") (gs "a/../b") =
      .error (.escapes (gs "a/../b")) := by
  decide

theorem c1_validate_characterization_witness :
    ((∀ s ∈ [gs "overlay"], GoodSeg s) ∧ [gs "overlay"] ≠ []) ∧
    (validatePath (joinSlash [gs "overlay"]) (gs "subdir/test.txt") = .ok () ↔
      (filepathIsAbs (gs "subdir/test.txt") = false ∧
        containsSeq (gs "../") (gs "subdir/test.txt") = false ∧
        staysInside (gs "subdir/test.txt") = true ∧
        firstSegDotDotFree (gs "subdir/test.txt") = true)) :=
  ⟨⟨by decide, by decide⟩,
    c1_validate_characterization [gs "overlay"] (by decide) (by decide)
      (gs "subdir/test.txt")⟩

/-- A ManagedFile record of the Registry
(src/internal/config/state.go): target path relative to the overlay
directory, the link mode used, and the source path relative to .upstream. -/
structure ManagedFile where
  path : GoStr
  linkMode : GoStr
  source : GoStr
deriving DecidableEq

/-- The Registry (State of src/internal/config/state.go): the ordered list
of managed files. -/
structure State where
  managedFiles : List ManagedFile
deriving DecidableEq

/-- Embedding of State.AddManagedFile: the descending index loop removes
every existing entry with the path while keeping the order of the rest (it
is exactly a filter), then the new entry is appended. -/
def State.addManagedFile (s : State) (path linkMode source : GoStr) : State :=
  ⟨(s.managedFiles.filter (fun f => f.path ≠ path)) ++ [⟨path, linkMode, source⟩]⟩

/-- Embedding of State.RemoveManagedFile: the same descending removal loop
without an insertion. -/
def State.removeManagedFile (s : State) (path : GoStr) : State :=
  ⟨s.managedFiles.filter (fun f => f.path ≠ path)⟩

/-- Embedding of State.IsManagedFile: the first entry with the path, if
any. -/
def State.isManagedFile (s : State) (path : GoStr) : Option ManagedFile :=
  s.managedFiles.find? (fun f => f.path = path)

/-- Embedding of State.GetManagedFilesInDir: entries whose filepath.Dir
equals the directory or whose path is exactly the directory. -/
def State.getManagedFilesInDir (s : State) (dir : GoStr) : List ManagedFile :=
  s.managedFiles.filter (fun f => filepathDir f.path = dir ∨ f.path = dir)

/-- A mutation of the Registry: an upsert or a removal. -/
inductive RegOp where
  | upsert (path linkMode source : GoStr)
  | remove (path : GoStr)

/-- Application of one Registry mutation. -/
def applyRegOp (s : State) : RegOp → State
  | .upsert p m src => s.addManagedFile p m src
  | .remove p => s.removeManagedFile p

/-- Application of a sequence of Registry mutations. -/
def applyRegOps (s : State) (ops : List RegOp) : State :=
  ops.foldl applyRegOp s

theorem addManagedFile_nodup (s : State) (p m src : GoStr)
    (h : (s.managedFiles.map (fun f => f.path)).Nodup) :
    ((s.addManagedFile p m src).managedFiles.map (fun f => f.path)).Nodup := by
  unfold State.addManagedFile
  simp only [List.map_append, List.map_cons, List.map_nil]
  rw [List.nodup_append]
  refine ⟨?_, by simp, ?_⟩
  · exact ((s.managedFiles.filter_sublist).map (fun f => f.path)).nodup h
  · intro x hx
    simp only [List.mem_map] at hx
    rcases hx with ⟨f, hf, rfl⟩
    have := List.of_mem_filter hf
    simp only [decide_not, Bool.not_eq_true', decide_eq_false_iff_not] at this
    simp [this]

theorem removeManagedFile_nodup (s : State) (p : GoStr)
    (h : (s.managedFiles.map (fun f => f.path)).Nodup) :
    ((s.removeManagedFile p).managedFiles.map (fun f => f.path)).Nodup :=
  ((s.managedFiles.filter_sublist).map (fun f => f.path)).nodup h

theorem find?_filtered_append (l : List ManagedFile) (p : GoStr) (e : ManagedFile) :
    ((l.filter (fun f => f.path ≠ p)) ++ [e]).find? (fun f => f.path = p) =
      [e].find? (fun f => f.path = p) := by
  induction l with
  | nil => rfl
  | cons f t ih =>
    by_cases hf : f.path = p
    · simp only [List.filter_cons]
      rw [if_neg (by simp [hf])]
      exact ih
    · simp only [List.filter_cons]
      rw [if_pos (by simp [hf])]
      rw [List.cons_append, List.find?_cons_of_neg _ (by simp [hf])]
      exact ih

/-- C8 (confirmed): from any Registry whose paths are pairwise distinct,
every sequence of upserts and removals preserves that at most one entry
exists per path; an upsert of an existing path replaces the old entry (the
lookup afterwards returns the new linkMode and source); a removal of an
absent key is a no-op. -/
theorem c8_registry_uniqueness (s : State)
    (hs : (s.managedFiles.map (fun f => f.path)).Nodup) :
    (∀ ops : List RegOp,
      (((applyRegOps s ops).managedFiles.map (fun f => f.path)).Nodup)) ∧
    (∀ p m src, (s.addManagedFile p m src).isManagedFile p = some ⟨p, m, src⟩) ∧
    (∀ p, (∀ f ∈ s.managedFiles, f.path ≠ p) → s.removeManagedFile p = s) := by
  refine ⟨?_, ?_, ?_⟩
  · intro ops
    induction ops generalizing s hs with
    | nil => exact hs
    | cons op rest ih =>
      cases op with
      | upsert p m src =>
        exact ih (s.addManagedFile p m src) (addManagedFile_nodup s p m src hs)
      | remove p =>
        exact ih (s.removeManagedFile p) (removeManagedFile_nodup s p hs)
  · intro p m src
    unfold State.isManagedFile State.addManagedFile
    rw [find?_filtered_append]
    simp [List.find?]
  · intro p hp
    unfold State.removeManagedFile
    have : s.managedFiles.filter (fun f => f.path ≠ p) = s.managedFiles :=
      List.filter_eq_self.2 (fun f hf => by simp [hp f hf])
    rw [this]

theorem c8_registry_uniqueness_witness :
    ((State.mk [⟨gs "a", gs "symlink", gs "a"⟩]).managedFiles.map
        (fun f => f.path)).Nodup ∧
    ((∀ ops : List RegOp,
      ((applyRegOps (State.mk [⟨gs "a", gs "symlink", gs "a"⟩]) ops
        ).managedFiles.map (fun f => f.path)).Nodup) ∧
    (∀ p m src, ((State.mk [⟨gs "a", gs "symlink", gs "a"⟩]).addManagedFile
        p m src).isManagedFile p = some ⟨p, m, src⟩) ∧
    (∀ p, (∀ f ∈ (State.mk [⟨gs "a", gs "symlink", gs "a"⟩]).managedFiles,
        f.path ≠ p) →
      (State.mk [⟨gs "a", gs "symlink", gs "a"⟩]).removeManagedFile p =
        State.mk [⟨gs "a", gs "symlink", gs "a"⟩])) :=
  ⟨by decide, c8_registry_uniqueness (State.mk [⟨gs "a", gs "symlink", gs "a"⟩])
    (by decide)⟩

theorem splitLastSlash_cons (c : Char) (rest : GoStr) :
    splitLastSlash (c :: rest) =
      if (splitLastSlash rest).1 = [] then
        (if c = '/' then (['/'], rest) else ([], c :: rest))
      else (c :: (splitLastSlash rest).1, (splitLastSlash rest).2) := rfl

theorem splitLastSlash_noSlash (p : GoStr) (hp : '/' ∉ p) :
    splitLastSlash p = ([], p) := by
  induction p with
  | nil => rfl
  | cons c rest ih =>
    have hc : c ≠ '/' := fun h => hp (h ▸ List.mem_cons_self c rest)
    have hr : '/' ∉ rest := fun h => hp (List.mem_cons_of_mem c h)
    rw [splitLastSlash_cons, ih hr]
    simp [hc]

theorem splitLastSlash_append (a n : GoStr) (hn : '/' ∉ n) :
    splitLastSlash (a ++ '/' :: n) = (a ++ ['/'], n) := by
  induction a with
  | nil =>
    rw [List.nil_append, splitLastSlash_cons, splitLastSlash_noSlash n hn]
    simp
  | cons c a' ih =>
    rw [List.cons_append, splitLastSlash_cons, ih]
    simp

theorem joinSlash_append_singleton (q : List GoStr) (n : GoStr) (hq : q ≠ []) :
    joinSlash (q ++ [n]) = joinSlash q ++ '/' :: n := by
  induction q with
  | nil => exact absurd rfl hq
  | cons x t ih =>
    cases t with
    | nil => rfl
    | cons y u =>
      rw [List.cons_append, joinSlash_cons_of_ne x _ (by simp),
        joinSlash_cons_of_ne x (y :: u) (by simp), ih (by simp)]
      simp

theorem filepathDir_noSlash (x : GoStr) (hx : '/' ∉ x) :
    filepathDir x = dotSeg := by
  rw [filepathDir, splitLastSlash_noSlash x hx]
  show filepathClean [] = dotSeg
  decide

theorem filepathDir_concat (q : List GoStr) (n : GoStr)
    (hq : ∀ s ∈ q, GoodSeg s) (hqne : q ≠ []) (hn : '/' ∉ n) :
    filepathDir (joinSlash (q ++ [n])) = joinSlash q := by
  rw [joinSlash_append_singleton q n hqne, filepathDir,
    splitLastSlash_append _ n hn]
  have hjq : joinSlash q ++ ['/'] = joinSlash q ++ '/' :: [] := rfl
  rw [hjq]
  have habs : filepathIsAbs (joinSlash q ++ '/' :: []) = false := by
    rw [filepathIsAbs_append]
    · exact filepathIsAbs_good q hq hqne
    · cases q with
      | nil => exact absurd rfl hqne
      | cons x t => exact joinSlash_ne_nil x t ((hq x (by simp)).1.1)
  rw [filepathClean_relative _ habs]
  rw [splitSlash_append, splitSlash_joinSlash q hqne (fun s hs => (hq s hs).2)]
  rw [show splitSlash ([] : GoStr) = [[]] from rfl]
  rw [debtRun_append, debtRun_regular q [] 0 (fun s hs => (hq s hs).1)]
  rw [show debtRun (q.reverse ++ [], 0) [[]] = (q.reverse ++ [], 0) from by
    rw [debtRun_cons, debtStep_skip _ _ (Or.inl rfl)]; rfl]
  simp only [renderRel, List.append_nil, List.replicate_zero, List.nil_append,
    List.reverse_reverse]
  rw [if_neg (by
    cases q with
    | nil => exact absurd rfl hqne
    | cons x t => exact joinSlash_ne_nil x t ((hq x (by simp)).1.1))]

/-- C4 (corrected): over well-formed relative paths, GetManagedFilesInDir
returns exactly the entries whose path equals the directory or is a direct
child of it (one further segment); entries nested two or more levels deep
are not returned. -/
theorem c4_entries_under (s : State) (dsegs : List GoStr)
    (hd : ∀ x ∈ dsegs, GoodSeg x) (hdne : dsegs ≠ [])
    (hpaths : ∀ f ∈ s.managedFiles, ∃ psegs, psegs ≠ [] ∧
      (∀ x ∈ psegs, GoodSeg x) ∧ f.path = joinSlash psegs)
    (f : ManagedFile) :
    f ∈ s.getManagedFilesInDir (joinSlash dsegs) ↔
      (f ∈ s.managedFiles ∧ (f.path = joinSlash dsegs ∨
        ∃ n, GoodSeg n ∧ f.path = joinSlash (dsegs ++ [n]))) := by
  unfold State.getManagedFilesInDir
  rw [List.mem_filter]
  constructor
  · rintro ⟨hmem, hcond⟩
    refine ⟨hmem, ?_⟩
    simp only [decide_eq_true_eq] at hcond
    rcases hpaths f hmem with ⟨psegs, hpne, hpgood, hpeq⟩
    rcases hcond with hdir | heq
    · rcases (List.eq_nil_or_concat psegs).resolve_left hpne with ⟨q, n, hqc⟩
      rw [List.concat_eq_append] at hqc
      subst hqc
      have hngood : GoodSeg n := hpgood n (by simp)
      cases q with
      | nil =>
        exfalso
        rw [hpeq] at hdir
        simp only [List.nil_append] at hdir
        rw [show joinSlash [n] = n from rfl] at hdir
        rw [filepathDir_noSlash n hngood.2] at hdir
        exact joinSlash_good_ne_dot dsegs hd hdne hdir.symm
      | cons x t =>
        right
        refine ⟨n, hngood, ?_⟩
        rw [hpeq] at hdir ⊢
        rw [filepathDir_concat (x :: t) n
          (fun y hy => hpgood y (by
            rcases List.mem_cons.1 hy with h | h
            · simp [h]
            · simp [h]))
          (by simp) hngood.2] at hdir
        have : (x :: t) = dsegs :=
          joinSlash_good_inj (by simp) hdne
            (fun y hy => (hpgood y (List.mem_append.2 (Or.inl hy))).2)
            (fun y hy => (hd y hy).2) hdir
        rw [this]
    · exact Or.inl heq
  · rintro ⟨hmem, hcond⟩
    refine ⟨hmem, ?_⟩
    simp only [decide_eq_true_eq]
    rcases hcond with heq | ⟨n, hngood, heq⟩
    · exact Or.inr heq
    · left
      rw [heq, filepathDir_concat dsegs n hd hdne hngood.2]

/-- Counterexample to C4 as stated: the entry at d/a/b is transitively
nested under d, yet GetManagedFilesInDir of d does not return it. -/
theorem c4_counterexample :
    isPrefixSeq (gs "d/") (gs "d/a/b") = true ∧
    (State.mk [⟨gs "d/a/b", gs "symlink", gs "s"⟩]).getManagedFilesInDir
      (gs "d") = [] := by
  decide

theorem c4_entries_under_witness :
    ((∀ x ∈ [gs "d"], GoodSeg x) ∧
      (∀ f ∈ (State.mk [⟨gs "d/a", gs "symlink", gs "s"⟩]).managedFiles,
        ∃ psegs, psegs ≠ [] ∧ (∀ x ∈ psegs, GoodSeg x) ∧
          f.path = joinSlash psegs)) ∧
    ((⟨gs "d/a", gs "symlink", gs "s"⟩ : ManagedFile) ∈
        (State.mk [⟨gs "d/a", gs "symlink", gs "s"⟩]).getManagedFilesInDir
          (joinSlash [gs "d"]) ↔
      ((⟨gs "d/a", gs "symlink", gs "s"⟩ : ManagedFile) ∈
          (State.mk [⟨gs "d/a", gs "symlink", gs "s"⟩]).managedFiles ∧
        (gs "d/a" = joinSlash [gs "d"] ∨
          ∃ n, GoodSeg n ∧ gs "d/a" = joinSlash ([gs "d"] ++ [n])))) :=
  ⟨⟨by decide, fun f hf => by
      have : f = ⟨gs "d/a", gs "symlink", gs "s"⟩ := by
        simpa using hf
      exact ⟨[gs "d", gs "a"], by decide, by decide, by rw [this]; decide⟩⟩,
    c4_entries_under (State.mk [⟨gs "d/a", gs "symlink", gs "s"⟩]) [gs "d"]
      (by decide) (by decide)
      (fun f hf => by
        have : f = ⟨gs "d/a", gs "symlink", gs "s"⟩ := by
          simpa using hf
        exact ⟨[gs "d", gs "a"], by decide, by decide, by rw [this]; decide⟩)
      ⟨gs "d/a", gs "symlink", gs "s"⟩⟩

/-- Lexicographic byte order of Go strings: s < t. -/
def strLtGo : GoStr → GoStr → Bool
  | [], [] => false
  | [], _ :: _ => true
  | _ :: _, [] => false
  | a :: as, b :: bs => if a = b then strLtGo as bs else decide (a < b)

theorem strLtGo_irrefl (a : GoStr) : strLtGo a a = false := by
  induction a with
  | nil => rfl
  | cons c t ih => simp [strLtGo, ih]

theorem strLtGo_asymm (a b : GoStr) (h : strLtGo a b = true) :
    strLtGo b a = false := by
  induction a generalizing b with
  | nil =>
    cases b with
    | nil => cases h
    | cons y bs => rfl
  | cons x as ih =>
    cases b with
    | nil => cases h
    | cons y bs =>
      by_cases hxy : x = y
      · subst hxy
        simp only [strLtGo, if_pos rfl] at h ⊢
        exact ih bs h
      · simp only [strLtGo, if_neg hxy, decide_eq_true_eq] at h
        simp only [strLtGo, if_neg (Ne.symm hxy), decide_eq_false_iff_not]
        exact lt_asymm h

theorem strLtGo_connex (a b : GoStr) (h : a ≠ b) :
    strLtGo a b = true ∨ strLtGo b a = true := by
  induction a generalizing b with
  | nil =>
    cases b with
    | nil => exact absurd rfl h
    | cons y bs => exact Or.inl rfl
  | cons x as ih =>
    cases b with
    | nil => exact Or.inr rfl
    | cons y bs =>
      by_cases hxy : x = y
      · subst hxy
        have has : as ≠ bs := fun hc => h (by rw [hc])
        rcases ih bs has with h₁ | h₁
        · exact Or.inl (by simp [strLtGo, h₁])
        · exact Or.inr (by simp [strLtGo, h₁])
      · rcases lt_or_gt_of_ne hxy with h₁ | h₁
        · exact Or.inl (by simp [strLtGo, hxy, h₁])
        · exact Or.inr (by simp [strLtGo, Ne.symm hxy, h₁])

theorem strLtGo_trans (a b c : GoStr) (hab : strLtGo a b = true)
    (hbc : strLtGo b c = true) : strLtGo a c = true := by
  induction a generalizing b c with
  | nil =>
    cases b with
    | nil => cases hab
    | cons y bs =>
      cases c with
      | nil => cases hbc
      | cons z cs => rfl
  | cons x as ih =>
    cases b with
    | nil => cases hab
    | cons y bs =>
      cases c with
      | nil => cases hbc
      | cons z cs =>
        by_cases hxy : x = y
        · subst hxy
          simp only [strLtGo, if_pos rfl] at hab
          by_cases hyz : x = z
          · subst hyz
            simp only [strLtGo, if_pos rfl] at hbc ⊢
            exact ih bs cs hab hbc
          · simp only [strLtGo, if_neg hyz] at hbc ⊢
            exact hbc
        · simp only [strLtGo, if_neg hxy, decide_eq_true_eq] at hab
          by_cases hyz : y = z
          · subst hyz
            simp [strLtGo, hxy, hab]
          · simp only [strLtGo, if_neg hyz, decide_eq_true_eq] at hbc
            have hxz : x < z := lt_trans hab hbc
            simp [strLtGo, ne_of_lt hxz, hxz]

/-- The less function of the sort in cleanCmd (src/cmd/clean.go): deeper
paths (more slashes) first, ties broken by reverse lexical order (the
greater string first). -/
def cleanLess (a b : GoStr) : Bool :=
  if countSlash a = countSlash b then strLtGo b a
  else decide (countSlash a > countSlash b)

/-- The matching non-strict order: a may come before b. -/
def cleanLe (a b : GoStr) : Bool := !(cleanLess b a)

theorem cleanLess_asymm (a b : GoStr) (h : cleanLess a b = true) :
    cleanLess b a = false := by
  unfold cleanLess at h ⊢
  by_cases hc : countSlash a = countSlash b
  · rw [if_pos hc] at h
    rw [if_pos hc.symm, strLtGo_asymm b a h]
  · rw [if_neg hc] at h
    rw [if_neg (fun hx => hc hx.symm)]
    simp only [decide_eq_true_eq] at h
    simp [Nat.not_lt.2 (le_of_lt h)]

theorem cleanLe_total (a b : GoStr) :
    cleanLe a b = true ∨ cleanLe b a = true := by
  unfold cleanLe
  by_cases h : cleanLess b a = true
  · right
    rw [cleanLess_asymm b a h]
    rfl
  · left
    simp only [Bool.not_eq_true] at h
    rw [h]
    rfl

theorem cleanLess_trans (a b c : GoStr) (hab : cleanLess a b = true)
    (hbc : cleanLess b c = true) : cleanLess a c = true := by
  unfold cleanLess at hab hbc ⊢
  by_cases h₁ : countSlash a = countSlash b <;>
    by_cases h₂ : countSlash b = countSlash c
  · rw [if_pos h₁] at hab
    rw [if_pos h₂] at hbc
    rw [if_pos (h₁.trans h₂)]
    exact strLtGo_trans c b a hbc hab
  · rw [if_neg h₂] at hbc
    simp only [decide_eq_true_eq] at hbc
    rw [if_neg (by omega), decide_eq_true_eq]
    omega
  · rw [if_neg h₁] at hab
    simp only [decide_eq_true_eq] at hab
    rw [if_neg (by omega), decide_eq_true_eq]
    omega
  · rw [if_neg h₁] at hab
    rw [if_neg h₂] at hbc
    simp only [decide_eq_true_eq] at hab hbc
    rw [if_neg (by omega), decide_eq_true_eq]
    omega

theorem cleanLe_trans (a b c : GoStr) (hab : cleanLe a b = true)
    (hbc : cleanLe b c = true) : cleanLe a c = true := by
  unfold cleanLe at hab hbc ⊢
  simp only [Bool.not_eq_true', Bool.not_eq_true] at hab hbc ⊢
  by_cases h : cleanLess c a = true
  · exfalso
    by_cases h₂ : cleanLess c b = true
    · rw [h₂] at hbc; cases hbc
    · by_cases h₃ : cleanLess b a = true
      · rw [h₃] at hab; cases hab
      · have hcb : c ≠ b := by
          intro hcb
          subst hcb
          rw [h] at hab
          cases hab
        have hconn : cleanLess c b = true ∨ cleanLess b c = true := by
          unfold cleanLess
          by_cases hd : countSlash c = countSlash b
          · rcases strLtGo_connex b c (fun hx => hcb (by rw [hx])) with hx | hx
            · exact Or.inl (by rw [if_pos hd, hx])
            · exact Or.inr (by rw [if_pos hd.symm, hx])
          · by_cases hgt : countSlash c > countSlash b
            · exact Or.inl (by rw [if_neg hd]; simp [hgt])
            · exact Or.inr (by
                rw [if_neg (fun hx => hd hx.symm)]
                simp only [decide_eq_true_eq]
                omega)
        rcases hconn with hx | hx
        · exact h₂ hx
        · exact h₃ (cleanLess_trans b c a hx h)
  · simp only [Bool.not_eq_true] at h
    cases hval : cleanLess c a
    · rfl
    · rw [hval] at h; cases h

/-- Insertion into a list by the boolean relation le. -/
def insertBy (le : GoStr → GoStr → Bool) (a : GoStr) : List GoStr → List GoStr
  | [] => [a]
  | b :: bs => if le a b then a :: b :: bs else b :: insertBy le a bs

/-- Insertion sort by the boolean relation le.  This is the embedding of the
sort.Slice call of cleanCmd: the comparator is a strict total order on the
distinct managed paths, so the sorted permutation is unique and any correct
sort produces this output. -/
def sortBy (le : GoStr → GoStr → Bool) : List GoStr → List GoStr
  | [] => []
  | a :: as => insertBy le a (sortBy le as)

theorem insertBy_perm (le : GoStr → GoStr → Bool) (a : GoStr) (l : List GoStr) :
    List.Perm (insertBy le a l) (a :: l) := by
  induction l with
  | nil => exact List.Perm.refl _
  | cons b bs ih =>
    unfold insertBy
    by_cases h : le a b = true
    · rw [if_pos h]
    · rw [if_neg h]
      exact (ih.cons b).trans (List.Perm.swap a b bs)

theorem sortBy_perm (le : GoStr → GoStr → Bool) (l : List GoStr) :
    List.Perm (sortBy le l) l := by
  induction l with
  | nil => exact List.Perm.refl _
  | cons a as ih =>
    exact (insertBy_perm le a (sortBy le as)).trans (ih.cons a)

theorem insertBy_pairwise (le : GoStr → GoStr → Bool)
    (htot : ∀ a b, le a b = true ∨ le b a = true)
    (htrans : ∀ a b c, le a b = true → le b c = true → le a c = true)
    (a : GoStr) (l : List GoStr)
    (hl : List.Pairwise (fun x y => le x y = true) l) :
    List.Pairwise (fun x y => le x y = true) (insertBy le a l) := by
  induction l with
  | nil => simp [insertBy]
  | cons b bs ih =>
    rcases List.pairwise_cons.1 hl with ⟨hb, hbs⟩
    unfold insertBy
    by_cases h : le a b = true
    · rw [if_pos h]
      refine List.pairwise_cons.2 ⟨?_, hl⟩
      intro x hx
      rcases List.mem_cons.1 hx with h₁ | h₁
      · exact h₁ ▸ h
      · exact htrans a b x h (hb x h₁)
    · rw [if_neg h]
      have hba : le b a = true := (htot a b).resolve_left h
      refine List.pairwise_cons.2 ⟨?_, ih hbs⟩
      intro x hx
      have := (insertBy_perm le a bs).mem_iff.1 hx
      rcases List.mem_cons.1 this with h₁ | h₁
      · exact h₁ ▸ hba
      · exact hb x h₁

theorem sortBy_pairwise (le : GoStr → GoStr → Bool)
    (htot : ∀ a b, le a b = true ∨ le b a = true)
    (htrans : ∀ a b c, le a b = true → le b c = true → le a c = true)
    (l : List GoStr) :
    List.Pairwise (fun x y => le x y = true) (sortBy le l) := by
  induction l with
  | nil => simp [sortBy]
  | cons a as ih => exact insertBy_pairwise le htot htrans a (sortBy le as) ih

/-- The sorted order of the managed paths used by cleanCmd. -/
def sortManagedPaths (paths : List GoStr) : List GoStr :=
  sortBy cleanLe paths

theorem cleanLe_refl (a : GoStr) : cleanLe a a = true := by
  unfold cleanLe cleanLess
  simp [strLtGo_irrefl]

/-- Position of the first occurrence of an element. -/
def idxOfGo (a : GoStr) : List GoStr → Nat
  | [] => 0
  | b :: bs => if b = a then 0 else idxOfGo a bs + 1

theorem pairwise_before (le : GoStr → GoStr → Bool) (l : List GoStr)
    (hpw : List.Pairwise (fun x y => le x y = true) l)
    (a b : GoStr) (ha : a ∈ l) (hb : b ∈ l) (hne : a ≠ b)
    (hnab : le b a = false) : idxOfGo a l < idxOfGo b l := by
  induction l with
  | nil => cases ha
  | cons x t ih =>
    rcases List.pairwise_cons.1 hpw with ⟨hx, ht⟩
    by_cases hxa : x = a
    · have hxb : x ≠ b := fun h => hne (hxa.symm.trans h)
      simp [idxOfGo, hxa, hxb, hne]
    · have hat : a ∈ t := by
        rcases List.mem_cons.1 ha with h | h
        · exact absurd h.symm hxa
        · exact h
      by_cases hxb : x = b
      · exfalso
        have := hx a hat
        rw [hxb, hnab] at this
        cases this
      · have hbt : b ∈ t := by
          rcases List.mem_cons.1 hb with h | h
          · exact absurd h.symm hxb
          · exact h
        simp only [idxOfGo, if_neg hxa, if_neg hxb]
        exact Nat.succ_lt_succ (ih ht hat hbt)

theorem countSlash_nested (q r : GoStr) :
    countSlash (q ++ '/' :: r) = countSlash q + countSlash r + 1 := by
  unfold countSlash
  rw [List.count_append, List.count_cons]
  simp [Nat.add_comm, Nat.add_assoc, Nat.add_left_comm]

/-- C7 (confirmed): the managed-path order of cleanCmd is sorted by slash
count descending with ties broken by reverse lexical order, and consequently
every path strictly nested under another managed path comes strictly before
that ancestor in the processing order. -/
theorem c7_clean_sort_order (paths : List GoStr) :
    List.Pairwise (fun a b => cleanLe a b = true) (sortManagedPaths paths) ∧
    (∀ p q r : GoStr, p ∈ paths → q ∈ paths → p = q ++ '/' :: r →
      idxOfGo p (sortManagedPaths paths) < idxOfGo q (sortManagedPaths paths)) := by
  have hpw : List.Pairwise (fun a b => cleanLe a b = true) (sortManagedPaths paths) :=
    sortBy_pairwise cleanLe cleanLe_total cleanLe_trans paths
  refine ⟨hpw, ?_⟩
  intro p q r hp hq hpq
  have hmp : p ∈ sortManagedPaths paths := (sortBy_perm cleanLe paths).mem_iff.2 hp
  have hmq : q ∈ sortManagedPaths paths := (sortBy_perm cleanLe paths).mem_iff.2 hq
  have hcount : countSlash p = countSlash q + countSlash r + 1 := by
    rw [hpq]; exact countSlash_nested q r
  apply pairwise_before cleanLe _ hpw p q hmp hmq
  · intro h
    rw [h] at hcount
    omega
  · unfold cleanLe cleanLess
    rw [if_neg (by omega)]
    simp only [Bool.not_eq_false', decide_eq_true_eq]
    omega

theorem c7_clean_sort_order_witness :
    (gs "dir/a") ∈ [gs "dir", gs "dir/a"] ∧
    (gs "dir") ∈ [gs "dir", gs "dir/a"] ∧
    gs "dir/a" = gs "dir" ++ '/' :: gs "a" ∧
    idxOfGo (gs "dir/a") (sortManagedPaths [gs "dir", gs "dir/a"]) <
      idxOfGo (gs "dir") (sortManagedPaths [gs "dir", gs "dir/a"]) :=
  ⟨by decide, by decide, by decide,
    (c7_clean_sort_order [gs "dir", gs "dir/a"]).2 (gs "dir/a") (gs "dir")
      (gs "a") (by decide) (by decide) (by decide)⟩

/-- A filesystem node: a regular file (with an abstract content id), a
symbolic link (with its target string), or a directory with named children
in listing order.  Hard links are modelled as copies of the content id;
inode aliasing is not observed by any of the verified operations. -/
inductive FNode where
  | file (content : Nat)
  | symlink (target : GoStr)
  | dir (children : List (GoStr × FNode))

/-- Lookup of a child by name in a directory listing. -/
def lookupName : List (GoStr × FNode) → GoStr → Option FNode
  | [], _ => none
  | (n, x) :: rest, name => if n = name then some x else lookupName rest name

/-- Lookup of a node by slash-free path segments, not following symbolic
links (the behaviour of os.Lstat on the final component; intermediate
symlink components are treated as absent, which Go would resolve — the
engine never creates directory symlinks on traversed paths). -/
def lookupSegs : List (GoStr × FNode) → List GoStr → Option FNode
  | _, [] => none
  | cs, [s] => lookupName cs s
  | cs, s :: rest =>
    match lookupName cs s with
    | some (.dir cs₂) => lookupSegs cs₂ rest
    | _ => none

/-- Replace or append a child by name, keeping the listing order of the
others. -/
def setAtName : List (GoStr × FNode) → GoStr → FNode → List (GoStr × FNode)
  | [], name, node => [(name, node)]
  | (n, x) :: rest, name, node =>
    if n = name then (n, node) :: rest else (n, x) :: setAtName rest name node

/-- Delete a child by name. -/
def delAtName : List (GoStr × FNode) → GoStr → List (GoStr × FNode)
  | [], _ => []
  | (n, x) :: rest, name => if n = name then rest else (n, x) :: delAtName rest name

/-- Insert a node at a segment path; all parent components must already
exist as directories (otherwise the creating system call fails with
ENOENT/ENOTDIR). -/
def insertSegs : List (GoStr × FNode) → List GoStr → FNode → Option (List (GoStr × FNode))
  | _, [], _ => none
  | cs, [s], node => some (setAtName cs s node)
  | cs, s :: rest, node =>
    match lookupName cs s with
    | some (.dir cs₂) =>
      match insertSegs cs₂ rest node with
      | some cs₂' => some (setAtName cs s (.dir cs₂'))
      | none => none
    | _ => none

/-- Remove the node at a segment path (with its whole subtree). -/
def removeSegs : List (GoStr × FNode) → List GoStr → Option (List (GoStr × FNode))
  | _, [] => none
  | cs, [s] =>
    match lookupName cs s with
    | some _ => some (delAtName cs s)
    | none => none
  | cs, s :: rest =>
    match lookupName cs s with
    | some (.dir cs₂) =>
      match removeSegs cs₂ rest with
      | some cs₂' => some (setAtName cs s (.dir cs₂'))
      | none => none
    | _ => none

/-- Create all missing directories along a segment path, as os.MkdirAll
does; an existing non-directory component is an error (Go would resolve a
symlink-to-directory component; the engine never creates such layouts). -/
def mkdirAllSegs : List (GoStr × FNode) → List GoStr → Option (List (GoStr × FNode))
  | cs, [] => some cs
  | cs, s :: rest =>
    match lookupName cs s with
    | some (.dir cs₂) =>
      match mkdirAllSegs cs₂ rest with
      | some cs₂' => some (setAtName cs s (.dir cs₂'))
      | none => none
    | some _ => none
    | none =>
      match mkdirAllSegs [] rest with
      | some cs₂' => some (setAtName cs s (.dir cs₂'))
      | none => none

/-- The world of one invocation: the file tree under the working directory
(the overlay directory and the upstream checkout are entries of it), the
content of the persisted Registry file, and a failure-injection set of paths
whose removal fails (as EPERM would). -/
structure World where
  root : List (GoStr × FNode)
  savedState : State
  locked : List GoStr

/-- Resolution of symlinks at the final path component, as os.Stat performs
(with the kernel symlink-following budget); a symlink target is interpreted
relative to the directory of the link. -/
def statSegs (root : List (GoStr × FNode)) : Nat → GoStr → Option FNode
  | 0, _ => none
  | fuel + 1, p =>
    match lookupSegs root (splitSlash p) with
    | some (.symlink target) =>
      statSegs root fuel (filepathJoin (filepathDir p) target)
    | other => other

/-- Embedding of os.Stat. -/
def statW (w : World) (p : GoStr) : Option FNode := statSegs w.root 40 p

/-- Embedding of os.Lstat. -/
def lstatW (w : World) (p : GoStr) : Option FNode :=
  lookupSegs w.root (splitSlash p)

/-- Embedding of os.Remove: fails on a missing path, a non-empty directory,
or an injected removal failure. -/
def osRemove (w : World) (p : GoStr) : Option World :=
  match lookupSegs w.root (splitSlash p) with
  | none => none
  | some (.dir cs) =>
    if cs.isEmpty ∧ p ∉ w.locked then
      (removeSegs w.root (splitSlash p)).map (fun r => { w with root := r })
    else none
  | some _ =>
    if p ∉ w.locked then
      (removeSegs w.root (splitSlash p)).map (fun r => { w with root := r })
    else none

/-- Paths with an injected failure at or below a path. -/
def lockedUnder (locked : List GoStr) (p : GoStr) : Bool :=
  locked.any (fun q => q = p || isPrefixSeq (p ++ ['/']) q)

/-- Embedding of os.RemoveAll: no error on an absent path; an injected
failure anywhere below makes it fail (modelled all-or-nothing, where Go may
remove part of the subtree before failing). -/
def osRemoveAll (w : World) (p : GoStr) : Option World :=
  if lockedUnder w.locked p then none
  else
    match lookupSegs w.root (splitSlash p) with
    | none => some w
    | some _ => (removeSegs w.root (splitSlash p)).map (fun r => { w with root := r })

/-- Embedding of os.MkdirAll on a cleaned relative path; the current
directory needs nothing created. -/
def osMkdirAll (w : World) (p : GoStr) : Option World :=
  if p = dotSeg then some w
  else (mkdirAllSegs w.root (splitSlash p)).map (fun r => { w with root := r })

/-- Embedding of os.Symlink: fails if anything (even a dangling link) sits
at the new path. -/
def osSymlink (w : World) (target dst : GoStr) : Option World :=
  match lookupSegs w.root (splitSlash dst) with
  | some _ => none
  | none => (insertSegs w.root (splitSlash dst) (.symlink target)).map
      (fun r => { w with root := r })

/-- Embedding of os.Link: the source must resolve to a regular file, and
nothing may sit at the new path. -/
def osLink (w : World) (src dst : GoStr) : Option World :=
  match statW w src with
  | some (.file c) =>
    match lookupSegs w.root (splitSlash dst) with
    | some _ => none
    | none => (insertSegs w.root (splitSlash dst) (.file c)).map
        (fun r => { w with root := r })
  | _ => none

/-- Resolution of the path an os.Create at p would write to: symlinks at p
are followed (so creating over a dangling symlink writes the referent). -/
def resolveCreatePath (root : List (GoStr × FNode)) : Nat → GoStr → Option GoStr
  | 0, _ => none
  | fuel + 1, p =>
    match lookupSegs root (splitSlash p) with
    | some (.symlink target) =>
      resolveCreatePath root fuel (filepathJoin (filepathDir p) target)
    | _ => some p

/-- Embedding of copyFile (os.Open, os.Create, ReadFrom, Chmod): the source
must resolve to a regular file; the destination, after following symlinks,
must not be a directory and must have an existing parent directory. -/
def copyFileW (w : World) (src dst : GoStr) : Option World :=
  match statW w src with
  | some (.file c) =>
    match resolveCreatePath w.root 40 dst with
    | none => none
    | some dst' =>
      match lookupSegs w.root (splitSlash dst') with
      | some (.dir _) => none
      | _ => (insertSegs w.root (splitSlash dst') (.file c)).map
          (fun r => { w with root := r })
  | _ => none

/-- Error returns of the link materializer and the cleanup engine, tagged by
the distinct error paths of the source. -/
inductive GoErr where
  | sourceNotFound (p : GoStr)
  | validateFailed (e : ValErr)
  | mkdirFailed (p : GoStr)
  | targetExists (p : GoStr)
  | removeFailed (p : GoStr)
  | gitignoreCopyFailed (p : GoStr)
  | relFailed (p : GoStr)
  | symlinkFailed (p : GoStr)
  | hardlinkFailed (p : GoStr)
  | copyFailed (p : GoStr)
  | unsupportedLinkMode (m : GoStr)
  | overlayMissing
  | readDirFailed (p : GoStr)
  | removeEmptyDirsFailed (p : GoStr)
deriving DecidableEq

/-- Intermediate result of the createLink loop: the world, the in-memory
Registry, the created links so far (the list that feeds the managed
gitignore block), and the first error if any. -/
structure CLRes where
  w : World
  st : State
  created : List GoStr
  err : Option GoErr

/-- The mode-specific tail of createLink (src/unnamed/part_004): the
gitignore exception always copies and records linkMode copy; otherwise the
switch on linkMode creates the relative symlink, the hard link, or the
copy, and on success records the entry and the created path. -/
def createLinkCore (w : World) (st : State) (created : List GoStr)
    (src dst linkMode : GoStr) : CLRes :=
  let relPath := trimPre (gs "overlay/") dst
  let relSrc := trimPre (gs ".upstream/") src
  if isSuffixSeq (gs ".gitignore") dst then
    match copyFileW w src dst with
    | some w₁ =>
      ⟨w₁, st.addManagedFile relPath (gs "copy") relSrc, created ++ [dst], none⟩
    | none => ⟨w, st, created, some (.gitignoreCopyFailed dst)⟩
  else if linkMode = gs "symlink" then
    match filepathRel (filepathDir dst) src with
    | none => ⟨w, st, created, some (.relFailed dst)⟩
    | some rel =>
      match osSymlink w rel dst with
      | some w₁ =>
        ⟨w₁, st.addManagedFile relPath linkMode relSrc, created ++ [dst], none⟩
      | none => ⟨w, st, created, some (.symlinkFailed dst)⟩
  else if linkMode = gs "hardlink" then
    match osLink w src dst with
    | some w₁ =>
      ⟨w₁, st.addManagedFile relPath linkMode relSrc, created ++ [dst], none⟩
    | none => ⟨w, st, created, some (.hardlinkFailed dst)⟩
  else if linkMode = gs "copy" then
    match copyFileW w src dst with
    | some w₁ =>
      ⟨w₁, st.addManagedFile relPath linkMode relSrc, created ++ [dst], none⟩
    | none => ⟨w, st, created, some (.copyFailed dst)⟩
  else ⟨w, st, created, some (.unsupportedLinkMode linkMode)⟩

/-- Embedding of createLink (src/unnamed/part_004): validate the target
path, create its parent directories, handle a pre-existing target through
os.Stat (which follows symlinks), then produce the link. -/
def createLink (w : World) (st : State) (created : List GoStr)
    (src dst linkMode : GoStr) (force : Bool) : CLRes :=
  match validatePath (gs "overlay") (trimPre (gs "overlay/") dst) with
  | .error e => ⟨w, st, created, some (.validateFailed e)⟩
  | .ok () =>
    match osMkdirAll w (filepathDir dst) with
    | none => ⟨w, st, created, some (.mkdirFailed dst)⟩
    | some w₁ =>
      match statW w₁ dst with
      | some _ =>
        if force then
          match osRemove w₁ dst with
          | some w₂ => createLinkCore w₂ st created src dst linkMode
          | none => ⟨w₁, st, created, some (.removeFailed dst)⟩
        else ⟨w₁, st, created, some (.targetExists dst)⟩
      | none => createLinkCore w₁ st created src dst linkMode

/-- A symlink mapping of the configuration
(src/internal/config/types.go): the bare string form, or the structured
from/to form. -/
structure SymlinkSpec where
  strVal : GoStr
  fromVal : GoStr
  toVal : GoStr

/-- The configuration consumed by CreateLinks: the mapping list and the
optional link-mode override. -/
structure Config where
  symlinks : List SymlinkSpec
  linkMode : GoStr

mutual
/-- Leaf (non-directory) paths of one named node, as relative segment
lists, in listing order; filepath.Walk skips directories themselves and
does not follow symlinks. -/
def walkFilesNode (n : GoStr) : FNode → List (List GoStr)
  | .dir cs => (walkFilesChildren cs).map (fun segs => n :: segs)
  | _ => [[n]]

/-- Leaf paths of a directory listing. -/
def walkFilesChildren : List (GoStr × FNode) → List (List GoStr)
  | [] => []
  | (n, x) :: rest => walkFilesNode n x ++ walkFilesChildren rest
end

/-- The walk of one directory mapping: createLink for every leaf file, in
order, stopping at the first error. -/
def createLinkFiles (fromPath targetBase linkMode : GoStr) (force : Bool) :
    CLRes → List (List GoStr) → CLRes
  | acc, [] => acc
  | acc, rsegs :: rest =>
    match acc.err with
    | some _ => acc
    | none =>
      let srcPath := filepathJoin fromPath (joinSlash rsegs)
      let targetPath := filepathJoin (filepathJoin (gs "overlay") targetBase)
        (joinSlash rsegs)
      createLinkFiles fromPath targetBase linkMode force
        (createLink acc.w acc.st acc.created srcPath targetPath linkMode force)
        rest

/-- The mapping loop of CreateLinks: resolve the pattern and target of each
mapping, require the source to exist, walk directories or link single
files. -/
def createLinksLoop (linkMode : GoStr) (force : Bool) :
    CLRes → List SymlinkSpec → CLRes
  | acc, [] => acc
  | acc, spec :: rest =>
    match acc.err with
    | some _ => acc
    | none =>
      let pattern := if spec.strVal ≠ [] then spec.strVal else spec.fromVal
      let targetBase := if spec.strVal ≠ [] then spec.strVal else spec.toVal
      let fromPath := filepathJoin (gs ".upstream") pattern
      let toPath := filepathJoin (gs "overlay") targetBase
      match statW acc.w fromPath with
      | none => ⟨acc.w, acc.st, acc.created, some (.sourceNotFound fromPath)⟩
      | some (.dir cs) =>
        createLinksLoop linkMode force
          (createLinkFiles fromPath targetBase linkMode force
            ⟨acc.w, acc.st, acc.created, none⟩ (walkFilesChildren cs)) rest
      | some _ =>
        createLinksLoop linkMode force
          (createLink acc.w acc.st acc.created fromPath toPath linkMode force)
          rest

/-- Embedding of updateGitignore (src/unnamed/part_003): rewrites the
top-level .gitignore file of the working directory (outside the overlay
tree); the content is abstracted to a fresh content id. -/
def updateGitignoreW (w : World) : World :=
  { w with root := setAtName w.root (gs ".gitignore") (.file 0) }

/-- Embedding of CreateLinks (src/unnamed/part_004): the config link mode
overrides the flag; the state is loaded, the mappings are processed until
the first error, and only a fully successful run rewrites the gitignore
block and persists the Registry. -/
def CreateLinks (w : World) (cfg : Config) (linkModeFlag : GoStr)
    (force : Bool) : World × List GoStr × Option GoErr :=
  let linkMode := if cfg.linkMode ≠ [] then cfg.linkMode else linkModeFlag
  let st := w.savedState
  let res := createLinksLoop linkMode force ⟨w, st, [], none⟩ cfg.symlinks
  match res.err with
  | some e => (res.w, res.created, some e)
  | none =>
    let w₁ := updateGitignoreW res.w
    ({ w₁ with savedState := res.st }, res.created, none)

/-- Embedding of isFullyManaged (src/cmd/clean.go) on the children of a
directory at the given full path: every entry must have its
overlay-relative path in the managed set, recursing into
subdirectories; a ReadDir error cannot arise in the model, and the
Rel("overlay", entryPath) call of the source is embedded as is. -/
def isFullyManagedChildren (managed : List GoStr) : GoStr →
    List (GoStr × FNode) → Bool
  | _, [] => true
  | path, (n, x) :: rest =>
    let entryPath := filepathJoin path n
    match filepathRel (gs "overlay") entryPath with
    | none => false
    | some relPath =>
      if relPath ∈ managed then
        match x with
        | .dir cs =>
          isFullyManagedChildren managed entryPath cs &&
            isFullyManagedChildren managed path rest
        | _ => isFullyManagedChildren managed path rest
      else false

/-- The managed-path pass of cleanCmd (src/cmd/clean.go): absent paths are
dropped from the Registry; non-directories are removed (a removal failure
is silently skipped, but the entry is dropped regardless); a directory is
removed recursively only when fully managed, with the entry dropped only in
that branch. -/
def cleanLoop (managed : List GoStr) :
    World × State × Nat → List GoStr → World × State × Nat
  | (w, st, removed), [] => (w, st, removed)
  | (w, st, removed), relPath :: rest =>
    let fullPath := filepathJoin (gs "overlay") relPath
    match lstatW w fullPath with
    | none => cleanLoop managed (w, st.removeManagedFile relPath, removed) rest
    | some (.dir cs) =>
      if isFullyManagedChildren managed fullPath cs then
        match osRemoveAll w fullPath with
        | some w₁ =>
          cleanLoop managed (w₁, st.removeManagedFile relPath, removed + 1) rest
        | none =>
          cleanLoop managed (w, st.removeManagedFile relPath, removed) rest
      else cleanLoop managed (w, st, removed) rest
    | some _ =>
      match osRemove w fullPath with
      | some w₁ =>
        cleanLoop managed (w₁, st.removeManagedFile relPath, removed + 1) rest
      | none =>
        cleanLoop managed (w, st.removeManagedFile relPath, removed) rest

mutual
/-- Embedding of removeEmptyDirs (src/cmd/clean.go) on one directory node:
prune the subdirectories, re-list, and remove the directory itself when it
ended up empty (an injected removal failure propagates as the error of the
os.Remove call; on error the model keeps the tree unchanged where Go may
have removed some earlier subdirectories before failing). -/
def pruneNode (locked : List GoStr) : GoStr → FNode → Except GoErr (Option FNode)
  | path, .dir cs =>
    match pruneChildren locked path cs with
    | .error e => .error e
    | .ok cs₁ =>
      if cs₁.isEmpty then
        if path ∈ locked then .error (.removeEmptyDirsFailed path)
        else .ok none
      else .ok (some (.dir cs₁))
  | path, _ => .error (.readDirFailed path)

/-- Recursive pruning of the subdirectories of a listing, in order. -/
def pruneChildren (locked : List GoStr) : GoStr →
    List (GoStr × FNode) → Except GoErr (List (GoStr × FNode))
  | _, [] => .ok []
  | path, (n, x) :: rest =>
    match x with
    | .dir cs =>
      match pruneNode locked (filepathJoin path n) (.dir cs) with
      | .error e => .error e
      | .ok none => pruneChildren locked path rest
      | .ok (some x₁) =>
        match pruneChildren locked path rest with
        | .error e => .error e
        | .ok rest₁ => .ok ((n, x₁) :: rest₁)
    | other =>
      match pruneChildren locked path rest with
      | .error e => .error e
      | .ok rest₁ => .ok ((n, other) :: rest₁)
end

/-- Embedding of removeEmptyDirs("overlay"): the overlay root itself is
never removed. -/
def removeEmptyDirs (w : World) : Except GoErr World :=
  match lookupSegs w.root (splitSlash (gs "overlay")) with
  | some (.dir cs) =>
    match pruneChildren w.locked (gs "overlay") cs with
    | .error e => .error e
    | .ok cs₁ =>
      .ok { w with root := setAtName w.root (gs "overlay") (.dir cs₁) }
  | _ => .error (.readDirFailed (gs "overlay"))

/-- Embedding of cleanCmd (src/cmd/clean.go): require the overlay directory,
load the Registry, process the managed paths deepest first, defensively drop
every managed path from the Registry, prune empty directories, and persist
the Registry only on success. -/
def cleanCmd (w : World) : World × Except GoErr Nat :=
  match statW w (gs "overlay") with
  | none => (w, .error .overlayMissing)
  | some _ =>
    let st := w.savedState
    let managedPaths := (st.managedFiles.map (fun f => f.path)).dedup
    let sortedPaths := sortManagedPaths managedPaths
    let res := cleanLoop managedPaths (w, st, 0) sortedPaths
    let st₂ := managedPaths.foldl (fun s p => s.removeManagedFile p) res.2.1
    match removeEmptyDirs res.1 with
    | .error e => (res.1, .error e)
    | .ok w₂ => ({ w₂ with savedState := st₂ }, .ok res.2.2)

theorem osRemove_fields (w w₁ : World) (p : GoStr) (h : osRemove w p = some w₁) :
    w₁.savedState = w.savedState ∧ w₁.locked = w.locked := by
  unfold osRemove at h
  rcases hl : lookupSegs w.root (splitSlash p) with _ | x <;> rw [hl] at h
  · cases h
  · cases x
    all_goals
      dsimp only at h
      split at h
      · simp only [Option.map_eq_some'] at h
        rcases h with ⟨r, -, rfl⟩
        exact ⟨rfl, rfl⟩
      · cases h

theorem osRemoveAll_fields (w w₁ : World) (p : GoStr)
    (h : osRemoveAll w p = some w₁) :
    w₁.savedState = w.savedState ∧ w₁.locked = w.locked := by
  unfold osRemoveAll at h
  split at h
  · cases h
  · rcases hl : lookupSegs w.root (splitSlash p) with _ | x <;> rw [hl] at h
    · cases h; exact ⟨rfl, rfl⟩
    · simp only [Option.map_eq_some'] at h
      rcases h with ⟨r, -, rfl⟩
      exact ⟨rfl, rfl⟩

theorem osMkdirAll_fields (w w₁ : World) (p : GoStr)
    (h : osMkdirAll w p = some w₁) :
    w₁.savedState = w.savedState ∧ w₁.locked = w.locked := by
  unfold osMkdirAll at h
  split at h
  · cases h; exact ⟨rfl, rfl⟩
  · simp only [Option.map_eq_some'] at h
    rcases h with ⟨r, -, rfl⟩
    exact ⟨rfl, rfl⟩

theorem osSymlink_fields (w w₁ : World) (t dst : GoStr)
    (h : osSymlink w t dst = some w₁) :
    w₁.savedState = w.savedState ∧ w₁.locked = w.locked := by
  unfold osSymlink at h
  rcases hl : lookupSegs w.root (splitSlash dst) with _ | x <;> rw [hl] at h
  · simp only [Option.map_eq_some'] at h
    rcases h with ⟨r, -, rfl⟩
    exact ⟨rfl, rfl⟩
  · cases h

theorem osLink_fields (w w₁ : World) (src dst : GoStr)
    (h : osLink w src dst = some w₁) :
    w₁.savedState = w.savedState ∧ w₁.locked = w.locked := by
  unfold osLink at h
  rcases hs : statW w src with _ | x <;> rw [hs] at h
  · cases h
  · cases x with
    | symlink t => cases h
    | dir cs => cases h
    | file c =>
      dsimp only at h
      rcases hl : lookupSegs w.root (splitSlash dst) with _ | y <;> rw [hl] at h
      · simp only [Option.map_eq_some'] at h
        rcases h with ⟨r, -, rfl⟩
        exact ⟨rfl, rfl⟩
      · cases h

theorem copyFileW_fields (w w₁ : World) (src dst : GoStr)
    (h : copyFileW w src dst = some w₁) :
    w₁.savedState = w.savedState ∧ w₁.locked = w.locked := by
  unfold copyFileW at h
  rcases hs : statW w src with _ | x <;> rw [hs] at h
  · cases h
  · cases x with
    | symlink t => cases h
    | dir cs => cases h
    | file c =>
      dsimp only at h
      rcases hr : resolveCreatePath w.root 40 dst with _ | d <;> rw [hr] at h
      · cases h
      · dsimp only at h
        rcases hl : lookupSegs w.root (splitSlash d) with _ | y <;> rw [hl] at h
        · simp only [Option.map_eq_some'] at h
          rcases h with ⟨r, -, rfl⟩
          exact ⟨rfl, rfl⟩
        · cases y with
          | dir cs => cases h
          | file c₂ =>
            simp only [Option.map_eq_some'] at h
            rcases h with ⟨r, -, rfl⟩
            exact ⟨rfl, rfl⟩
          | symlink t =>
            simp only [Option.map_eq_some'] at h
            rcases h with ⟨r, -, rfl⟩
            exact ⟨rfl, rfl⟩

theorem createLinkCore_fields (w : World) (st : State) (created : List GoStr)
    (src dst m : GoStr) :
    (createLinkCore w st created src dst m).w.savedState = w.savedState ∧
    (createLinkCore w st created src dst m).w.locked = w.locked := by
  unfold createLinkCore
  dsimp only
  repeat' split
  all_goals
    first
    | exact ⟨rfl, rfl⟩
    | (rename_i w₁ hc; exact copyFileW_fields _ _ _ _ hc)
    | (rename_i w₁ hc; exact osSymlink_fields _ _ _ _ hc)
    | (rename_i w₁ hc; exact osLink_fields _ _ _ _ hc)

theorem createLink_fields (w : World) (st : State) (created : List GoStr)
    (src dst m : GoStr) (force : Bool) :
    (createLink w st created src dst m force).w.savedState = w.savedState ∧
    (createLink w st created src dst m force).w.locked = w.locked := by
  unfold createLink
  rcases hv : validatePath (gs "overlay") (trimPre (gs "overlay/") dst) with e | u
  · exact ⟨rfl, rfl⟩
  · cases u
    dsimp only
    rcases hmk : osMkdirAll w (filepathDir dst) with _ | w₁
    · exact ⟨rfl, rfl⟩
    · dsimp only
      obtain ⟨hm1, hm2⟩ := osMkdirAll_fields w w₁ _ hmk
      rcases hst : statW w₁ dst with _ | x
      · dsimp only
        obtain ⟨h1, h2⟩ := createLinkCore_fields w₁ st created src dst m
        exact ⟨h1.trans hm1, h2.trans hm2⟩
      · dsimp only
        cases force
        · exact ⟨hm1, hm2⟩
        · rw [if_pos rfl]
          rcases hrm : osRemove w₁ dst with _ | w₂
          · exact ⟨hm1, hm2⟩
          · dsimp only
            obtain ⟨hr1, hr2⟩ := osRemove_fields w₁ w₂ _ hrm
            obtain ⟨h1, h2⟩ := createLinkCore_fields w₂ st created src dst m
            exact ⟨h1.trans (hr1.trans hm1), h2.trans (hr2.trans hm2)⟩

theorem createLinkCore_gitignore (w : World) (st : State) (created : List GoStr)
    (src dst m : GoStr) (hgi : isSuffixSeq (gs ".gitignore") dst = true) :
    createLinkCore w st created src dst m =
      match copyFileW w src dst with
      | some w₁ => ⟨w₁, st.addManagedFile (trimPre (gs "overlay/") dst) (gs "copy")
          (trimPre (gs ".upstream/") src), created ++ [dst], none⟩
      | none => ⟨w, st, created, some (.gitignoreCopyFailed dst)⟩ := by
  unfold createLinkCore
  dsimp only
  rw [if_pos hgi]

/-- The mode-free unfolding of createLink on a .gitignore destination: the
switch on the link mode is never reached, so the run is determined by the
validation, the mkdir, the stat and the byte copy. -/
def createLinkGi (w : World) (st : State) (created : List GoStr)
    (src dst : GoStr) (force : Bool) : CLRes :=
  let core : World → CLRes := fun wc =>
    match copyFileW wc src dst with
    | some w₁ => ⟨w₁, st.addManagedFile (trimPre (gs "overlay/") dst) (gs "copy")
        (trimPre (gs ".upstream/") src), created ++ [dst], none⟩
    | none => ⟨wc, st, created, some (.gitignoreCopyFailed dst)⟩
  match validatePath (gs "overlay") (trimPre (gs "overlay/") dst) with
  | .error e => ⟨w, st, created, some (.validateFailed e)⟩
  | .ok () =>
    match osMkdirAll w (filepathDir dst) with
    | none => ⟨w, st, created, some (.mkdirFailed dst)⟩
    | some w₁ =>
      match statW w₁ dst with
      | some _ =>
        if force then
          match osRemove w₁ dst with
          | some w₂ => core w₂
          | none => ⟨w₁, st, created, some (.removeFailed dst)⟩
        else ⟨w₁, st, created, some (.targetExists dst)⟩
      | none => core w₁

theorem createLink_gitignore (w : World) (st : State) (created : List GoStr)
    (src dst m : GoStr) (force : Bool)
    (hgi : isSuffixSeq (gs ".gitignore") dst = true) :
    createLink w st created src dst m force =
      createLinkGi w st created src dst force := by
  unfold createLink createLinkGi
  dsimp only
  rcases hv : validatePath (gs "overlay") (trimPre (gs "overlay/") dst) with e | u
  · rfl
  · cases u
    dsimp only
    rcases hmk : osMkdirAll w (filepathDir dst) with _ | w₁
    · rfl
    · dsimp only
      rcases hst : statW w₁ dst with _ | x
      · exact createLinkCore_gitignore w₁ st created src dst m hgi
      · dsimp only
        cases force
        · rfl
        · rw [if_pos rfl, if_pos rfl]
          rcases hrm : osRemove w₁ dst with _ | w₂
          · rfl
          · exact createLinkCore_gitignore w₂ st created src dst m hgi

theorem createLinkGi_success (w : World) (st : State) (created : List GoStr)
    (src dst : GoStr) (force : Bool) (w₁ : World) (st₁ : State)
    (created₁ : List GoStr)
    (heq : createLinkGi w st created src dst force = ⟨w₁, st₁, created₁, none⟩) :
    st₁ = st.addManagedFile (trimPre (gs "overlay/") dst) (gs "copy")
      (trimPre (gs ".upstream/") src) ∧
    created₁ = created ++ [dst] ∧
    ∃ wmid, copyFileW wmid src dst = some w₁ := by
  unfold createLinkGi at heq
  dsimp only at heq
  rcases hv : validatePath (gs "overlay") (trimPre (gs "overlay/") dst) with e | u
  · rw [hv] at heq; simp [CLRes.mk.injEq] at heq
  · rw [hv] at heq
    cases u
    dsimp only at heq
    rcases hmk : osMkdirAll w (filepathDir dst) with _ | wm
    · rw [hmk] at heq; simp [CLRes.mk.injEq] at heq
    · rw [hmk] at heq
      dsimp only at heq
      rcases hst : statW wm dst with _ | x
      · rw [hst] at heq
        dsimp only at heq
        rcases hc : copyFileW wm src dst with _ | wx
        · rw [hc] at heq; simp [CLRes.mk.injEq] at heq
        · rw [hc] at heq
          dsimp only at heq
          simp only [CLRes.mk.injEq] at heq
          obtain ⟨h1, h2, h3, -⟩ := heq
          exact ⟨h2.symm, h3.symm, wm, by rw [hc, h1]⟩
      · rw [hst] at heq
        dsimp only at heq
        cases force
        · simp at heq
        · rw [if_pos rfl] at heq
          rcases hrm : osRemove wm dst with _ | w₂
          · rw [hrm] at heq; simp [CLRes.mk.injEq] at heq
          · rw [hrm] at heq
            dsimp only at heq
            rcases hc : copyFileW w₂ src dst with _ | wx
            · rw [hc] at heq; simp [CLRes.mk.injEq] at heq
            · rw [hc] at heq
              dsimp only at heq
              simp only [CLRes.mk.injEq] at heq
              obtain ⟨h1, h2, h3, -⟩ := heq
              exact ⟨h2.symm, h3.symm, w₂, by rw [hc, h1]⟩

/-- C9: for every target path ending in .gitignore, createLink is
independent of the requested link mode, and every successful call produces
the target through the byte-copy primitive and records a Registry entry
whose link mode is copy, appending the target to the created list. -/
theorem c9_gitignore_copy (w : World) (st : State) (created : List GoStr)
    (src dst m₁ m₂ : GoStr) (force : Bool)
    (hgi : isSuffixSeq (gs ".gitignore") dst = true) :
    createLink w st created src dst m₁ force =
      createLink w st created src dst m₂ force ∧
    ∀ w₁ st₁ created₁,
      createLink w st created src dst m₁ force = ⟨w₁, st₁, created₁, none⟩ →
      st₁ = st.addManagedFile (trimPre (gs "overlay/") dst) (gs "copy")
        (trimPre (gs ".upstream/") src) ∧
      created₁ = created ++ [dst] ∧
      ∃ wmid, copyFileW wmid src dst = some w₁ := by
  refine ⟨?_, ?_⟩
  · rw [createLink_gitignore w st created src dst m₁ force hgi,
      createLink_gitignore w st created src dst m₂ force hgi]
  · intro w₁ st₁ created₁ heq
    rw [createLink_gitignore w st created src dst m₁ force hgi] at heq
    exact createLinkGi_success w st created src dst force w₁ st₁ created₁ heq

/-- A sample working tree for the gitignore exception: the upstream holds a
.gitignore file and the overlay directory exists. -/
def wGi : World :=
  ⟨[(gs ".upstream", .dir [(gs ".gitignore", .file 7)]),
    (gs "overlay", .dir [])], ⟨[]⟩, []⟩

theorem c9_gitignore_copy_witness :
    isSuffixSeq (gs ".gitignore") (gs "overlay/.gitignore") = true ∧
    (createLink wGi ⟨[]⟩ [] (gs ".upstream/.gitignore") (gs "overlay/.gitignore")
        (gs "symlink") false =
      createLink wGi ⟨[]⟩ [] (gs ".upstream/.gitignore") (gs "overlay/.gitignore")
        (gs "hardlink") false ∧
    ∀ w₁ st₁ created₁,
      createLink wGi ⟨[]⟩ [] (gs ".upstream/.gitignore") (gs "overlay/.gitignore")
        (gs "symlink") false = ⟨w₁, st₁, created₁, none⟩ →
      st₁ = State.addManagedFile ⟨[]⟩
        (trimPre (gs "overlay/") (gs "overlay/.gitignore")) (gs "copy")
        (trimPre (gs ".upstream/") (gs ".upstream/.gitignore")) ∧
      created₁ = [] ++ [gs "overlay/.gitignore"] ∧
      ∃ wmid, copyFileW wmid (gs ".upstream/.gitignore")
        (gs "overlay/.gitignore") = some w₁) :=
  ⟨by decide, c9_gitignore_copy wGi ⟨[]⟩ [] (gs ".upstream/.gitignore")
    (gs "overlay/.gitignore") (gs "symlink") (gs "hardlink") false (by decide)⟩

/-- C10: the existing-target check of createLink follows symlinks, so a
dangling symlink at the target is invisible to it: no target-already-exists
error is ever raised, with force the stale link is not removed (the world
of the result is unchanged), and the link creation step itself fails, as
symlinkFailed in symlink mode and hardlinkFailed in hardlink mode. -/
theorem c10_dangling_symlink (w : World) (st : State) (created : List GoStr)
    (src dst m t r : GoStr)
    (hl : lstatW w dst = some (.symlink t))
    (hs : statW w dst = none)
    (hval : validatePath (gs "overlay") (trimPre (gs "overlay/") dst) = .ok ())
    (hmk : osMkdirAll w (filepathDir dst) = some w)
    (hgi : isSuffixSeq (gs ".gitignore") dst = false)
    (hm : m = gs "symlink" ∨ m = gs "hardlink")
    (hrel : filepathRel (filepathDir dst) src = some r) :
    ∀ force, ∃ e,
      createLink w st created src dst m force = ⟨w, st, created, some e⟩ ∧
      e ≠ GoErr.targetExists dst ∧
      (m = gs "symlink" → e = GoErr.symlinkFailed dst) ∧
      (m = gs "hardlink" → e = GoErr.hardlinkFailed dst) := by
  intro force
  have hlook : lookupSegs w.root (splitSlash dst) = some (.symlink t) := hl
  unfold createLink
  rw [hval]
  dsimp only
  rw [hmk]
  dsimp only
  rw [hs]
  dsimp only
  unfold createLinkCore
  dsimp only
  rw [if_neg (by simp [hgi])]
  rcases hm with rfl | rfl
  · rw [if_pos rfl]
    rw [hrel]
    dsimp only
    have hsym : osSymlink w r dst = none := by
      unfold osSymlink
      rw [hlook]
    rw [hsym]
    exact ⟨GoErr.symlinkFailed dst, rfl, fun h => GoErr.noConfusion h,
      fun _ => rfl, fun h => absurd h (by decide)⟩
  · rw [if_neg (by decide), if_pos rfl]
    have hlk : osLink w src dst = none := by
      unfold osLink
      rcases hsw : statW w src with _ | f
      · rfl
      · cases f with
        | file c =>
          dsimp only
          rw [hlook]
        | symlink tg => rfl
        | dir cs => rfl
    rw [hlk]
    exact ⟨GoErr.hardlinkFailed dst, rfl, fun h => GoErr.noConfusion h,
      fun h => absurd h (by decide), fun _ => rfl⟩

/-- A sample working tree for the dangling-symlink check: the overlay holds
a symlink whose referent does not exist. -/
def wDangle : World :=
  ⟨[(gs ".upstream", .dir [(gs "x", .file 3)]),
    (gs "overlay", .dir [(gs "x", .symlink (gs "../gone"))])], ⟨[]⟩, []⟩

theorem c10_dangling_symlink_witness :
    (lstatW wDangle (gs "overlay/x") = some (.symlink (gs "../gone")) ∧
     statW wDangle (gs "overlay/x") = none ∧
     validatePath (gs "overlay") (trimPre (gs "overlay/") (gs "overlay/x")) =
       .ok () ∧
     osMkdirAll wDangle (filepathDir (gs "overlay/x")) = some wDangle ∧
     isSuffixSeq (gs ".gitignore") (gs "overlay/x") = false ∧
     filepathRel (filepathDir (gs "overlay/x")) (gs ".upstream/x") =
       some (gs "../.upstream/x")) ∧
    ∀ force, ∃ e,
      createLink wDangle ⟨[]⟩ [] (gs ".upstream/x") (gs "overlay/x")
        (gs "symlink") force = ⟨wDangle, ⟨[]⟩, [], some e⟩ ∧
      e ≠ GoErr.targetExists (gs "overlay/x") ∧
      (gs "symlink" = gs "symlink" → e = GoErr.symlinkFailed (gs "overlay/x")) ∧
      (gs "symlink" = gs "hardlink" → e = GoErr.hardlinkFailed (gs "overlay/x")) :=
  ⟨⟨rfl, rfl, by decide, rfl, by decide, by decide⟩,
   c10_dangling_symlink wDangle ⟨[]⟩ [] (gs ".upstream/x") (gs "overlay/x")
     (gs "symlink") (gs "../gone") (gs "../.upstream/x")
     rfl rfl (by decide) rfl (by decide) (Or.inl rfl) (by decide)⟩

theorem createLinkFiles_savedState (fp tb lm : GoStr) (force : Bool)
    (l : List (List GoStr)) : ∀ acc : CLRes,
    (createLinkFiles fp tb lm force acc l).w.savedState = acc.w.savedState := by
  induction l with
  | nil => intro acc; rfl
  | cons rsegs rest ih =>
    intro acc
    unfold createLinkFiles
    rcases he : acc.err with _ | e
    · dsimp only
      exact (ih _).trans (createLink_fields acc.w acc.st acc.created _ _ lm force).1
    · rfl

theorem createLinksLoop_savedState (lm : GoStr) (force : Bool)
    (specs : List SymlinkSpec) : ∀ acc : CLRes,
    (createLinksLoop lm force acc specs).w.savedState = acc.w.savedState := by
  induction specs with
  | nil => intro acc; rfl
  | cons spec rest ih =>
    intro acc
    unfold createLinksLoop
    rcases he : acc.err with _ | e
    · dsimp only
      rcases hsw : statW acc.w (filepathJoin (gs ".upstream")
          (if spec.strVal ≠ [] then spec.strVal else spec.fromVal)) with _ | f
      · rfl
      · cases f with
        | file c =>
          exact (ih _).trans
            (createLink_fields acc.w acc.st acc.created _ _ lm force).1
        | symlink tg =>
          exact (ih _).trans
            (createLink_fields acc.w acc.st acc.created _ _ lm force).1
        | dir cs =>
          exact (ih _).trans (createLinkFiles_savedState _ _ lm force _ _)
    · rfl

/-- The two-mapping configuration of the C2 scenario: the first source
exists, the second does not. -/
def cfgC2 : Config := ⟨[⟨gs "a.txt", [], []⟩, ⟨gs "missing", [], []⟩], []⟩

/-- The working tree of the C2 scenario. -/
def wC2 : World :=
  ⟨[(gs ".upstream", .dir [(gs "a.txt", .file 1)]),
    (gs "overlay", .dir [])], ⟨[]⟩, []⟩

/-- C2 counterexample: with two mappings whose second source is missing,
the walk stops with sourceNotFound after creating the first link and
upserting its entry in memory, yet the persisted Registry of the returned
world is still empty: the in-memory upsert is not persisted. -/
theorem c2_counterexample :
    (createLinksLoop (gs "symlink") true ⟨wC2, ⟨[]⟩, [], none⟩
        cfgC2.symlinks).st =
      ⟨[⟨gs "a.txt", gs "symlink", gs "a.txt"⟩]⟩ ∧
    (CreateLinks wC2 cfgC2 (gs "symlink") true).2.2 =
      some (GoErr.sourceNotFound (gs ".upstream/missing")) ∧
    (CreateLinks wC2 cfgC2 (gs "symlink") true).2.1 = [gs "overlay/a.txt"] ∧
    (CreateLinks wC2 cfgC2 (gs "symlink") true).1.savedState = ⟨[]⟩ :=
  ⟨rfl, rfl, rfl, rfl⟩

/-- C2 (amended): when CreateLinks returns an error, the persisted Registry
of the returned world equals the one before the call: entries upserted in
memory for the targets created before the failure are NOT persisted,
because the walk returns before SaveState runs. -/
theorem c2_error_not_persisted (w : World) (cfg : Config) (flag : GoStr)
    (force : Bool) (w₁ : World) (created : List GoStr) (e : GoErr)
    (h : CreateLinks w cfg flag force = (w₁, created, some e)) :
    w₁.savedState = w.savedState := by
  unfold CreateLinks at h
  dsimp only at h
  rcases hre : (createLinksLoop (if cfg.linkMode ≠ [] then cfg.linkMode else flag)
      force ⟨w, w.savedState, [], none⟩ cfg.symlinks).err with _ | e₀
  · rw [hre] at h
    simp at h
  · rw [hre] at h
    dsimp only at h
    simp only [Prod.mk.injEq] at h
    obtain ⟨hw, -, -⟩ := h
    rw [← hw]
    exact createLinksLoop_savedState _ force cfg.symlinks ⟨w, w.savedState, [], none⟩

theorem c2_error_not_persisted_witness :
    CreateLinks wC2 cfgC2 (gs "symlink") true =
      ((CreateLinks wC2 cfgC2 (gs "symlink") true).1, [gs "overlay/a.txt"],
        some (GoErr.sourceNotFound (gs ".upstream/missing"))) ∧
    (CreateLinks wC2 cfgC2 (gs "symlink") true).1.savedState = wC2.savedState :=
  ⟨rfl, c2_error_not_persisted wC2 cfgC2 (gs "symlink") true
    (CreateLinks wC2 cfgC2 (gs "symlink") true).1 [gs "overlay/a.txt"]
    (GoErr.sourceNotFound (gs ".upstream/missing")) rfl⟩

mutual
theorem pruneNode_error (locked : List GoStr) :
    ∀ (path : GoStr) (x : FNode) (e : GoErr),
      pruneNode locked path x = .error e →
      (∃ p, e = GoErr.readDirFailed p) ∨
        (∃ p, e = GoErr.removeEmptyDirsFailed p)
  | path, .dir cs, e, h => by
    unfold pruneNode at h
    rcases hp : pruneChildren locked path cs with e₁ | cs₁
    · rw [hp] at h
      dsimp only at h
      injection h with h₁
      exact h₁ ▸ pruneChildren_error locked path cs e₁ hp
    · rw [hp] at h
      dsimp only at h
      split at h
      · split at h
        · injection h with h₁
          exact Or.inr ⟨path, h₁.symm⟩
        · cases h
      · cases h
  | path, .file c, e, h => by
    unfold pruneNode at h
    injection h with h₁
    exact Or.inl ⟨path, h₁.symm⟩
  | path, .symlink t, e, h => by
    unfold pruneNode at h
    injection h with h₁
    exact Or.inl ⟨path, h₁.symm⟩

theorem pruneChildren_error (locked : List GoStr) :
    ∀ (path : GoStr) (cs : List (GoStr × FNode)) (e : GoErr),
      pruneChildren locked path cs = .error e →
      (∃ p, e = GoErr.readDirFailed p) ∨
        (∃ p, e = GoErr.removeEmptyDirsFailed p)
  | _, [], _, h => by cases h
  | path, (n, x) :: rest, e, h => by
    unfold pruneChildren at h
    rcases x with c | t | cs
    · dsimp only at h
      rcases hr : pruneChildren locked path rest with e₁ | rest₁
      · rw [hr] at h
        dsimp only at h
        injection h with h₁
        exact h₁ ▸ pruneChildren_error locked path rest e₁ hr
      · rw [hr] at h
        dsimp only at h
        cases h
    · dsimp only at h
      rcases hr : pruneChildren locked path rest with e₁ | rest₁
      · rw [hr] at h
        dsimp only at h
        injection h with h₁
        exact h₁ ▸ pruneChildren_error locked path rest e₁ hr
      · rw [hr] at h
        dsimp only at h
        cases h
    · dsimp only at h
      rcases hn : pruneNode locked (filepathJoin path n) (.dir cs) with e₁ | ox
      · rw [hn] at h
        dsimp only at h
        injection h with h₁
        exact h₁ ▸ pruneNode_error locked (filepathJoin path n) (.dir cs) e₁ hn
      · rw [hn] at h
        rcases ox with _ | x₁
        · dsimp only at h
          exact pruneChildren_error locked path rest e h
        · dsimp only at h
          rcases hr : pruneChildren locked path rest with e₁ | rest₁
          · rw [hr] at h
            dsimp only at h
            injection h with h₁
            exact h₁ ▸ pruneChildren_error locked path rest e₁ hr
          · rw [hr] at h
            dsimp only at h
            cases h
end

theorem removeEmptyDirs_error (w : World) (e : GoErr)
    (h : removeEmptyDirs w = .error e) :
    (∃ p, e = GoErr.readDirFailed p) ∨
      (∃ p, e = GoErr.removeEmptyDirsFailed p) := by
  unfold removeEmptyDirs at h
  rcases hl : lookupSegs w.root (splitSlash (gs "overlay")) with _ | x
  · rw [hl] at h
    dsimp only at h
    injection h with h₁
    exact Or.inl ⟨_, h₁.symm⟩
  · rw [hl] at h
    cases x with
    | dir cs =>
      dsimp only at h
      rcases hp : pruneChildren w.locked (gs "overlay") cs with e₁ | cs₁
      · rw [hp] at h
        dsimp only at h
        injection h with h₁
        exact h₁ ▸ pruneChildren_error w.locked (gs "overlay") cs e₁ hp
      · rw [hp] at h
        dsimp only at h
        cases h
    | file c =>
      dsimp only at h
      injection h with h₁
      exact Or.inl ⟨_, h₁.symm⟩
    | symlink t =>
      dsimp only at h
      injection h with h₁
      exact Or.inl ⟨_, h₁.symm⟩

theorem foldl_removeManagedFile (l : List GoStr) : ∀ s : State,
    (l.foldl (fun s p => s.removeManagedFile p) s).managedFiles
      = s.managedFiles.filter (fun f => decide (f.path ∉ l)) := by
  induction l with
  | nil =>
    intro s
    simp
  | cons p l ih =>
    intro s
    rw [List.foldl_cons, ih]
    unfold State.removeManagedFile
    dsimp only
    rw [List.filter_filter]
    apply List.filter_congr
    intro f hf
    by_cases h1 : f.path = p <;> by_cases h2 : f.path ∈ l <;> simp [h1, h2]

theorem cleanLoop_st_sub (managed : List GoStr) (paths : List GoStr) :
    ∀ (w : World) (st : State) (removed : Nat) (f : ManagedFile),
      f ∈ (cleanLoop managed (w, st, removed) paths).2.1.managedFiles →
      f ∈ st.managedFiles := by
  induction paths with
  | nil => intro w st removed f hf; exact hf
  | cons relPath rest ih =>
    intro w st removed f hf
    unfold cleanLoop at hf
    dsimp only at hf
    rcases hls : lstatW w (filepathJoin (gs "overlay") relPath) with _ | x
    · rw [hls] at hf
      dsimp only at hf
      exact List.mem_of_mem_filter (ih _ _ _ f hf)
    · rw [hls] at hf
      cases x with
      | dir cs =>
        dsimp only at hf
        by_cases hfm : isFullyManagedChildren managed
            (filepathJoin (gs "overlay") relPath) cs = true
        · rw [if_pos hfm] at hf
          rcases hra : osRemoveAll w (filepathJoin (gs "overlay") relPath)
            with _ | w₁
          · rw [hra] at hf
            dsimp only at hf
            exact List.mem_of_mem_filter (ih _ _ _ f hf)
          · rw [hra] at hf
            dsimp only at hf
            exact List.mem_of_mem_filter (ih _ _ _ f hf)
        · rw [if_neg hfm] at hf
          exact ih _ _ _ f hf
      | file c =>
        dsimp only at hf
        rcases hr : osRemove w (filepathJoin (gs "overlay") relPath) with _ | w₁
        · rw [hr] at hf
          dsimp only at hf
          exact List.mem_of_mem_filter (ih _ _ _ f hf)
        · rw [hr] at hf
          dsimp only at hf
          exact List.mem_of_mem_filter (ih _ _ _ f hf)
      | symlink t =>
        dsimp only at hf
        rcases hr : osRemove w (filepathJoin (gs "overlay") relPath) with _ | w₁
        · rw [hr] at hf
          dsimp only at hf
          exact List.mem_of_mem_filter (ih _ _ _ f hf)
        · rw [hr] at hf
          dsimp only at hf
          exact List.mem_of_mem_filter (ih _ _ _ f hf)

theorem cleanCmd_ok_registry (w w₁ : World) (n : Nat)
    (h : cleanCmd w = (w₁, .ok n)) :
    w₁.savedState.managedFiles = [] := by
  unfold cleanCmd at h
  split at h
  · simp at h
  · dsimp only at h
    split at h
    · simp at h
    · simp only [Prod.mk.injEq] at h
      obtain ⟨hw, -⟩ := h
      rw [← hw]
      dsimp only
      rw [foldl_removeManagedFile]
      refine List.filter_eq_nil_iff.mpr ?_
      intro f hf
      have hmem := cleanLoop_st_sub _ _ _ _ _ f hf
      have hp : f.path ∈ (w.savedState.managedFiles.map (fun g => g.path)).dedup :=
        List.mem_dedup.mpr (List.mem_map_of_mem _ hmem)
      simp only [decide_eq_true_eq]
      exact not_not_intro hp

theorem cleanCmd_error_class (w : World) (e : GoErr)
    (h : (cleanCmd w).2 = .error e) :
    e = GoErr.overlayMissing ∨ (∃ p, e = GoErr.readDirFailed p) ∨
      (∃ p, e = GoErr.removeEmptyDirsFailed p) := by
  unfold cleanCmd at h
  split at h
  · dsimp only at h
    injection h with h₁
    exact Or.inl h₁.symm
  · dsimp only at h
    split at h
    · rename_i e₁ hrem
      dsimp only at h
      injection h with h₁
      exact Or.inr (h₁ ▸ removeEmptyDirs_error _ e₁ hrem)
    · simp at h

/-- The C5 scenario: a managed file whose removal fails (injected EPERM). -/
def wC5 : World :=
  ⟨[(gs "overlay", .dir [(gs "f.txt", .file 5)])],
   ⟨[⟨gs "f.txt", gs "copy", gs "f.txt"⟩]⟩,
   [gs "overlay/f.txt"]⟩

/-- C5 counterexample: deleting the still-present managed file f.txt fails,
yet clean returns success (with removedCount 0), leaves the file in place,
and drops its entry from the Registry as if removed. -/
theorem c5_counterexample :
    (cleanCmd wC5).2 = .ok 0 ∧
    lstatW (cleanCmd wC5).1 (gs "overlay/f.txt") = some (.file 5) ∧
    (cleanCmd wC5).1.savedState = ⟨[]⟩ :=
  ⟨rfl, rfl, rfl⟩

/-- C5 (amended): the only errors clean surfaces are the missing overlay
directory and the failures of the empty-directory sweep (readDir and the
removal of an empty directory); a failure to delete a managed path is
silently swallowed — the walk continues, the run still succeeds, and every
managed entry is dropped from the Registry regardless, so a successful
clean always ends with an empty Registry. -/
theorem c5_clean_error_policy (w : World) :
    (∀ e, (cleanCmd w).2 = Except.error e →
      e = GoErr.overlayMissing ∨ (∃ p, e = GoErr.readDirFailed p) ∨
        (∃ p, e = GoErr.removeEmptyDirsFailed p)) ∧
    ∀ w₁ n, cleanCmd w = (w₁, Except.ok n) → w₁.savedState.managedFiles = [] :=
  ⟨fun e he => cleanCmd_error_class w e he,
   fun w₁ n h => cleanCmd_ok_registry w w₁ n h⟩

theorem c5_clean_error_policy_witness :
    (∀ e, (cleanCmd wC5).2 = Except.error e →
      e = GoErr.overlayMissing ∨ (∃ p, e = GoErr.readDirFailed p) ∨
        (∃ p, e = GoErr.removeEmptyDirsFailed p)) ∧
    ∀ w₁ n, cleanCmd wC5 = (w₁, Except.ok n) →
      w₁.savedState.managedFiles = [] :=
  c5_clean_error_policy wC5

theorem lookupName_setAtName_self (l : List (GoStr × FNode)) (name : GoStr)
    (x : FNode) : lookupName (setAtName l name x) name = some x := by
  induction l with
  | nil => simp [setAtName, lookupName]
  | cons hd rest ih =>
    obtain ⟨n, y⟩ := hd
    unfold setAtName
    by_cases hn : n = name
    · rw [if_pos hn]
      unfold lookupName
      rw [if_pos hn]
    · rw [if_neg hn]
      unfold lookupName
      rw [if_neg hn]
      exact ih

theorem setAtName_lookup_id (l : List (GoStr × FNode)) (name : GoStr) (x : FNode)
    (h : lookupName l name = some x) : setAtName l name x = l := by
  induction l with
  | nil => cases h
  | cons hd rest ih =>
    obtain ⟨n, y⟩ := hd
    unfold lookupName at h
    unfold setAtName
    by_cases hn : n = name
    · rw [if_pos hn] at h
      rw [if_pos hn]
      injection h with h₁
      rw [h₁]
    · rw [if_neg hn] at h
      rw [if_neg hn]
      rw [ih h]

theorem statSegs_succ (root : List (GoStr × FNode)) (fuel : Nat) (p : GoStr) :
    statSegs root (fuel + 1) p =
      match lookupSegs root (splitSlash p) with
      | some (.symlink target) =>
        statSegs root fuel (filepathJoin (filepathDir p) target)
      | other => other := rfl

mutual
/-- A node with no empty directory anywhere in it (a pruning fixed
point). -/
def noEmptyN : FNode → Bool
  | .dir cs => !cs.isEmpty && noEmptyC cs
  | _ => true

/-- A listing with no empty directory anywhere in it. -/
def noEmptyC : List (GoStr × FNode) → Bool
  | [] => true
  | (_, x) :: rest => noEmptyN x && noEmptyC rest
end

mutual
theorem pruneNode_noEmpty (locked : List GoStr) :
    ∀ (path : GoStr) (x : FNode) (x₁ : FNode),
      pruneNode locked path x = .ok (some x₁) → noEmptyN x₁ = true
  | path, .dir cs, x₁, h => by
    unfold pruneNode at h
    rcases hp : pruneChildren locked path cs with e | cs₁
    · rw [hp] at h
      simp at h
    · rw [hp] at h
      dsimp only at h
      by_cases hemp : cs₁.isEmpty = true
      · rw [if_pos hemp] at h
        split at h <;> simp at h
      · rw [if_neg hemp] at h
        injection h with h₁
        injection h₁ with h₂
        rw [← h₂]
        have hcs := pruneChildren_noEmpty locked path cs cs₁ hp
        simp [noEmptyN, hcs, Bool.not_eq_true] at hemp ⊢
        exact hemp
  | path, .file c, x₁, h => by
    unfold pruneNode at h
    simp at h
  | path, .symlink t, x₁, h => by
    unfold pruneNode at h
    simp at h

theorem pruneChildren_noEmpty (locked : List GoStr) :
    ∀ (path : GoStr) (cs cs₁ : List (GoStr × FNode)),
      pruneChildren locked path cs = .ok cs₁ → noEmptyC cs₁ = true
  | _, [], cs₁, h => by
    injection h with h₁
    rw [← h₁]
    rfl
  | path, (n, x) :: rest, cs₁, h => by
    unfold pruneChildren at h
    rcases x with c | t | cs
    · dsimp only at h
      rcases hr : pruneChildren locked path rest with e | rest₁
      · rw [hr] at h
        simp at h
      · rw [hr] at h
        dsimp only at h
        injection h with h₁
        rw [← h₁]
        have := pruneChildren_noEmpty locked path rest rest₁ hr
        simp [noEmptyC, noEmptyN, this]
    · dsimp only at h
      rcases hr : pruneChildren locked path rest with e | rest₁
      · rw [hr] at h
        simp at h
      · rw [hr] at h
        dsimp only at h
        injection h with h₁
        rw [← h₁]
        have := pruneChildren_noEmpty locked path rest rest₁ hr
        simp [noEmptyC, noEmptyN, this]
    · dsimp only at h
      rcases hn : pruneNode locked (filepathJoin path n) (.dir cs) with e | ox
      · rw [hn] at h
        simp at h
      · rw [hn] at h
        rcases ox with _ | x₂
        · dsimp only at h
          exact pruneChildren_noEmpty locked path rest cs₁ h
        · dsimp only at h
          rcases hr : pruneChildren locked path rest with e | rest₁
          · rw [hr] at h
            simp at h
          · rw [hr] at h
            dsimp only at h
            injection h with h₁
            rw [← h₁]
            have h₂ := pruneNode_noEmpty locked (filepathJoin path n) (.dir cs) x₂ hn
            have h₃ := pruneChildren_noEmpty locked path rest rest₁ hr
            simp [noEmptyC, h₂, h₃]
end

mutual
theorem pruneNode_id (locked : List GoStr) :
    ∀ (path : GoStr) (x : FNode), noEmptyN x = true →
      (∃ cs, x = FNode.dir cs) → pruneNode locked path x = .ok (some x)
  | path, .dir cs, h, _ => by
    unfold noEmptyN at h
    rw [Bool.and_eq_true] at h
    obtain ⟨h1, h2⟩ := h
    unfold pruneNode
    rw [pruneChildren_id locked path cs h2]
    dsimp only
    rw [Bool.not_eq_true'] at h1
    rw [if_neg (by simp [h1])]
  | path, .file c, h, hx => by
    obtain ⟨cs, hcs⟩ := hx
    cases hcs
  | path, .symlink t, h, hx => by
    obtain ⟨cs, hcs⟩ := hx
    cases hcs

theorem pruneChildren_id (locked : List GoStr) :
    ∀ (path : GoStr) (cs : List (GoStr × FNode)),
      noEmptyC cs = true → pruneChildren locked path cs = .ok cs
  | _, [], _ => rfl
  | path, (n, x) :: rest, h => by
    unfold noEmptyC at h
    rw [Bool.and_eq_true] at h
    obtain ⟨h1, h2⟩ := h
    unfold pruneChildren
    rcases x with c | t | cs
    · dsimp only
      rw [pruneChildren_id locked path rest h2]
    · dsimp only
      rw [pruneChildren_id locked path rest h2]
    · dsimp only
      rw [pruneNode_id locked (filepathJoin path n) (.dir cs) h1 ⟨cs, rfl⟩]
      dsimp only
      rw [pruneChildren_id locked path rest h2]
end

/-- C6: after a successful clean, a second clean with no materialization in
between succeeds, reports removedCount 0, and returns the world of the
first clean unchanged (filesystem, Registry and failure set alike). -/
theorem c6_clean_idempotent (w w₁ : World) (n : Nat)
    (h : cleanCmd w = (w₁, Except.ok n)) :
    cleanCmd w₁ = (w₁, Except.ok 0) := by
  have hreg := cleanCmd_ok_registry w w₁ n h
  unfold cleanCmd at h
  split at h
  · simp at h
  · dsimp only at h
    split at h
    · simp at h
    · rename_i w₂ hrem
      simp only [Prod.mk.injEq] at h
      obtain ⟨hw, -⟩ := h
      unfold removeEmptyDirs at hrem
      split at hrem <;> try cases hrem
      rename_i cs hlk
      split at hrem <;> try cases hrem
      rename_i cs₁ hpc
      have hsv : w₁.savedState = (⟨[]⟩ : State) := by
        rcases hsv₀ : w₁.savedState with ⟨mf⟩
        rw [hsv₀] at hreg
        dsimp only at hreg
        rw [hreg]
      have e₁ := (congrArg World.root hw).symm
      have hlk₁ : lookupName w₁.root (gs "overlay") = some (.dir cs₁) := by
        rw [e₁]
        exact lookupName_setAtName_self _ _ _
      have hstat₁ : statW w₁ (gs "overlay") = some (.dir cs₁) := by
        show statSegs w₁.root 40 (gs "overlay") = some (.dir cs₁)
        rw [show (40 : Nat) = 39 + 1 from rfl, statSegs_succ]
        rw [show lookupSegs w₁.root (splitSlash (gs "overlay")) =
          lookupName w₁.root (gs "overlay") from rfl]
        rw [hlk₁]
      have hne : noEmptyC cs₁ = true := pruneChildren_noEmpty _ _ _ _ hpc
      have hred : removeEmptyDirs w₁ = .ok w₁ := by
        unfold removeEmptyDirs
        rw [show lookupSegs w₁.root (splitSlash (gs "overlay")) =
          lookupName w₁.root (gs "overlay") from rfl]
        rw [hlk₁]
        dsimp only
        rw [pruneChildren_id w₁.locked (gs "overlay") cs₁ hne]
        dsimp only
        rw [setAtName_lookup_id w₁.root (gs "overlay") (.dir cs₁) hlk₁]
      unfold cleanCmd
      rw [hstat₁]
      dsimp only
      rw [hsv]
      dsimp only
      rw [show ((([] : List ManagedFile).map (fun f => f.path)).dedup) =
        ([] : List GoStr) from rfl]
      rw [show sortManagedPaths ([] : List GoStr) = [] from rfl]
      rw [show cleanLoop ([] : List GoStr) (w₁, (⟨[]⟩ : State), 0) [] =
        (w₁, (⟨[]⟩ : State), 0) from rfl]
      dsimp only
      rw [hred]
      dsimp only
      rw [List.foldl_nil, ← hsv]

/-- The C6 scenario: one managed symlink in the overlay. -/
def wC6 : World :=
  ⟨[(gs ".upstream", .dir [(gs "x.txt", .file 2)]),
    (gs "overlay", .dir [(gs "x.txt", .symlink (gs "../.upstream/x.txt"))])],
   ⟨[⟨gs "x.txt", gs "symlink", gs "x.txt"⟩]⟩, []⟩

theorem c6_clean_idempotent_witness :
    cleanCmd wC6 = ((cleanCmd wC6).1, Except.ok 1) ∧
    cleanCmd (cleanCmd wC6).1 = ((cleanCmd wC6).1, Except.ok 0) :=
  ⟨rfl, c6_clean_idempotent wC6 (cleanCmd wC6).1 1 rfl⟩


/-- A non-directory node: a file or a symbolic link. -/
def isLeaf : FNode → Bool
  | .dir _ => false
  | _ => true

/-- The segment path of a created target relative to the overlay directory
(the segments after the leading overlay component). -/
def relSegs (p : GoStr) : List GoStr := (splitSlash p).tail

mutual
/-- Removal of a named node when it is a leaf whose full segment path (the
accumulated prefix plus the entry name) is listed; a directory is kept with
its listing filtered. -/
def dropLeavesN (S : List (List GoStr)) : List GoStr → GoStr → FNode → Option FNode
  | pre, n, .dir cs => some (.dir (dropLeavesC S (pre ++ [n]) cs))
  | pre, n, x => if pre ++ [n] ∈ S then none else some x

/-- Removal of the listed leaf paths from a listing: the listing-level
effect of removing a set of managed leaf paths. -/
def dropLeavesC (S : List (List GoStr)) : List GoStr → List (GoStr × FNode) → List (GoStr × FNode)
  | _, [] => []
  | pre, (n, x) :: rest =>
    match dropLeavesN S pre n x with
    | none => dropLeavesC S pre rest
    | some x₁ => (n, x₁) :: dropLeavesC S pre rest
end

mutual
/-- Functional pruning of a node: a directory with no file or symlink
anywhere below it disappears; leaves stay. -/
def pruneFN : FNode → Option FNode
  | .dir cs => if (pruneFC cs).isEmpty then none else some (.dir (pruneFC cs))
  | x => some x

/-- Functional pruning of a listing: the listing-level effect of
removeEmptyDirs. -/
def pruneFC : List (GoStr × FNode) → List (GoStr × FNode)
  | [] => []
  | (n, x) :: rest =>
    match pruneFN x with
    | none => pruneFC rest
    | some x₁ => (n, x₁) :: pruneFC rest
end

theorem dropLeavesN_dir (S : List (List GoStr)) (pre : List GoStr) (n : GoStr)
    (cs : List (GoStr × FNode)) :
    dropLeavesN S pre n (.dir cs) = some (.dir (dropLeavesC S (pre ++ [n]) cs)) := rfl

theorem dropLeavesN_file (S : List (List GoStr)) (pre : List GoStr) (n : GoStr)
    (c : Nat) : dropLeavesN S pre n (.file c) =
      if pre ++ [n] ∈ S then none else some (.file c) := rfl

theorem dropLeavesN_symlink (S : List (List GoStr)) (pre : List GoStr)
    (n : GoStr) (t : GoStr) : dropLeavesN S pre n (.symlink t) =
      if pre ++ [n] ∈ S then none else some (.symlink t) := rfl

theorem dropLeavesC_cons (S : List (List GoStr)) (pre : List GoStr) (n : GoStr)
    (x : FNode) (rest : List (GoStr × FNode)) :
    dropLeavesC S pre ((n, x) :: rest) =
      match dropLeavesN S pre n x with
      | none => dropLeavesC S pre rest
      | some x₁ => (n, x₁) :: dropLeavesC S pre rest := rfl

theorem pruneFN_dir (cs : List (GoStr × FNode)) :
    pruneFN (.dir cs) =
      if (pruneFC cs).isEmpty then none else some (.dir (pruneFC cs)) := rfl

theorem pruneFC_cons (n : GoStr) (x : FNode) (rest : List (GoStr × FNode)) :
    pruneFC ((n, x) :: rest) =
      match pruneFN x with
      | none => pruneFC rest
      | some x₁ => (n, x₁) :: pruneFC rest := rfl

mutual
theorem dropLeavesN_nil : ∀ (pre : List GoStr) (n : GoStr) (x : FNode),
    dropLeavesN [] pre n x = some x
  | pre, n, .dir cs => by
    rw [dropLeavesN_dir, dropLeavesC_nil (pre ++ [n]) cs]
  | pre, n, .file c => by
    rw [dropLeavesN_file, if_neg (by simp)]
  | pre, n, .symlink t => by
    rw [dropLeavesN_symlink, if_neg (by simp)]

theorem dropLeavesC_nil : ∀ (pre : List GoStr) (cs : List (GoStr × FNode)),
    dropLeavesC [] pre cs = cs
  | _, [] => rfl
  | pre, (n, x) :: rest => by
    rw [dropLeavesC_cons, dropLeavesN_nil pre n x]
    dsimp only
    rw [dropLeavesC_nil pre rest]
end

mutual
theorem dropLeavesN_congr (S₁ S₂ : List (List GoStr)) :
    ∀ (pre : List GoStr) (n : GoStr) (x : FNode),
      (∀ t, t ≠ [] → (pre ++ t ∈ S₁ ↔ pre ++ t ∈ S₂)) →
      dropLeavesN S₁ pre n x = dropLeavesN S₂ pre n x
  | pre, n, .dir cs, h => by
    rw [dropLeavesN_dir, dropLeavesN_dir,
      dropLeavesC_congr S₁ S₂ (pre ++ [n]) cs (fun t ht => by
        rw [show pre ++ [n] ++ t = pre ++ (n :: t) by simp]
        exact h (n :: t) (by simp))]
  | pre, n, .file c, h => by
    rw [dropLeavesN_file, dropLeavesN_file]
    by_cases hm : pre ++ [n] ∈ S₁
    · rw [if_pos hm, if_pos ((h [n] (by simp)).1 hm)]
    · rw [if_neg hm, if_neg (fun hc => hm ((h [n] (by simp)).2 hc))]
  | pre, n, .symlink t₀, h => by
    rw [dropLeavesN_symlink, dropLeavesN_symlink]
    by_cases hm : pre ++ [n] ∈ S₁
    · rw [if_pos hm, if_pos ((h [n] (by simp)).1 hm)]
    · rw [if_neg hm, if_neg (fun hc => hm ((h [n] (by simp)).2 hc))]

theorem dropLeavesC_congr (S₁ S₂ : List (List GoStr)) :
    ∀ (pre : List GoStr) (cs : List (GoStr × FNode)),
      (∀ t, t ≠ [] → (pre ++ t ∈ S₁ ↔ pre ++ t ∈ S₂)) →
      dropLeavesC S₁ pre cs = dropLeavesC S₂ pre cs
  | _, [], _ => rfl
  | pre, (n, x) :: rest, h => by
    rw [dropLeavesC_cons, dropLeavesC_cons, dropLeavesN_congr S₁ S₂ pre n x h,
      dropLeavesC_congr S₁ S₂ pre rest h]
end

mutual
theorem dropLeavesN_comp (S₁ S₂ : List (List GoStr)) :
    ∀ (pre : List GoStr) (n : GoStr) (x : FNode),
      (dropLeavesN S₁ pre n x).bind (dropLeavesN S₂ pre n) =
        dropLeavesN (S₁ ++ S₂) pre n x
  | pre, n, .dir cs => by
    rw [dropLeavesN_dir, Option.some_bind, dropLeavesN_dir, dropLeavesN_dir,
      dropLeavesC_comp S₁ S₂ (pre ++ [n]) cs]
  | pre, n, .file c => by
    rw [dropLeavesN_file, dropLeavesN_file (S₁ ++ S₂)]
    by_cases hm : pre ++ [n] ∈ S₁
    · rw [if_pos hm, if_pos (List.mem_append_left S₂ hm), Option.none_bind]
    · rw [if_neg hm, Option.some_bind, dropLeavesN_file]
      by_cases hm₂ : pre ++ [n] ∈ S₂
      · rw [if_pos hm₂, if_pos (List.mem_append_right S₁ hm₂)]
      · rw [if_neg hm₂, if_neg (by
          intro hc
          rcases List.mem_append.1 hc with hcc | hcc
          · exact hm hcc
          · exact hm₂ hcc)]
  | pre, n, .symlink t₀ => by
    rw [dropLeavesN_symlink, dropLeavesN_symlink (S₁ ++ S₂)]
    by_cases hm : pre ++ [n] ∈ S₁
    · rw [if_pos hm, if_pos (List.mem_append_left S₂ hm), Option.none_bind]
    · rw [if_neg hm, Option.some_bind, dropLeavesN_symlink]
      by_cases hm₂ : pre ++ [n] ∈ S₂
      · rw [if_pos hm₂, if_pos (List.mem_append_right S₁ hm₂)]
      · rw [if_neg hm₂, if_neg (by
          intro hc
          rcases List.mem_append.1 hc with hcc | hcc
          · exact hm hcc
          · exact hm₂ hcc)]

theorem dropLeavesC_comp (S₁ S₂ : List (List GoStr)) :
    ∀ (pre : List GoStr) (cs : List (GoStr × FNode)),
      dropLeavesC S₂ pre (dropLeavesC S₁ pre cs) =
        dropLeavesC (S₁ ++ S₂) pre cs
  | _, [] => rfl
  | pre, (n, x) :: rest => by
    rw [dropLeavesC_cons S₁, dropLeavesC_cons (S₁ ++ S₂),
      ← dropLeavesN_comp S₁ S₂ pre n x]
    rcases h₁ : dropLeavesN S₁ pre n x with _ | x₁
    · rw [Option.none_bind]
      dsimp only
      exact dropLeavesC_comp S₁ S₂ pre rest
    · rw [Option.some_bind]
      dsimp only
      rw [dropLeavesC_cons S₂]
      rcases h₂ : dropLeavesN S₂ pre n x₁ with _ | x₂
      · dsimp only
        exact dropLeavesC_comp S₁ S₂ pre rest
      · dsimp only
        rw [dropLeavesC_comp S₁ S₂ pre rest]
end

mutual
theorem pruneFN_noEmpty : ∀ (x : FNode), noEmptyN x = true → pruneFN x = some x
  | .dir cs, h => by
    unfold noEmptyN at h
    rw [Bool.and_eq_true] at h
    obtain ⟨h1, h2⟩ := h
    rw [pruneFN_dir, pruneFC_noEmpty cs h2]
    rw [Bool.not_eq_true'] at h1
    rw [if_neg (by simp [h1])]
  | .file c, h => rfl
  | .symlink t, h => rfl

theorem pruneFC_noEmpty : ∀ (cs : List (GoStr × FNode)), noEmptyC cs = true →
    pruneFC cs = cs
  | [], _ => rfl
  | (n, x) :: rest, h => by
    unfold noEmptyC at h
    rw [Bool.and_eq_true] at h
    obtain ⟨h1, h2⟩ := h
    rw [pruneFC_cons, pruneFN_noEmpty x h1]
    dsimp only
    rw [pruneFC_noEmpty rest h2]
end

mutual
theorem pruneNode_pruneFN : ∀ (path : GoStr) (cs : List (GoStr × FNode)),
    pruneNode [] path (.dir cs) = .ok (pruneFN (.dir cs))
  | path, cs => by
    unfold pruneNode
    rw [pruneChildren_pruneFC path cs]
    dsimp only
    by_cases he : (pruneFC cs).isEmpty = true
    · rw [if_pos he, if_neg (by simp), pruneFN_dir, if_pos he]
    · rw [if_neg he, pruneFN_dir, if_neg he]

theorem pruneChildren_pruneFC : ∀ (path : GoStr) (cs : List (GoStr × FNode)),
    pruneChildren [] path cs = .ok (pruneFC cs)
  | _, [] => rfl
  | path, (n, x) :: rest => by
    unfold pruneChildren
    rcases x with c | t | cs
    · dsimp only
      rw [pruneChildren_pruneFC path rest]
      rfl
    · dsimp only
      rw [pruneChildren_pruneFC path rest]
      rfl
    · dsimp only
      rw [pruneNode_pruneFN (filepathJoin path n) cs]
      rcases hp : pruneFN (.dir cs) with _ | x₁
      · dsimp only
        rw [pruneChildren_pruneFC path rest, pruneFC_cons, hp]
      · dsimp only
        rw [pruneChildren_pruneFC path rest]
        dsimp only
        rw [pruneFC_cons, hp]
end

mutual
/-- Well-formedness of a node: a directory has a well-formed listing. -/
def wfN : FNode → Bool
  | .dir cs => wfC cs
  | _ => true

/-- Well-formedness of a listing: sibling names are distinct,
recursively. -/
def wfC : List (GoStr × FNode) → Bool
  | [] => true
  | (n, x) :: rest =>
    !(decide (n ∈ rest.map Prod.fst)) && wfN x && wfC rest
end

theorem wfC_cons (n : GoStr) (x : FNode) (rest : List (GoStr × FNode))
    (h : wfC ((n, x) :: rest) = true) :
    n ∉ rest.map Prod.fst ∧ wfN x = true ∧ wfC rest = true := by
  unfold wfC at h
  rw [Bool.and_eq_true, Bool.and_eq_true] at h
  obtain ⟨⟨h1, h2⟩, h3⟩ := h
  rw [Bool.not_eq_true', decide_eq_false_iff_not] at h1
  exact ⟨h1, h2, h3⟩

theorem wfC_lookupName (cs : List (GoStr × FNode)) (n : GoStr) (x : FNode)
    (hw : wfC cs = true) (h : lookupName cs n = some x) : wfN x = true := by
  induction cs with
  | nil => cases h
  | cons hd rest ih =>
    obtain ⟨m, y⟩ := hd
    obtain ⟨-, h2, h3⟩ := wfC_cons m y rest hw
    unfold lookupName at h
    by_cases hm : m = n
    · rw [if_pos hm] at h
      injection h with h₁
      exact h₁ ▸ h2
    · rw [if_neg hm] at h
      exact ih h3 h

theorem lookupName_setAtName_ne (cs : List (GoStr × FNode)) (n m : GoStr)
    (x : FNode) (hne : m ≠ n) :
    lookupName (setAtName cs n x) m = lookupName cs m := by
  induction cs with
  | nil =>
    unfold setAtName lookupName
    rw [if_neg (fun h => hne h.symm)]
    rfl
  | cons hd rest ih =>
    obtain ⟨k, y⟩ := hd
    unfold setAtName
    by_cases hk : k = n
    · rw [if_pos hk]
      unfold lookupName
      rw [if_neg (hk ▸ fun h => hne h.symm), if_neg (hk ▸ fun h => hne h.symm)]
    · rw [if_neg hk]
      unfold lookupName
      by_cases hkm : k = m
      · rw [if_pos hkm, if_pos hkm]
      · rw [if_neg hkm, if_neg hkm]
        exact ih

theorem setAtName_of_not_mem (cs : List (GoStr × FNode)) (n : GoStr) (x : FNode)
    (h : lookupName cs n = none) : setAtName cs n x = cs ++ [(n, x)] := by
  induction cs with
  | nil => rfl
  | cons hd rest ih =>
    obtain ⟨k, y⟩ := hd
    unfold lookupName at h
    by_cases hk : k = n
    · rw [if_pos hk] at h
      cases h
    · rw [if_neg hk] at h
      unfold setAtName
      rw [if_neg hk, ih h]
      rfl

theorem lookupName_eq_none_iff (cs : List (GoStr × FNode)) (n : GoStr) :
    lookupName cs n = none ↔ n ∉ cs.map Prod.fst := by
  induction cs with
  | nil => simp [lookupName]
  | cons hd rest ih =>
    obtain ⟨k, y⟩ := hd
    unfold lookupName
    by_cases hk : k = n
    · rw [if_pos hk]
      subst hk
      simp only [List.map_cons]
      constructor
      · intro h
        cases h
      · intro h
        exact absurd (List.mem_cons_self k (rest.map Prod.fst)) h
    · rw [if_neg hk, ih]
      simp only [List.map_cons, List.mem_cons]
      constructor
      · intro h hc
        rcases hc with hc | hc
        · exact hk hc.symm
        · exact h hc
      · intro h hc
        exact h (Or.inr hc)

theorem setAtName_map_fst_of_mem (cs : List (GoStr × FNode)) (n : GoStr)
    (x z : FNode) (h : lookupName cs n = some z) :
    (setAtName cs n x).map Prod.fst = cs.map Prod.fst := by
  induction cs with
  | nil => cases h
  | cons hd rest ih =>
    obtain ⟨k, y⟩ := hd
    unfold lookupName at h
    unfold setAtName
    by_cases hk : k = n
    · rw [if_pos hk]
      simp only [List.map_cons]
    · rw [if_neg hk] at h ⊢
      simp only [List.map_cons]
      rw [ih h]

theorem wfC_setAtName (cs : List (GoStr × FNode)) (n : GoStr) (x : FNode)
    (hw : wfC cs = true) (hx : wfN x = true) :
    wfC (setAtName cs n x) = true := by
  induction cs with
  | nil => simp [setAtName, wfC, hx]
  | cons hd rest ih =>
    obtain ⟨k, y⟩ := hd
    obtain ⟨h1, h2, h3⟩ := wfC_cons k y rest hw
    unfold setAtName
    by_cases hk : k = n
    · rw [if_pos hk]
      subst hk
      unfold wfC
      rw [Bool.and_eq_true, Bool.and_eq_true]
      refine ⟨⟨?_, hx⟩, h3⟩
      rw [Bool.not_eq_true', decide_eq_false_iff_not]
      exact h1
    · rw [if_neg hk]
      unfold wfC
      rw [Bool.and_eq_true, Bool.and_eq_true]
      refine ⟨⟨?_, h2⟩, ih h3⟩
      rw [Bool.not_eq_true', decide_eq_false_iff_not]
      rcases hc₀ : lookupName rest n with _ | z
      · rw [setAtName_of_not_mem rest n x hc₀, List.map_append]
        intro hc
        rcases List.mem_append.1 hc with hc₁ | hc₁
        · exact h1 hc₁
        · simp at hc₁
          exact hk hc₁
      · rw [setAtName_map_fst_of_mem rest n x z hc₀]
        exact h1

theorem lookupName_cons (k : GoStr) (y : FNode) (rest : List (GoStr × FNode))
    (name : GoStr) : lookupName ((k, y) :: rest) name =
      if k = name then some y else lookupName rest name := rfl

theorem map_fst_delAtName_sublist (cs : List (GoStr × FNode)) (n : GoStr) :
    ((delAtName cs n).map Prod.fst).Sublist (cs.map Prod.fst) := by
  induction cs with
  | nil => exact List.Sublist.refl _
  | cons hd rest ih =>
    obtain ⟨k, y⟩ := hd
    unfold delAtName
    by_cases hk : k = n
    · rw [if_pos hk]
      exact (List.Sublist.refl _).cons k
    · rw [if_neg hk]
      simp only [List.map_cons]
      exact ih.cons₂ k

theorem wfC_delAtName (cs : List (GoStr × FNode)) (n : GoStr)
    (hw : wfC cs = true) : wfC (delAtName cs n) = true := by
  induction cs with
  | nil => exact hw
  | cons hd rest ih =>
    obtain ⟨k, y⟩ := hd
    obtain ⟨h1, h2, h3⟩ := wfC_cons k y rest hw
    unfold delAtName
    by_cases hk : k = n
    · rw [if_pos hk]
      exact h3
    · rw [if_neg hk]
      unfold wfC
      rw [Bool.and_eq_true, Bool.and_eq_true]
      refine ⟨⟨?_, h2⟩, ih h3⟩
      rw [Bool.not_eq_true', decide_eq_false_iff_not]
      intro hc
      exact h1 ((map_fst_delAtName_sublist rest n).subset hc)

theorem lookupName_delAtName_ne (cs : List (GoStr × FNode)) (n m : GoStr)
    (hne : m ≠ n) : lookupName (delAtName cs n) m = lookupName cs m := by
  induction cs with
  | nil => rfl
  | cons hd rest ih =>
    obtain ⟨k, y⟩ := hd
    unfold delAtName
    by_cases hk : k = n
    · rw [if_pos hk, lookupName_cons, if_neg (hk ▸ fun h => hne h.symm)]
    · rw [if_neg hk, lookupName_cons, lookupName_cons]
      by_cases hkm : k = m
      · rw [if_pos hkm, if_pos hkm]
      · rw [if_neg hkm, if_neg hkm]
        exact ih

theorem lookupName_delAtName_self (cs : List (GoStr × FNode)) (n : GoStr)
    (hw : wfC cs = true) : lookupName (delAtName cs n) n = none := by
  induction cs with
  | nil => rfl
  | cons hd rest ih =>
    obtain ⟨k, y⟩ := hd
    obtain ⟨h1, -, h3⟩ := wfC_cons k y rest hw
    unfold delAtName
    by_cases hk : k = n
    · rw [if_pos hk]
      subst hk
      exact (lookupName_eq_none_iff rest k).mpr h1
    · rw [if_neg hk, lookupName_cons, if_neg hk]
      exact ih h3

theorem map_fst_dropLeavesC_sublist (S : List (List GoStr)) (pre : List GoStr)
    (cs : List (GoStr × FNode)) :
    ((dropLeavesC S pre cs).map Prod.fst).Sublist (cs.map Prod.fst) := by
  induction cs with
  | nil => exact List.Sublist.refl _
  | cons hd rest ih =>
    obtain ⟨k, y⟩ := hd
    rw [dropLeavesC_cons]
    rcases hd₀ : dropLeavesN S pre k y with _ | y₁
    · dsimp only
      exact ih.cons k
    · dsimp only
      simp only [List.map_cons]
      exact ih.cons₂ k

mutual
theorem wfN_dropLeavesN (S : List (List GoStr)) :
    ∀ (pre : List GoStr) (n : GoStr) (x x₁ : FNode),
      wfN x = true → dropLeavesN S pre n x = some x₁ → wfN x₁ = true
  | pre, n, .dir cs, x₁, hw, h => by
    rw [dropLeavesN_dir] at h
    injection h with h₁
    rw [← h₁]
    exact wfC_dropLeavesC S (pre ++ [n]) cs hw
  | pre, n, .file c, x₁, hw, h => by
    rw [dropLeavesN_file] at h
    by_cases hm : pre ++ [n] ∈ S
    · rw [if_pos hm] at h
      cases h
    · rw [if_neg hm] at h
      injection h with h₁
      rw [← h₁]
      rfl
  | pre, n, .symlink t, x₁, hw, h => by
    rw [dropLeavesN_symlink] at h
    by_cases hm : pre ++ [n] ∈ S
    · rw [if_pos hm] at h
      cases h
    · rw [if_neg hm] at h
      injection h with h₁
      rw [← h₁]
      rfl

theorem wfC_dropLeavesC (S : List (List GoStr)) :
    ∀ (pre : List GoStr) (cs : List (GoStr × FNode)),
      wfC cs = true → wfC (dropLeavesC S pre cs) = true
  | _, [], h => h
  | pre, (n, x) :: rest, h => by
    obtain ⟨h1, h2, h3⟩ := wfC_cons n x rest h
    rw [dropLeavesC_cons]
    rcases hd₀ : dropLeavesN S pre n x with _ | x₁
    · dsimp only
      exact wfC_dropLeavesC S pre rest h3
    · dsimp only
      unfold wfC
      rw [Bool.and_eq_true, Bool.and_eq_true]
      refine ⟨⟨?_, wfN_dropLeavesN S pre n x x₁ h2 hd₀⟩,
        wfC_dropLeavesC S pre rest h3⟩
      rw [Bool.not_eq_true', decide_eq_false_iff_not]
      intro hc
      exact h1 ((map_fst_dropLeavesC_sublist S pre rest).subset hc)
end

theorem lookupName_dropLeavesC (S : List (List GoStr)) (pre : List GoStr)
    (cs : List (GoStr × FNode)) (n : GoStr) (hw : wfC cs = true) :
    lookupName (dropLeavesC S pre cs) n =
      (lookupName cs n).bind (dropLeavesN S pre n) := by
  induction cs with
  | nil => rfl
  | cons hd rest ih =>
    obtain ⟨k, y⟩ := hd
    obtain ⟨h1, h2, h3⟩ := wfC_cons k y rest hw
    rw [dropLeavesC_cons]
    rcases hd₀ : dropLeavesN S pre k y with _ | y₁
    · dsimp only
      by_cases hk : k = n
      · subst hk
        rw [ih h3, lookupName_cons, if_pos rfl,
          (lookupName_eq_none_iff rest k).mpr h1, Option.none_bind,
          Option.some_bind, hd₀]
      · rw [ih h3, lookupName_cons, if_neg hk]
    · dsimp only
      by_cases hk : k = n
      · subst hk
        rw [lookupName_cons, lookupName_cons, if_pos rfl, if_pos rfl,
          Option.some_bind, hd₀]
      · rw [lookupName_cons, lookupName_cons, if_neg hk, if_neg hk]
        exact ih h3

theorem lookupSegs_single (cs : List (GoStr × FNode)) (s : GoStr) :
    lookupSegs cs [s] = lookupName cs s := rfl

theorem lookupSegs_cons2 (cs : List (GoStr × FNode)) (s r : GoStr)
    (rs : List GoStr) :
    lookupSegs cs (s :: r :: rs) =
      match lookupName cs s with
      | some (.dir cs₂) => lookupSegs cs₂ (r :: rs)
      | _ => none := rfl

theorem lookupSegs_dropLeavesC (S : List (List GoStr)) :
    ∀ (pre : List GoStr) (cs : List (GoStr × FNode)) (q : List GoStr),
      wfC cs = true → q ≠ [] →
      lookupSegs (dropLeavesC S pre cs) q =
        match lookupSegs cs q with
        | some (.dir d) => some (.dir (dropLeavesC S (pre ++ q) d))
        | some x => if pre ++ q ∈ S then none else some x
        | none => none
  | pre, cs, [], hw, hq => absurd rfl hq
  | pre, cs, [s], hw, _ => by
    rw [lookupSegs_single, lookupSegs_single,
      lookupName_dropLeavesC S pre cs s hw]
    rcases hl : lookupName cs s with _ | x
    · rfl
    · rcases x with c | t | d
      · rw [Option.some_bind, dropLeavesN_file]
      · rw [Option.some_bind, dropLeavesN_symlink]
      · rw [Option.some_bind, dropLeavesN_dir]
  | pre, cs, s :: r :: rs, hw, _ => by
    rw [lookupSegs_cons2, lookupSegs_cons2,
      lookupName_dropLeavesC S pre cs s hw]
    rcases hl : lookupName cs s with _ | x
    · rfl
    · rcases x with c | t | d
      · rw [Option.some_bind, dropLeavesN_file]
        by_cases hm : pre ++ [s] ∈ S
        · rw [if_pos hm]
        · rw [if_neg hm]
      · rw [Option.some_bind, dropLeavesN_symlink]
        by_cases hm : pre ++ [s] ∈ S
        · rw [if_pos hm]
        · rw [if_neg hm]
      · rw [Option.some_bind, dropLeavesN_dir]
        dsimp only
        rw [lookupSegs_dropLeavesC S (pre ++ [s]) d (r :: rs)
          (wfC_lookupName cs s (.dir d) hw hl) (by simp)]
        rw [show pre ++ [s] ++ (r :: rs) = pre ++ (s :: r :: rs) by simp]

theorem dropLeavesC_append (S : List (List GoStr)) (pre : List GoStr)
    (a b : List (GoStr × FNode)) :
    dropLeavesC S pre (a ++ b) = dropLeavesC S pre a ++ dropLeavesC S pre b := by
  induction a with
  | nil => rfl
  | cons hd rest ih =>
    obtain ⟨k, y⟩ := hd
    rw [List.cons_append, dropLeavesC_cons, dropLeavesC_cons]
    rcases hd₀ : dropLeavesN S pre k y with _ | y₁
    · dsimp only
      exact ih
    · dsimp only
      rw [ih, List.cons_append]

theorem pruneFC_append (a b : List (GoStr × FNode)) :
    pruneFC (a ++ b) = pruneFC a ++ pruneFC b := by
  induction a with
  | nil => rfl
  | cons hd rest ih =>
    obtain ⟨k, y⟩ := hd
    rw [List.cons_append, pruneFC_cons, pruneFC_cons]
    rcases hd₀ : pruneFN y with _ | y₁
    · dsimp only
      exact ih
    · dsimp only
      rw [ih, List.cons_append]

theorem leafHyp_rest (S : List (List GoStr)) (pre : List GoStr) (n : GoStr)
    (x : FNode) (rest : List (GoStr × FNode))
    (h1 : n ∉ rest.map Prod.fst)
    (h : ∀ t y, isLeaf y = true → lookupSegs ((n, x) :: rest) t = some y →
      pre ++ t ∉ S) :
    ∀ t y, isLeaf y = true → lookupSegs rest t = some y → pre ++ t ∉ S := by
  intro t y hy hl
  apply h t y hy
  cases t with
  | nil =>
    rw [show lookupSegs rest [] = (none : Option FNode) from rfl] at hl
    cases hl
  | cons m t₀ =>
    by_cases hm : m = n
    · subst hm
      cases t₀ with
      | nil =>
        rw [lookupSegs_single, (lookupName_eq_none_iff rest m).mpr h1] at hl
        cases hl
      | cons r rs =>
        rw [lookupSegs_cons2, (lookupName_eq_none_iff rest m).mpr h1] at hl
        cases hl
    · cases t₀ with
      | nil =>
        rw [lookupSegs_single] at hl
        rw [lookupSegs_single, lookupName_cons, if_neg (fun hc => hm hc.symm)]
        exact hl
      | cons r rs =>
        rw [lookupSegs_cons2] at hl
        rw [lookupSegs_cons2, lookupName_cons, if_neg (fun hc => hm hc.symm)]
        exact hl

theorem leafHyp_child (S : List (List GoStr)) (pre : List GoStr) (n : GoStr)
    (cs rest : List (GoStr × FNode))
    (h : ∀ t y, isLeaf y = true →
      lookupSegs ((n, FNode.dir cs) :: rest) t = some y → pre ++ t ∉ S) :
    ∀ t y, isLeaf y = true → lookupSegs cs t = some y →
      (pre ++ [n]) ++ t ∉ S := by
  intro t y hy hl
  rw [show pre ++ [n] ++ t = pre ++ (n :: t) by simp]
  apply h (n :: t) y hy
  cases t with
  | nil =>
    rw [show lookupSegs cs [] = (none : Option FNode) from rfl] at hl
    cases hl
  | cons r rs =>
    rw [lookupSegs_cons2, lookupName_cons, if_pos rfl]
    exact hl

theorem dropLeavesC_id (S : List (List GoStr)) :
    ∀ (pre : List GoStr) (cs : List (GoStr × FNode)), wfC cs = true →
      (∀ t y, isLeaf y = true → lookupSegs cs t = some y → pre ++ t ∉ S) →
      dropLeavesC S pre cs = cs
  | _, [], _, _ => rfl
  | pre, (n, .file c) :: rest, hw, h => by
    obtain ⟨h1, h2, h3⟩ := wfC_cons n (.file c) rest hw
    rw [dropLeavesC_cons, dropLeavesN_file, if_neg (h [n] (.file c) rfl
      (by rw [lookupSegs_single, lookupName_cons, if_pos rfl]))]
    dsimp only
    rw [dropLeavesC_id S pre rest h3 (leafHyp_rest S pre n (.file c) rest h1 h)]
  | pre, (n, .symlink t₀) :: rest, hw, h => by
    obtain ⟨h1, h2, h3⟩ := wfC_cons n (.symlink t₀) rest hw
    rw [dropLeavesC_cons, dropLeavesN_symlink, if_neg (h [n] (.symlink t₀) rfl
      (by rw [lookupSegs_single, lookupName_cons, if_pos rfl]))]
    dsimp only
    rw [dropLeavesC_id S pre rest h3
      (leafHyp_rest S pre n (.symlink t₀) rest h1 h)]
  | pre, (n, .dir cs) :: rest, hw, h => by
    obtain ⟨h1, h2, h3⟩ := wfC_cons n (.dir cs) rest hw
    rw [dropLeavesC_cons, dropLeavesN_dir]
    dsimp only
    rw [dropLeavesC_id S pre rest h3 (leafHyp_rest S pre n (.dir cs) rest h1 h),
      dropLeavesC_id S (pre ++ [n]) cs h2 (leafHyp_child S pre n cs rest h)]

theorem insertSegs_single (cs : List (GoStr × FNode)) (s : GoStr) (x : FNode) :
    insertSegs cs [s] x = some (setAtName cs s x) := rfl

theorem insertSegs_cons2 (cs : List (GoStr × FNode)) (s r : GoStr)
    (rs : List GoStr) (x : FNode) :
    insertSegs cs (s :: r :: rs) x =
      match lookupName cs s with
      | some (.dir cs₂) =>
        match insertSegs cs₂ (r :: rs) x with
        | some cs₂' => some (setAtName cs s (.dir cs₂'))
        | none => none
      | _ => none := rfl

theorem mkdirAllSegs_cons (cs : List (GoStr × FNode)) (s : GoStr)
    (q : List GoStr) :
    mkdirAllSegs cs (s :: q) =
      match lookupName cs s with
      | some (.dir cs₂) =>
        match mkdirAllSegs cs₂ q with
        | some cs₂' => some (setAtName cs s (.dir cs₂'))
        | none => none
      | some _ => none
      | none =>
        match mkdirAllSegs [] q with
        | some cs₂' => some (setAtName cs s (.dir cs₂'))
        | none => none := rfl

theorem removeSegs_single (cs : List (GoStr × FNode)) (s : GoStr) :
    removeSegs cs [s] =
      match lookupName cs s with
      | some _ => some (delAtName cs s)
      | none => none := rfl

theorem removeSegs_cons2 (cs : List (GoStr × FNode)) (s r : GoStr)
    (rs : List GoStr) :
    removeSegs cs (s :: r :: rs) =
      match lookupName cs s with
      | some (.dir cs₂) =>
        match removeSegs cs₂ (r :: rs) with
        | some cs₂' => some (setAtName cs s (.dir cs₂'))
        | none => none
      | _ => none := rfl

theorem lookupName_append_of_none (cs b : List (GoStr × FNode)) (n : GoStr)
    (h : lookupName cs n = none) :
    lookupName (cs ++ b) n = lookupName b n := by
  induction cs with
  | nil => rfl
  | cons hd rest ih =>
    obtain ⟨k, y⟩ := hd
    unfold lookupName at h
    rw [List.cons_append, lookupName_cons]
    by_cases hk : k = n
    · rw [if_pos hk] at h
      cases h
    · rw [if_neg hk] at h ⊢
      exact ih h

theorem lookupName_append_left (cs b : List (GoStr × FNode)) (n : GoStr)
    (y : FNode) (h : lookupName cs n = some y) :
    lookupName (cs ++ b) n = some y := by
  induction cs with
  | nil => cases h
  | cons hd rest ih =>
    obtain ⟨k, z⟩ := hd
    unfold lookupName at h
    rw [List.cons_append, lookupName_cons]
    by_cases hk : k = n
    · rw [if_pos hk] at h ⊢
      exact h
    · rw [if_neg hk] at h ⊢
      exact ih h

theorem setAtName_nil (s : GoStr) (z : FNode) : setAtName [] s z = [(s, z)] := rfl

theorem setAtName_cons (k : GoStr) (y : FNode) (rest : List (GoStr × FNode))
    (s : GoStr) (z : FNode) :
    setAtName ((k, y) :: rest) s z =
      if k = s then (k, z) :: rest else (k, y) :: setAtName rest s z := rfl

theorem setAtName_setAtName (cs : List (GoStr × FNode)) (s : GoStr)
    (z z' : FNode) : setAtName (setAtName cs s z) s z' = setAtName cs s z' := by
  induction cs with
  | nil =>
    rw [setAtName_nil, setAtName_cons, if_pos rfl, setAtName_nil]
  | cons hd rest ih =>
    obtain ⟨k, y⟩ := hd
    rw [setAtName_cons]
    by_cases hk : k = s
    · rw [if_pos hk, setAtName_cons, if_pos hk, setAtName_cons, if_pos hk]
    · rw [if_neg hk, setAtName_cons, if_neg hk, setAtName_cons, if_neg hk, ih]

theorem setAtName_append_of_none (cs : List (GoStr × FNode)) (s : GoStr)
    (z z' : FNode) (h : lookupName cs s = none) :
    setAtName (cs ++ [(s, z)]) s z' = cs ++ [(s, z')] := by
  induction cs with
  | nil =>
    rw [List.nil_append, setAtName_cons, if_pos rfl]
    rfl
  | cons hd rest ih =>
    obtain ⟨k, y⟩ := hd
    unfold lookupName at h
    rw [List.cons_append, setAtName_cons]
    by_cases hk : k = s
    · rw [if_pos hk] at h
      cases h
    · rw [if_neg hk] at h
      rw [if_neg hk, ih h, List.cons_append]

theorem setAtName_ne_nil (cs : List (GoStr × FNode)) (s : GoStr) (z : FNode) :
    setAtName cs s z ≠ [] := by
  cases cs with
  | nil => simp [setAtName]
  | cons hd rest =>
    obtain ⟨k, y⟩ := hd
    unfold setAtName
    by_cases hk : k = s
    · rw [if_pos hk]
      simp
    · rw [if_neg hk]
      simp

theorem noEmptyC_append (a b : List (GoStr × FNode)) (ha : noEmptyC a = true)
    (hb : noEmptyC b = true) : noEmptyC (a ++ b) = true := by
  induction a with
  | nil => exact hb
  | cons hd rest ih =>
    obtain ⟨k, y⟩ := hd
    unfold noEmptyC at ha ⊢
    rw [Bool.and_eq_true] at ha
    rw [List.cons_append, Bool.and_eq_true]
    exact ⟨ha.1, ih ha.2⟩

theorem noEmptyC_setAtName (cs : List (GoStr × FNode)) (s : GoStr) (z : FNode)
    (hw : noEmptyC cs = true) (hz : noEmptyN z = true) :
    noEmptyC (setAtName cs s z) = true := by
  induction cs with
  | nil =>
    unfold setAtName
    unfold noEmptyC
    rw [Bool.and_eq_true]
    exact ⟨hz, rfl⟩
  | cons hd rest ih =>
    obtain ⟨k, y⟩ := hd
    unfold noEmptyC at hw
    rw [Bool.and_eq_true] at hw
    unfold setAtName
    by_cases hk : k = s
    · rw [if_pos hk]
      unfold noEmptyC
      rw [Bool.and_eq_true]
      exact ⟨hz, hw.2⟩
    · rw [if_neg hk]
      unfold noEmptyC
      rw [Bool.and_eq_true]
      exact ⟨hw.1, ih hw.2⟩

theorem noEmptyC_lookupName (cs : List (GoStr × FNode)) (n : GoStr) (x : FNode)
    (hw : noEmptyC cs = true) (h : lookupName cs n = some x) :
    noEmptyN x = true := by
  induction cs with
  | nil => cases h
  | cons hd rest ih =>
    obtain ⟨k, y⟩ := hd
    unfold noEmptyC at hw
    rw [Bool.and_eq_true] at hw
    unfold lookupName at h
    by_cases hk : k = n
    · rw [if_pos hk] at h
      injection h with h₁
      exact h₁ ▸ hw.1
    · rw [if_neg hk] at h
      exact ih hw.2 h

theorem noEmptyC_lookupSegs (cs : List (GoStr × FNode)) :
    ∀ (q : List GoStr) (x : FNode), noEmptyC cs = true →
      lookupSegs cs q = some x → noEmptyN x = true := by
  intro q
  induction q generalizing cs with
  | nil =>
    intro x _ h
    cases h
  | cons s q' ih =>
    intro x hw h
    cases q' with
    | nil =>
      rw [lookupSegs_single] at h
      exact noEmptyC_lookupName cs s x hw h
    | cons r rs =>
      rw [lookupSegs_cons2] at h
      rcases hl : lookupName cs s with _ | z
      · rw [hl] at h
        cases h
      · rw [hl] at h
        rcases z with c | t | d
        · cases h
        · cases h
        · have hd := noEmptyC_lookupName cs s (.dir d) hw hl
          unfold noEmptyN at hd
          rw [Bool.and_eq_true] at hd
          exact ih d x hd.2 h

theorem lookupSegs_nil_left : ∀ (r : List GoStr),
    lookupSegs ([] : List (GoStr × FNode)) r = none
  | [] => rfl
  | [_] => rfl
  | _ :: _ :: _ => rfl

theorem dropLeavesC_setAtName_dir (S : List (List GoStr)) (pre : List GoStr)
    (s : GoStr) (c₂ c₂' : List (GoStr × FNode)) (cs : List (GoStr × FNode))
    (hl : lookupName cs s = some (.dir c₂))
    (hc : dropLeavesC S (pre ++ [s]) c₂' = dropLeavesC S (pre ++ [s]) c₂) :
    dropLeavesC S pre (setAtName cs s (.dir c₂')) = dropLeavesC S pre cs := by
  induction cs with
  | nil => cases hl
  | cons hd rest ih =>
    obtain ⟨k, y⟩ := hd
    rw [lookupName_cons] at hl
    rw [setAtName_cons]
    by_cases hk : k = s
    · subst hk
      rw [if_pos rfl] at hl ⊢
      injection hl with hl₁
      rw [dropLeavesC_cons, dropLeavesC_cons, hl₁, dropLeavesN_dir,
        dropLeavesN_dir]
      dsimp only
      rw [hc]
    · rw [if_neg hk] at hl ⊢
      rw [dropLeavesC_cons, dropLeavesC_cons]
      rcases hd₀ : dropLeavesN S pre k y with _ | y₁
      · dsimp only
        exact ih hl
      · dsimp only
        rw [ih hl]

theorem pruneFC_dropLeavesC_setAtName_dir (S : List (List GoStr))
    (pre : List GoStr) (s : GoStr) (c₂ c₂' : List (GoStr × FNode))
    (cs : List (GoStr × FNode)) (hl : lookupName cs s = some (.dir c₂))
    (hc : pruneFC (dropLeavesC S (pre ++ [s]) c₂') =
      pruneFC (dropLeavesC S (pre ++ [s]) c₂)) :
    pruneFC (dropLeavesC S pre (setAtName cs s (.dir c₂'))) =
      pruneFC (dropLeavesC S pre cs) := by
  induction cs with
  | nil => cases hl
  | cons hd rest ih =>
    obtain ⟨k, y⟩ := hd
    rw [lookupName_cons] at hl
    rw [setAtName_cons]
    by_cases hk : k = s
    · subst hk
      rw [if_pos rfl] at hl ⊢
      injection hl with hl₁
      rw [dropLeavesC_cons, dropLeavesC_cons, hl₁, dropLeavesN_dir,
        dropLeavesN_dir]
      dsimp only
      rw [pruneFC_cons, pruneFC_cons, pruneFN_dir, pruneFN_dir, hc]
    · rw [if_neg hk] at hl ⊢
      rw [dropLeavesC_cons, dropLeavesC_cons]
      rcases hd₀ : dropLeavesN S pre k y with _ | y₁
      · dsimp only
        exact ih hl
      · dsimp only
        rw [pruneFC_cons, pruneFC_cons]
        rcases hp : pruneFN y₁ with _ | y₂
        · dsimp only
          exact ih hl
        · dsimp only
          rw [ih hl]

theorem chain_noleaf : ∀ (q : List GoStr) (c : List (GoStr × FNode)),
    mkdirAllSegs [] q = some c →
    ∀ (r : List GoStr) (y : FNode), isLeaf y = true → lookupSegs c r ≠ some y
  | [], c, h => by
    injection h with h₁
    subst h₁
    intro r y hy hl
    rw [lookupSegs_nil_left] at hl
    cases hl
  | s :: q', c, h => by
    rw [mkdirAllSegs_cons,
      show lookupName ([] : List (GoStr × FNode)) s = none from rfl] at h
    dsimp only at h
    rcases hm : mkdirAllSegs [] q' with _ | c'
    · rw [hm] at h
      cases h
    · rw [hm] at h
      dsimp only at h
      injection h with h₁
      rw [setAtName_nil] at h₁
      subst h₁
      intro r y hy hl
      cases r with
      | nil => cases hl
      | cons m r' =>
        by_cases hms : m = s
        · subst hms
          cases r' with
          | nil =>
            rw [lookupSegs_single, lookupName_cons, if_pos rfl] at hl
            injection hl with hl₁
            rw [← hl₁] at hy
            cases hy
          | cons a b =>
            rw [lookupSegs_cons2, lookupName_cons, if_pos rfl] at hl
            exact chain_noleaf q' c' hm (a :: b) y hy hl
        · cases r' with
          | nil =>
            rw [lookupSegs_single, lookupName_cons,
              if_neg (fun hc => hms hc.symm)] at hl
            cases hl
          | cons a b =>
            rw [lookupSegs_cons2, lookupName_cons,
              if_neg (fun hc => hms hc.symm)] at hl
            cases hl

theorem chain_lookup_ext : ∀ (q : List GoStr) (c : List (GoStr × FNode))
    (r : List GoStr), r ≠ [] → mkdirAllSegs [] q = some c →
    lookupSegs c (q ++ r) = none
  | [], c, r, hr, h => by
    injection h with h₁
    subst h₁
    rw [List.nil_append, lookupSegs_nil_left]
  | s :: q', c, r, hr, h => by
    rw [mkdirAllSegs_cons,
      show lookupName ([] : List (GoStr × FNode)) s = none from rfl] at h
    dsimp only at h
    rcases hm : mkdirAllSegs [] q' with _ | c'
    · rw [hm] at h
      cases h
    · rw [hm] at h
      dsimp only at h
      injection h with h₁
      rw [setAtName_nil] at h₁
      subst h₁
      rw [List.cons_append]
      rcases hqr : q' ++ r with _ | ⟨a, b⟩
      · exact absurd (List.append_eq_nil.1 hqr).2 hr
      · rw [lookupSegs_cons2, lookupName_cons, if_pos rfl, ← hqr]
        exact chain_lookup_ext q' c' r hr hm

theorem chain_drop_prune : ∀ (q : List GoStr) (c : List (GoStr × FNode))
    (S : List (List GoStr)) (pre : List GoStr), mkdirAllSegs [] q = some c →
    pruneFC (dropLeavesC S pre c) = []
  | [], c, S, pre, h => by
    injection h with h₁
    subst h₁
    rfl
  | s :: q', c, S, pre, h => by
    rw [mkdirAllSegs_cons,
      show lookupName ([] : List (GoStr × FNode)) s = none from rfl] at h
    dsimp only at h
    rcases hm : mkdirAllSegs [] q' with _ | c'
    · rw [hm] at h
      cases h
    · rw [hm] at h
      dsimp only at h
      injection h with h₁
      rw [setAtName_nil] at h₁
      subst h₁
      rw [dropLeavesC_cons, dropLeavesN_dir]
      dsimp only
      rw [pruneFC_cons, pruneFN_dir,
        chain_drop_prune q' c' S (pre ++ [s]) hm]
      rfl

theorem mkdirAllSegs_frame : ∀ (q : List GoStr) (cs cs' : List (GoStr × FNode)),
    mkdirAllSegs cs q = some cs' →
    ∀ (r : List GoStr) (y : FNode), isLeaf y = true → r ≠ [] →
      (lookupSegs cs' r = some y ↔ lookupSegs cs r = some y)
  | [], cs, cs', h => by
    injection h with h₁
    subst h₁
    intro r y hy hr
    exact Iff.rfl
  | s :: q', cs, cs', h => by
    rw [mkdirAllSegs_cons] at h
    rcases hl : lookupName cs s with _ | z
    · rw [hl] at h
      dsimp only at h
      rcases hm : mkdirAllSegs [] q' with _ | c'
      · rw [hm] at h
        cases h
      · rw [hm] at h
        dsimp only at h
        injection h with h₁
        subst h₁
        intro r y hy hr
        rw [setAtName_of_not_mem cs s _ hl]
        cases r with
        | nil => exact absurd rfl hr
        | cons m r' =>
          by_cases hms : m = s
          · subst hms
            cases r' with
            | nil =>
              rw [lookupSegs_single, lookupSegs_single,
                lookupName_append_of_none cs _ m hl, lookupName_cons,
                if_pos rfl, hl]
              constructor
              · intro hcon
                injection hcon with hcon₁
                rw [← hcon₁] at hy
                cases hy
              · intro hcon
                cases hcon
            | cons a b =>
              rw [lookupSegs_cons2, lookupSegs_cons2,
                lookupName_append_of_none cs _ m hl, lookupName_cons,
                if_pos rfl, hl]
              dsimp only
              constructor
              · intro hcon
                exact absurd hcon (chain_noleaf q' c' hm (a :: b) y hy)
              · intro hcon
                cases hcon
          · have hname : lookupName (cs ++ [(s, FNode.dir c')]) m =
                lookupName cs m := by
              rcases hlm : lookupName cs m with _ | z₀
              · rw [lookupName_append_of_none cs _ m hlm, lookupName_cons,
                  if_neg (fun hc => hms hc.symm)]
                rfl
              · exact lookupName_append_left cs _ m z₀ hlm
            cases r' with
            | nil => rw [lookupSegs_single, lookupSegs_single, hname]
            | cons a b => rw [lookupSegs_cons2, lookupSegs_cons2, hname]
    · rcases z with c | t | cs₂
      · rw [hl] at h
        cases h
      · rw [hl] at h
        cases h
      · rw [hl] at h
        dsimp only at h
        rcases hm : mkdirAllSegs cs₂ q' with _ | c₂'
        · rw [hm] at h
          cases h
        · rw [hm] at h
          dsimp only at h
          injection h with h₁
          subst h₁
          intro r y hy hr
          cases r with
          | nil => exact absurd rfl hr
          | cons m r' =>
            by_cases hms : m = s
            · subst hms
              cases r' with
              | nil =>
                rw [lookupSegs_single, lookupSegs_single,
                  lookupName_setAtName_self, hl]
                constructor
                · intro hcon
                  injection hcon with hcon₁
                  rw [← hcon₁] at hy
                  cases hy
                · intro hcon
                  injection hcon with hcon₁
                  rw [← hcon₁] at hy
                  cases hy
              | cons a b =>
                rw [lookupSegs_cons2, lookupSegs_cons2,
                  lookupName_setAtName_self, hl]
                dsimp only
                exact mkdirAllSegs_frame q' cs₂ c₂' hm (a :: b) y hy (by simp)
            · cases r' with
              | nil =>
                rw [lookupSegs_single, lookupSegs_single,
                  lookupName_setAtName_ne cs s m _ hms]
              | cons a b =>
                rw [lookupSegs_cons2, lookupSegs_cons2,
                  lookupName_setAtName_ne cs s m _ hms]

theorem mkdirAllSegs_prune : ∀ (q : List GoStr) (cs cs' : List (GoStr × FNode))
    (S : List (List GoStr)) (pre : List GoStr),
    mkdirAllSegs cs q = some cs' →
    pruneFC (dropLeavesC S pre cs') = pruneFC (dropLeavesC S pre cs)
  | [], cs, cs', S, pre, h => by
    injection h with h₁
    subst h₁
    rfl
  | s :: q', cs, cs', S, pre, h => by
    rw [mkdirAllSegs_cons] at h
    rcases hl : lookupName cs s with _ | z
    · rw [hl] at h
      dsimp only at h
      rcases hm : mkdirAllSegs [] q' with _ | c'
      · rw [hm] at h
        cases h
      · rw [hm] at h
        dsimp only at h
        injection h with h₁
        subst h₁
        rw [setAtName_of_not_mem cs s _ hl, dropLeavesC_append, pruneFC_append]
        have hch : mkdirAllSegs [] (s :: q') = some [(s, FNode.dir c')] := by
          rw [mkdirAllSegs_cons,
            show lookupName ([] : List (GoStr × FNode)) s = none from rfl]
          dsimp only
          rw [hm]
          rfl
        rw [chain_drop_prune (s :: q') [(s, FNode.dir c')] S pre hch,
          List.append_nil]
    · rcases z with c | t | cs₂
      · rw [hl] at h
        cases h
      · rw [hl] at h
        cases h
      · rw [hl] at h
        dsimp only at h
        rcases hm : mkdirAllSegs cs₂ q' with _ | c₂'
        · rw [hm] at h
          cases h
        · rw [hm] at h
          dsimp only at h
          injection h with h₁
          subst h₁
          exact pruneFC_dropLeavesC_setAtName_dir S pre s cs₂ c₂' cs hl
            (mkdirAllSegs_prune q' cs₂ c₂' S (pre ++ [s]) hm)

theorem mkdirAllSegs_lookup_ext : ∀ (q : List GoStr)
    (cs cs' : List (GoStr × FNode)) (r : List GoStr), r ≠ [] →
    mkdirAllSegs cs q = some cs' →
    lookupSegs cs' (q ++ r) = lookupSegs cs (q ++ r) ∨
      lookupSegs cs' (q ++ r) = none
  | [], cs, cs', r, hr, h => by
    injection h with h₁
    subst h₁
    exact Or.inl rfl
  | s :: q', cs, cs', r, hr, h => by
    rw [mkdirAllSegs_cons] at h
    rcases hl : lookupName cs s with _ | z
    · rw [hl] at h
      dsimp only at h
      rcases hm : mkdirAllSegs [] q' with _ | c'
      · rw [hm] at h
        cases h
      · rw [hm] at h
        dsimp only at h
        injection h with h₁
        subst h₁
        refine Or.inr ?_
        rw [setAtName_of_not_mem cs s _ hl, List.cons_append]
        rcases hqr : q' ++ r with _ | ⟨a, b⟩
        · exact absurd (List.append_eq_nil.1 hqr).2 hr
        · rw [lookupSegs_cons2, lookupName_append_of_none cs _ s hl,
            lookupName_cons, if_pos rfl, ← hqr]
          exact chain_lookup_ext q' c' r hr hm
    · rcases z with c | t | cs₂
      · rw [hl] at h
        cases h
      · rw [hl] at h
        cases h
      · rw [hl] at h
        dsimp only at h
        rcases hm : mkdirAllSegs cs₂ q' with _ | c₂'
        · rw [hm] at h
          cases h
        · rw [hm] at h
          dsimp only at h
          injection h with h₁
          subst h₁
          rw [List.cons_append]
          rcases hqr : q' ++ r with _ | ⟨a, b⟩
          · exact absurd (List.append_eq_nil.1 hqr).2 hr
          · rw [lookupSegs_cons2, lookupSegs_cons2, lookupName_setAtName_self,
              hl, ← hqr]
            exact mkdirAllSegs_lookup_ext q' cs₂ c₂' r hr hm

theorem isEmpty_false_of_ne (l : List (GoStr × FNode)) (h : l ≠ []) :
    l.isEmpty = false := by
  cases l with
  | nil => exact absurd rfl h
  | cons a t => rfl

theorem insertSegs_self : ∀ (q : List GoStr) (cs cs' : List (GoStr × FNode))
    (x : FNode), insertSegs cs q x = some cs' → lookupSegs cs' q = some x
  | [], cs, cs', x, h => by cases h
  | [s], cs, cs', x, h => by
    rw [insertSegs_single] at h
    injection h with h₁
    subst h₁
    rw [lookupSegs_single]
    exact lookupName_setAtName_self cs s x
  | s :: r :: rs, cs, cs', x, h => by
    rw [insertSegs_cons2] at h
    rcases hl : lookupName cs s with _ | z
    · rw [hl] at h
      cases h
    · rcases z with c | t | cs₂
      · rw [hl] at h
        cases h
      · rw [hl] at h
        cases h
      · rw [hl] at h
        dsimp only at h
        rcases hi : insertSegs cs₂ (r :: rs) x with _ | c₂'
        · rw [hi] at h
          cases h
        · rw [hi] at h
          dsimp only at h
          injection h with h₁
          subst h₁
          rw [lookupSegs_cons2, lookupName_setAtName_self]
          exact insertSegs_self (r :: rs) cs₂ c₂' x hi

theorem insertSegs_frame : ∀ (q : List GoStr) (cs cs' : List (GoStr × FNode))
    (x : FNode), insertSegs cs q x = some cs' → lookupSegs cs q = none →
    isLeaf x = true →
    ∀ (r₀ : List GoStr) (y : FNode), isLeaf y = true → r₀ ≠ [] → r₀ ≠ q →
      (lookupSegs cs' r₀ = some y ↔ lookupSegs cs r₀ = some y)
  | [], cs, cs', x, h, _, _ => by cases h
  | [s], cs, cs', x, h, hn, hx => by
    rw [insertSegs_single] at h
    injection h with h₁
    subst h₁
    rw [lookupSegs_single] at hn
    intro r₀ y hy hr hne
    cases r₀ with
    | nil => exact absurd rfl hr
    | cons m r' =>
      by_cases hms : m = s
      · subst hms
        cases r' with
        | nil => exact absurd rfl hne
        | cons a b =>
          rw [lookupSegs_cons2, lookupSegs_cons2, lookupName_setAtName_self, hn]
          rcases x with c | t | d
          · exact Iff.rfl
          · exact Iff.rfl
          · cases hx
      · cases r' with
        | nil =>
          rw [lookupSegs_single, lookupSegs_single,
            lookupName_setAtName_ne cs s m x hms]
        | cons a b =>
          rw [lookupSegs_cons2, lookupSegs_cons2,
            lookupName_setAtName_ne cs s m x hms]
  | s :: r :: rs, cs, cs', x, h, hn, hx => by
    rw [insertSegs_cons2] at h
    rcases hl : lookupName cs s with _ | z
    · rw [hl] at h
      cases h
    · rcases z with c | t | cs₂
      · rw [hl] at h
        cases h
      · rw [hl] at h
        cases h
      · rw [hl] at h
        dsimp only at h
        rcases hi : insertSegs cs₂ (r :: rs) x with _ | c₂'
        · rw [hi] at h
          cases h
        · rw [hi] at h
          dsimp only at h
          injection h with h₁
          subst h₁
          have hn₂ : lookupSegs cs₂ (r :: rs) = none := by
            rw [lookupSegs_cons2, hl] at hn
            exact hn
          intro r₀ y hy hr hne
          cases r₀ with
          | nil => exact absurd rfl hr
          | cons m r' =>
            by_cases hms : m = s
            · subst hms
              cases r' with
              | nil =>
                rw [lookupSegs_single, lookupSegs_single,
                  lookupName_setAtName_self, hl]
                constructor
                · intro hcon
                  injection hcon with hcon₁
                  rw [← hcon₁] at hy
                  cases hy
                · intro hcon
                  injection hcon with hcon₁
                  rw [← hcon₁] at hy
                  cases hy
              | cons a b =>
                rw [lookupSegs_cons2, lookupSegs_cons2,
                  lookupName_setAtName_self, hl]
                dsimp only
                by_cases hab : (a :: b : List GoStr) = r :: rs
                · exact absurd (by rw [hab]) hne
                · exact insertSegs_frame (r :: rs) cs₂ c₂' x hi hn₂ hx
                    (a :: b) y hy (by simp) hab
            · cases r' with
              | nil =>
                rw [lookupSegs_single, lookupSegs_single,
                  lookupName_setAtName_ne cs s m _ hms]
              | cons a b =>
                rw [lookupSegs_cons2, lookupSegs_cons2,
                  lookupName_setAtName_ne cs s m _ hms]

theorem insertSegs_dropEq : ∀ (q : List GoStr) (cs cs' : List (GoStr × FNode))
    (x : FNode) (S : List (List GoStr)) (pre : List GoStr),
    insertSegs cs q x = some cs' → lookupSegs cs q = none → isLeaf x = true →
    pre ++ q ∈ S → dropLeavesC S pre cs' = dropLeavesC S pre cs
  | [], cs, cs', x, S, pre, h, _, _, _ => by cases h
  | [s], cs, cs', x, S, pre, h, hn, hx, hmem => by
    rw [insertSegs_single] at h
    injection h with h₁
    subst h₁
    rw [lookupSegs_single] at hn
    rw [setAtName_of_not_mem cs s x hn, dropLeavesC_append]
    rcases x with c | t | d
    · rw [dropLeavesC_cons, dropLeavesN_file, if_pos hmem]
      dsimp only
      rw [show dropLeavesC S pre ([] : List (GoStr × FNode)) = [] from rfl,
        List.append_nil]
    · rw [dropLeavesC_cons, dropLeavesN_symlink, if_pos hmem]
      dsimp only
      rw [show dropLeavesC S pre ([] : List (GoStr × FNode)) = [] from rfl,
        List.append_nil]
    · cases hx
  | s :: r :: rs, cs, cs', x, S, pre, h, hn, hx, hmem => by
    rw [insertSegs_cons2] at h
    rcases hl : lookupName cs s with _ | z
    · rw [hl] at h
      cases h
    · rcases z with c | t | cs₂
      · rw [hl] at h
        cases h
      · rw [hl] at h
        cases h
      · rw [hl] at h
        dsimp only at h
        rcases hi : insertSegs cs₂ (r :: rs) x with _ | c₂'
        · rw [hi] at h
          cases h
        · rw [hi] at h
          dsimp only at h
          injection h with h₁
          subst h₁
          have hn₂ : lookupSegs cs₂ (r :: rs) = none := by
            rw [lookupSegs_cons2, hl] at hn
            exact hn
          have hmem₂ : (pre ++ [s]) ++ (r :: rs) ∈ S := by
            rw [show pre ++ [s] ++ (r :: rs) = pre ++ (s :: r :: rs) by simp]
            exact hmem
          exact dropLeavesC_setAtName_dir S pre s cs₂ c₂' cs hl
            (insertSegs_dropEq (r :: rs) cs₂ c₂' x S (pre ++ [s]) hi hn₂ hx hmem₂)

theorem chain_insert : ∀ (q : List GoStr) (m : GoStr)
    (c c₂ : List (GoStr × FNode)) (x : FNode),
    mkdirAllSegs [] q = some c → insertSegs c (q ++ [m]) x = some c₂ →
    isLeaf x = true → noEmptyC c₂ = true ∧ c₂ ≠ []
  | [], m, c, c₂, x, hm, hins, hx => by
    injection hm with h₁
    subst h₁
    rw [List.nil_append, insertSegs_single] at hins
    injection hins with h₂
    subst h₂
    rw [setAtName_nil]
    refine ⟨?_, by simp⟩
    unfold noEmptyC
    rw [Bool.and_eq_true]
    refine ⟨?_, rfl⟩
    rcases x with c | t | d
    · rfl
    · rfl
    · cases hx
  | s :: q', m, c, c₂, x, hm, hins, hx => by
    rw [mkdirAllSegs_cons,
      show lookupName ([] : List (GoStr × FNode)) s = none from rfl] at hm
    dsimp only at hm
    rcases hmc : mkdirAllSegs [] q' with _ | c'
    · rw [hmc] at hm
      cases hm
    · rw [hmc] at hm
      dsimp only at hm
      injection hm with h₁
      rw [setAtName_nil] at h₁
      subst h₁
      rcases hql : q' ++ [m] with _ | ⟨a, b⟩
      · exact absurd (List.append_eq_nil.1 hql).2 (by simp)
      · rw [List.cons_append, hql, insertSegs_cons2, lookupName_cons,
          if_pos rfl] at hins
        dsimp only at hins
        rcases hi : insertSegs c' (a :: b) x with _ | c₂''
        · rw [hi] at hins
          cases hins
        · rw [hi] at hins
          dsimp only at hins
          injection hins with h₂
          subst h₂
          rw [setAtName_cons, if_pos rfl]
          have hrec := chain_insert q' m c' c₂'' x hmc (by rw [hql]; exact hi) hx
          refine ⟨?_, by simp⟩
          unfold noEmptyC
          rw [Bool.and_eq_true]
          refine ⟨?_, rfl⟩
          unfold noEmptyN
          rw [Bool.and_eq_true]
          refine ⟨?_, hrec.1⟩
          rw [Bool.not_eq_true']
          exact isEmpty_false_of_ne c₂'' hrec.2

theorem noEmptyC_mkdir_insert : ∀ (qpar : List GoStr) (m : GoStr)
    (cs cs₁ cs₂ : List (GoStr × FNode)) (x : FNode),
    noEmptyC cs = true → isLeaf x = true →
    mkdirAllSegs cs qpar = some cs₁ →
    insertSegs cs₁ (qpar ++ [m]) x = some cs₂ →
    noEmptyC cs₂ = true ∧ cs₂ ≠ []
  | [], m, cs, cs₁, cs₂, x, hne, hx, hmk, hins => by
    injection hmk with h₁
    subst h₁
    rw [List.nil_append, insertSegs_single] at hins
    injection hins with h₂
    subst h₂
    refine ⟨?_, setAtName_ne_nil cs m x⟩
    apply noEmptyC_setAtName cs m x hne
    rcases x with c | t | d
    · rfl
    · rfl
    · cases hx
  | s :: q', m, cs, cs₁, cs₂, x, hne, hx, hmk, hins => by
    rw [mkdirAllSegs_cons] at hmk
    rcases hl : lookupName cs s with _ | z
    · rw [hl] at hmk
      dsimp only at hmk
      rcases hmc : mkdirAllSegs [] q' with _ | c'
      · rw [hmc] at hmk
        cases hmk
      · rw [hmc] at hmk
        dsimp only at hmk
        injection hmk with h₁
        subst h₁
        rw [setAtName_of_not_mem cs s _ hl] at hins
        rcases hql : q' ++ [m] with _ | ⟨a, b⟩
        · exact absurd (List.append_eq_nil.1 hql).2 (by simp)
        · rw [List.cons_append, hql, insertSegs_cons2,
            lookupName_append_of_none cs _ s hl, lookupName_cons,
            if_pos rfl] at hins
          dsimp only at hins
          rcases hi : insertSegs c' (a :: b) x with _ | c₂'
          · rw [hi] at hins
            cases hins
          · rw [hi] at hins
            dsimp only at hins
            injection hins with h₂
            subst h₂
            rw [setAtName_append_of_none cs s _ _ hl]
            have hch := chain_insert q' m c' c₂' x hmc (by rw [hql]; exact hi) hx
            refine ⟨?_, by simp⟩
            apply noEmptyC_append cs _ hne
            unfold noEmptyC
            rw [Bool.and_eq_true]
            refine ⟨?_, rfl⟩
            unfold noEmptyN
            rw [Bool.and_eq_true]
            refine ⟨?_, hch.1⟩
            rw [Bool.not_eq_true']
            exact isEmpty_false_of_ne c₂' hch.2
    · rcases z with c | t | cs₂₀
      · rw [hl] at hmk
        cases hmk
      · rw [hl] at hmk
        cases hmk
      · rw [hl] at hmk
        dsimp only at hmk
        rcases hmc : mkdirAllSegs cs₂₀ q' with _ | c₁'
        · rw [hmc] at hmk
          cases hmk
        · rw [hmc] at hmk
          dsimp only at hmk
          injection hmk with h₁
          subst h₁
          rcases hql : q' ++ [m] with _ | ⟨a, b⟩
          · exact absurd (List.append_eq_nil.1 hql).2 (by simp)
          · rw [List.cons_append, hql, insertSegs_cons2,
              lookupName_setAtName_self] at hins
            dsimp only at hins
            rcases hi : insertSegs c₁' (a :: b) x with _ | c₂'
            · rw [hi] at hins
              cases hins
            · rw [hi] at hins
              dsimp only at hins
              injection hins with h₂
              subst h₂
              rw [setAtName_setAtName]
              have hnecs₂₀ : noEmptyC cs₂₀ = true := by
                have hz := noEmptyC_lookupName cs s _ hne hl
                unfold noEmptyN at hz
                rw [Bool.and_eq_true] at hz
                exact hz.2
              have hrec := noEmptyC_mkdir_insert q' m cs₂₀ c₁' c₂' x hnecs₂₀
                hx hmc (by rw [hql]; exact hi)
              refine ⟨?_, setAtName_ne_nil cs s _⟩
              apply noEmptyC_setAtName cs s _ hne
              unfold noEmptyN
              rw [Bool.and_eq_true]
              refine ⟨?_, hrec.1⟩
              rw [Bool.not_eq_true']
              exact isEmpty_false_of_ne c₂' hrec.2

theorem delAtName_eq_dropLeaves (pre : List GoStr) (s : GoStr) (y : FNode)
    (cs : List (GoStr × FNode)) (hw : wfC cs = true)
    (hl : lookupName cs s = some y) (hy : isLeaf y = true) :
    dropLeavesC [pre ++ [s]] pre cs = delAtName cs s := by
  induction cs with
  | nil => cases hl
  | cons hd rest ih =>
    obtain ⟨k, z⟩ := hd
    obtain ⟨h1, h2, h3⟩ := wfC_cons k z rest hw
    rw [lookupName_cons] at hl
    unfold delAtName
    by_cases hk : k = s
    · subst hk
      rw [if_pos rfl] at hl ⊢
      injection hl with hl₁
      subst hl₁
      rw [dropLeavesC_cons]
      rcases z with c | t | d
      · rw [dropLeavesN_file, if_pos (List.mem_singleton.mpr rfl)]
        dsimp only
        exact dropLeavesC_id _ pre rest h3 (fun t y' hy' hl' hmem => by
          rw [List.mem_singleton] at hmem
          have ht := List.append_cancel_left hmem
          subst ht
          rw [lookupSegs_single, (lookupName_eq_none_iff rest k).mpr h1] at hl'
          cases hl')
      · rw [dropLeavesN_symlink, if_pos (List.mem_singleton.mpr rfl)]
        dsimp only
        exact dropLeavesC_id _ pre rest h3 (fun t y' hy' hl' hmem => by
          rw [List.mem_singleton] at hmem
          have ht := List.append_cancel_left hmem
          subst ht
          rw [lookupSegs_single, (lookupName_eq_none_iff rest k).mpr h1] at hl'
          cases hl')
      · cases hy
    · rw [if_neg hk] at hl ⊢
      rw [dropLeavesC_cons]
      rcases z with c | t | d
      · rw [dropLeavesN_file, if_neg (fun hmem => by
          rw [List.mem_singleton] at hmem
          have h₅ := List.append_cancel_left hmem
          injection h₅ with h₆
          exact hk h₆)]
        dsimp only
        rw [ih h3 hl]
      · rw [dropLeavesN_symlink, if_neg (fun hmem => by
          rw [List.mem_singleton] at hmem
          have h₅ := List.append_cancel_left hmem
          injection h₅ with h₆
          exact hk h₆)]
        dsimp only
        rw [ih h3 hl]
      · rw [dropLeavesN_dir]
        dsimp only
        rw [ih h3 hl, dropLeavesC_id _ (pre ++ [k]) d h2
          (fun t y' hy' hl' hmem => by
            rw [List.mem_singleton] at hmem
            rw [show pre ++ [k] ++ t = pre ++ (k :: t) by simp] at hmem
            have h₅ := List.append_cancel_left hmem
            injection h₅ with h₆
            exact hk h₆)]

theorem dropLeaves_update_at_dir (pre : List GoStr) (s : GoStr)
    (tail : List GoStr) (htail : tail ≠ []) (cs cs₂ : List (GoStr × FNode))
    (hw : wfC cs = true) (hl : lookupName cs s = some (.dir cs₂)) :
    dropLeavesC [pre ++ (s :: tail)] pre cs =
      setAtName cs s
        (.dir (dropLeavesC [pre ++ (s :: tail)] (pre ++ [s]) cs₂)) := by
  induction cs with
  | nil => cases hl
  | cons hd rest ih =>
    obtain ⟨k, z⟩ := hd
    obtain ⟨h1, h2, h3⟩ := wfC_cons k z rest hw
    rw [lookupName_cons] at hl
    rw [setAtName_cons]
    by_cases hk : k = s
    · subst hk
      rw [if_pos rfl] at hl ⊢
      injection hl with hl₁
      subst hl₁
      rw [dropLeavesC_cons, dropLeavesN_dir]
      dsimp only
      rw [dropLeavesC_id _ pre rest h3 (fun t y' hy' hl' hmem => by
        rw [List.mem_singleton] at hmem
        have ht := List.append_cancel_left hmem
        subst ht
        cases tail with
        | nil => exact absurd rfl htail
        | cons a b =>
          rw [lookupSegs_cons2, (lookupName_eq_none_iff rest k).mpr h1] at hl'
          cases hl')]
    · rw [if_neg hk] at hl ⊢
      rw [dropLeavesC_cons]
      rcases z with c | t₀ | d
      · rw [dropLeavesN_file, if_neg (fun hmem => by
          rw [List.mem_singleton] at hmem
          have h₅ := List.append_cancel_left hmem
          injection h₅ with h₆
          exact hk h₆)]
        dsimp only
        rw [ih h3 hl]
      · rw [dropLeavesN_symlink, if_neg (fun hmem => by
          rw [List.mem_singleton] at hmem
          have h₅ := List.append_cancel_left hmem
          injection h₅ with h₆
          exact hk h₆)]
        dsimp only
        rw [ih h3 hl]
      · rw [dropLeavesN_dir]
        dsimp only
        rw [ih h3 hl, dropLeavesC_id _ (pre ++ [k]) d h2
          (fun t y' hy' hl' hmem => by
            rw [List.mem_singleton] at hmem
            rw [show pre ++ [k] ++ t = pre ++ (k :: t) by simp] at hmem
            have h₅ := List.append_cancel_left hmem
            injection h₅ with h₆
            exact hk h₆)]

theorem removeSegs_leaf_eq : ∀ (q : List GoStr) (cs : List (GoStr × FNode))
    (y : FNode) (pre : List GoStr), wfC cs = true →
    lookupSegs cs q = some y → isLeaf y = true →
    removeSegs cs q = some (dropLeavesC [pre ++ q] pre cs)
  | [], cs, y, pre, hw, hl, hy => by
    rw [show lookupSegs cs [] = (none : Option FNode) from rfl] at hl
    cases hl
  | [s], cs, y, pre, hw, hl, hy => by
    rw [lookupSegs_single] at hl
    rw [removeSegs_single, hl]
    dsimp only
    rw [delAtName_eq_dropLeaves pre s y cs hw hl hy]
  | s :: r :: rs, cs, y, pre, hw, hl, hy => by
    rw [lookupSegs_cons2] at hl
    rcases hn : lookupName cs s with _ | z
    · rw [hn] at hl
      cases hl
    · rcases z with c | t | cs₂
      · rw [hn] at hl
        cases hl
      · rw [hn] at hl
        cases hl
      · rw [hn] at hl
        dsimp only at hl
        rw [removeSegs_cons2, hn]
        dsimp only
        rw [removeSegs_leaf_eq (r :: rs) cs₂ y (pre ++ [s])
          (wfC_lookupName cs s _ hw hn) hl hy]
        dsimp only
        rw [show (pre ++ [s]) ++ (r :: rs) = pre ++ (s :: r :: rs) by simp]
        rw [← dropLeaves_update_at_dir pre s (r :: rs) (by simp) cs cs₂ hw hn]

/-- The shape of every path the materializer creates: the overlay component
followed by non-trivial, slash-free segments. -/
def GoodTarget (p : GoStr) : Prop :=
  ∃ segs, segs ≠ [] ∧ (∀ s ∈ segs, GoodSeg s) ∧
    p = joinSlash (gs "overlay" :: segs)

theorem goodTarget_split (segs : List GoStr) (hne : segs ≠ [])
    (hgood : ∀ s ∈ segs, GoodSeg s) :
    splitSlash (joinSlash (gs "overlay" :: segs)) = gs "overlay" :: segs := by
  apply splitSlash_joinSlash _ (by simp)
  intro s hs
  rcases List.mem_cons.1 hs with h | h
  · subst h
    decide
  · exact (hgood s h).2

theorem goodTarget_relSegs (segs : List GoStr) (hne : segs ≠ [])
    (hgood : ∀ s ∈ segs, GoodSeg s) :
    relSegs (joinSlash (gs "overlay" :: segs)) = segs := by
  unfold relSegs
  rw [goodTarget_split segs hne hgood]
  rfl

theorem goodTarget_trim (segs : List GoStr) (hne : segs ≠ [])
    (hgood : ∀ s ∈ segs, GoodSeg s) :
    trimPre (gs "overlay/") (joinSlash (gs "overlay" :: segs)) =
      joinSlash segs := by
  have hform : joinSlash (gs "overlay" :: segs) =
      gs "overlay/" ++ joinSlash segs := by
    rw [joinSlash_cons_of_ne _ segs hne]
    rfl
  rw [hform]
  unfold trimPre
  rw [if_pos (isPrefixSeq_self_append _ _), List.drop_left]

theorem goodTarget_parent (segs : List GoStr) (hne : segs ≠ [])
    (hgood : ∀ s ∈ segs, GoodSeg s) :
    filepathDir (joinSlash (gs "overlay" :: segs)) =
      joinSlash (gs "overlay" :: segs.dropLast) := by
  have hform : (gs "overlay" :: segs) =
      (gs "overlay" :: segs.dropLast) ++ [segs.getLast hne] := by
    rw [List.cons_append, List.dropLast_append_getLast hne]
  rw [hform]
  apply filepathDir_concat
  · intro s hs
    rcases List.mem_cons.1 hs with h | h
    · subst h
      constructor
      · exact ⟨by decide, by decide, by decide⟩
      · decide
    · exact hgood s (List.dropLast_subset segs h)
  · simp
  · exact (hgood _ (List.getLast_mem hne)).2

theorem wfC_chain : ∀ (q : List GoStr) (c : List (GoStr × FNode)),
    mkdirAllSegs [] q = some c → wfC c = true
  | [], c, h => by
    injection h with h₁
    subst h₁
    rfl
  | s :: q', c, h => by
    rw [mkdirAllSegs_cons,
      show lookupName ([] : List (GoStr × FNode)) s = none from rfl] at h
    dsimp only at h
    rcases hm : mkdirAllSegs [] q' with _ | c'
    · rw [hm] at h
      cases h
    · rw [hm] at h
      dsimp only at h
      injection h with h₁
      rw [setAtName_nil] at h₁
      subst h₁
      unfold wfC
      rw [Bool.and_eq_true, Bool.and_eq_true]
      refine ⟨⟨by simp, ?_⟩, rfl⟩
      exact wfC_chain q' c' hm

theorem wfC_mkdirAllSegs : ∀ (q : List GoStr) (cs cs' : List (GoStr × FNode)),
    mkdirAllSegs cs q = some cs' → wfC cs = true → wfC cs' = true
  | [], cs, cs', h, hw => by
    injection h with h₁
    subst h₁
    exact hw
  | s :: q', cs, cs', h, hw => by
    rw [mkdirAllSegs_cons] at h
    rcases hl : lookupName cs s with _ | z
    · rw [hl] at h
      dsimp only at h
      rcases hm : mkdirAllSegs [] q' with _ | c'
      · rw [hm] at h
        cases h
      · rw [hm] at h
        dsimp only at h
        injection h with h₁
        subst h₁
        exact wfC_setAtName cs s _ hw (wfC_chain q' c' hm)
    · rcases z with c | t | cs₂
      · rw [hl] at h
        cases h
      · rw [hl] at h
        cases h
      · rw [hl] at h
        dsimp only at h
        rcases hm : mkdirAllSegs cs₂ q' with _ | c₂'
        · rw [hm] at h
          cases h
        · rw [hm] at h
          dsimp only at h
          injection h with h₁
          subst h₁
          exact wfC_setAtName cs s _ hw
            (wfC_mkdirAllSegs q' cs₂ c₂' hm (wfC_lookupName cs s _ hw hl))

theorem wfC_insertSegs : ∀ (q : List GoStr) (cs cs' : List (GoStr × FNode))
    (x : FNode), insertSegs cs q x = some cs' → wfC cs = true →
    wfN x = true → wfC cs' = true
  | [], cs, cs', x, h, _, _ => by cases h
  | [s], cs, cs', x, h, hw, hx => by
    rw [insertSegs_single] at h
    injection h with h₁
    subst h₁
    exact wfC_setAtName cs s x hw hx
  | s :: r :: rs, cs, cs', x, h, hw, hx => by
    rw [insertSegs_cons2] at h
    rcases hl : lookupName cs s with _ | z
    · rw [hl] at h
      cases h
    · rcases z with c | t | cs₂
      · rw [hl] at h
        cases h
      · rw [hl] at h
        cases h
      · rw [hl] at h
        dsimp only at h
        rcases hi : insertSegs cs₂ (r :: rs) x with _ | c₂'
        · rw [hi] at h
          cases h
        · rw [hi] at h
          dsimp only at h
          injection h with h₁
          subst h₁
          exact wfC_setAtName cs s _ hw
            (wfC_insertSegs (r :: rs) cs₂ c₂' x hi
              (wfC_lookupName cs s _ hw hl) hx)

theorem lookupSegs_root_overlay (root : List (GoStr × FNode))
    (ovA : List (GoStr × FNode)) (segs : List GoStr)
    (hov : lookupName root (gs "overlay") = some (.dir ovA))
    (hne : segs ≠ []) :
    lookupSegs root (gs "overlay" :: segs) = lookupSegs ovA segs := by
  cases segs with
  | nil => exact absurd rfl hne
  | cons a b =>
    rw [lookupSegs_cons2, hov]

theorem statW_overlay_none (w : World) (ovA : List (GoStr × FNode))
    (segs : List GoStr)
    (hov : lookupName w.root (gs "overlay") = some (.dir ovA))
    (hne : segs ≠ []) (hgood : ∀ s ∈ segs, GoodSeg s)
    (hlk : lookupSegs ovA segs = none) :
    statW w (joinSlash (gs "overlay" :: segs)) = none := by
  show statSegs w.root 40 (joinSlash (gs "overlay" :: segs)) = none
  rw [show (40 : Nat) = 39 + 1 from rfl, statSegs_succ,
    goodTarget_split segs hne hgood,
    lookupSegs_root_overlay w.root ovA segs hov hne, hlk]

theorem statW_overlay_dir (w : World) (ovA d : List (GoStr × FNode))
    (segs : List GoStr)
    (hov : lookupName w.root (gs "overlay") = some (.dir ovA))
    (hne : segs ≠ []) (hgood : ∀ s ∈ segs, GoodSeg s)
    (hlk : lookupSegs ovA segs = some (.dir d)) :
    statW w (joinSlash (gs "overlay" :: segs)) = some (.dir d) := by
  show statSegs w.root 40 (joinSlash (gs "overlay" :: segs)) = some (.dir d)
  rw [show (40 : Nat) = 39 + 1 from rfl, statSegs_succ,
    goodTarget_split segs hne hgood,
    lookupSegs_root_overlay w.root ovA segs hov hne, hlk]

theorem osMkdirAll_overlay (w : World) (segs' : List GoStr)
    (ovA : List (GoStr × FNode)) (w₁ : World)
    (hov : lookupName w.root (gs "overlay") = some (.dir ovA))
    (hgood : ∀ s ∈ segs', GoodSeg s)
    (h : osMkdirAll w (joinSlash (gs "overlay" :: segs')) = some w₁) :
    ∃ ovA₁, mkdirAllSegs ovA segs' = some ovA₁ ∧
      lookupName w₁.root (gs "overlay") = some (.dir ovA₁) ∧
      w₁.savedState = w.savedState ∧ w₁.locked = w.locked := by
  unfold osMkdirAll at h
  rw [if_neg (joinSlash_good_ne_dot _ (fun s hs => by
    rcases List.mem_cons.1 hs with h₀ | h₀
    · subst h₀
      exact ⟨⟨by decide, by decide, by decide⟩, by decide⟩
    · exact hgood s h₀) (by simp))] at h
  by_cases hne : segs' = []
  · subst hne
    rw [show splitSlash (joinSlash [gs "overlay"]) = [gs "overlay"] from by
      decide] at h
    rw [show mkdirAllSegs w.root [gs "overlay"] =
      match lookupName w.root (gs "overlay") with
      | some (.dir cs₂) =>
        match mkdirAllSegs cs₂ [] with
        | some cs₂' => some (setAtName w.root (gs "overlay") (.dir cs₂'))
        | none => none
      | some _ => none
      | none =>
        match mkdirAllSegs [] [] with
        | some cs₂' => some (setAtName w.root (gs "overlay") (.dir cs₂'))
        | none => none from rfl, hov] at h
    dsimp only at h
    rw [Option.map_eq_some'] at h
    obtain ⟨r, hr, hw₁⟩ := h
    injection hr with hr₁
    refine ⟨ovA, rfl, ?_, ?_, ?_⟩
    · rw [← hw₁]
      dsimp only
      rw [← hr₁]
      exact lookupName_setAtName_self _ _ _
    · rw [← hw₁]
    · rw [← hw₁]
  · rw [goodTarget_split segs' hne hgood, mkdirAllSegs_cons, hov] at h
    dsimp only at h
    rcases hm : mkdirAllSegs ovA segs' with _ | ovA₁
    · rw [hm] at h
      cases h
    · rw [hm] at h
      dsimp only at h
      rw [Option.map_eq_some'] at h
      obtain ⟨r, hr, hw₁⟩ := h
      injection hr with hr₁
      refine ⟨ovA₁, rfl, ?_, ?_, ?_⟩
      · rw [← hw₁]
        dsimp only
        rw [← hr₁]
        exact lookupName_setAtName_self _ _ _
      · rw [← hw₁]
      · rw [← hw₁]

theorem insert_root_overlay (root : List (GoStr × FNode))
    (ovA : List (GoStr × FNode)) (segs : List GoStr) (x : FNode)
    (r : List (GoStr × FNode))
    (hov : lookupName root (gs "overlay") = some (.dir ovA))
    (hne : segs ≠ [])
    (h : insertSegs root (gs "overlay" :: segs) x = some r) :
    ∃ ovA₁, insertSegs ovA segs x = some ovA₁ ∧
      r = setAtName root (gs "overlay") (.dir ovA₁) := by
  cases segs with
  | nil => exact absurd rfl hne
  | cons a b =>
    rw [insertSegs_cons2, hov] at h
    dsimp only at h
    rcases hi : insertSegs ovA (a :: b) x with _ | ovA₁
    · rw [hi] at h
      cases h
    · rw [hi] at h
      dsimp only at h
      injection h with h₁
      exact ⟨ovA₁, rfl, h₁.symm⟩

theorem resolveCreatePath_succ (root : List (GoStr × FNode)) (fuel : Nat)
    (p : GoStr) :
    resolveCreatePath root (fuel + 1) p =
      match lookupSegs root (splitSlash p) with
      | some (.symlink target) =>
        resolveCreatePath root fuel (filepathJoin (filepathDir p) target)
      | _ => some p := rfl

theorem createLinkCore_success (w₁ : World) (st : State) (created : List GoStr)
    (src dst lm : GoStr) (w' : World) (st' : State) (created' : List GoStr)
    (hroot : lookupSegs w₁.root (splitSlash dst) = none)
    (h : createLinkCore w₁ st created src dst lm = ⟨w', st', created', none⟩) :
    created' = created ++ [dst] ∧
    (∃ md sr, st' = st.addManagedFile (trimPre (gs "overlay/") dst) md sr) ∧
    ∃ x r, isLeaf x = true ∧ insertSegs w₁.root (splitSlash dst) x = some r ∧
      w' = { w₁ with root := r } := by
  have hcopy : ∀ w₂, copyFileW w₁ src dst = some w₂ →
      ∃ x r, isLeaf x = true ∧ insertSegs w₁.root (splitSlash dst) x = some r ∧
        w₂ = { w₁ with root := r } := by
    intro w₂ hcp
    unfold copyFileW at hcp
    rcases hsrc : statW w₁ src with _ | z
    · rw [hsrc] at hcp
      cases hcp
    · rw [hsrc] at hcp
      rcases z with c | t | d
      · dsimp only at hcp
        rw [show (40 : Nat) = 39 + 1 from rfl, resolveCreatePath_succ,
          hroot] at hcp
        dsimp only at hcp
        rw [hroot] at hcp
        dsimp only at hcp
        rcases hins : insertSegs w₁.root (splitSlash dst) (.file c) with _ | r
        · rw [hins] at hcp
          cases hcp
        · rw [hins] at hcp
          simp only [Option.map_some'] at hcp
          injection hcp with h₁
          exact ⟨.file c, r, rfl, hins, h₁.symm⟩
      · cases hcp
      · cases hcp
  unfold createLinkCore at h
  dsimp only at h
  by_cases hgi : isSuffixSeq (gs ".gitignore") dst = true
  · rw [if_pos hgi] at h
    rcases hcp : copyFileW w₁ src dst with _ | w₂
    · rw [hcp] at h
      simp only [CLRes.mk.injEq] at h
      obtain ⟨-, -, -, hcon⟩ := h
      cases hcon
    · rw [hcp] at h
      dsimp only at h
      simp only [CLRes.mk.injEq] at h
      obtain ⟨hw, hst, hcr, -⟩ := h
      refine ⟨hcr.symm, ⟨_, _, hst.symm⟩, ?_⟩
      obtain ⟨x, r, hx, hins, hw₂⟩ := hcopy w₂ hcp
      exact ⟨x, r, hx, hins, hw ▸ hw₂⟩
  · rw [if_neg hgi] at h
    by_cases hsym : lm = gs "symlink"
    · rw [if_pos hsym] at h
      rcases hrel : filepathRel (filepathDir dst) src with _ | rel
      · rw [hrel] at h
        simp only [CLRes.mk.injEq] at h
        obtain ⟨-, -, -, hcon⟩ := h
        cases hcon
      · rw [hrel] at h
        dsimp only at h
        rcases hos : osSymlink w₁ rel dst with _ | w₂
        · rw [hos] at h
          simp only [CLRes.mk.injEq] at h
          obtain ⟨-, -, -, hcon⟩ := h
          cases hcon
        · rw [hos] at h
          dsimp only at h
          simp only [CLRes.mk.injEq] at h
          obtain ⟨hw, hst, hcr, -⟩ := h
          refine ⟨hcr.symm, ⟨_, _, hst.symm⟩, ?_⟩
          unfold osSymlink at hos
          rw [hroot] at hos
          rcases hins : insertSegs w₁.root (splitSlash dst) (.symlink rel)
            with _ | r
          · rw [hins] at hos
            cases hos
          · rw [hins] at hos
            dsimp only at hos
            injection hos with h₁
            exact ⟨.symlink rel, r, rfl, hins, hw ▸ h₁.symm⟩
    · rw [if_neg hsym] at h
      by_cases hhard : lm = gs "hardlink"
      · rw [if_pos hhard] at h
        rcases hos : osLink w₁ src dst with _ | w₂
        · rw [hos] at h
          simp only [CLRes.mk.injEq] at h
          obtain ⟨-, -, -, hcon⟩ := h
          cases hcon
        · rw [hos] at h
          dsimp only at h
          simp only [CLRes.mk.injEq] at h
          obtain ⟨hw, hst, hcr, -⟩ := h
          refine ⟨hcr.symm, ⟨_, _, hst.symm⟩, ?_⟩
          unfold osLink at hos
          rcases hsrc : statW w₁ src with _ | z
          · rw [hsrc] at hos
            cases hos
          · rw [hsrc] at hos
            rcases z with c | t | d
            · dsimp only at hos
              rw [hroot] at hos
              rcases hins : insertSegs w₁.root (splitSlash dst) (.file c)
                with _ | r
              · rw [hins] at hos
                cases hos
              · rw [hins] at hos
                dsimp only at hos
                injection hos with h₁
                exact ⟨.file c, r, rfl, hins, hw ▸ h₁.symm⟩
            · cases hos
            · cases hos
      · rw [if_neg hhard] at h
        by_cases hcpm : lm = gs "copy"
        · rw [if_pos hcpm] at h
          rcases hcp : copyFileW w₁ src dst with _ | w₂
          · rw [hcp] at h
            simp only [CLRes.mk.injEq] at h
            obtain ⟨-, -, -, hcon⟩ := h
            cases hcon
          · rw [hcp] at h
            dsimp only at h
            simp only [CLRes.mk.injEq] at h
            obtain ⟨hw, hst, hcr, -⟩ := h
            refine ⟨hcr.symm, ⟨_, _, hst.symm⟩, ?_⟩
            obtain ⟨x, r, hx, hins, hw₂⟩ := hcopy w₂ hcp
            exact ⟨x, r, hx, hins, hw ▸ hw₂⟩
        · rw [if_neg hcpm] at h
          simp only [CLRes.mk.injEq] at h
          obtain ⟨-, -, -, hcon⟩ := h
          cases hcon

/-- The invariant carried through the materialize walk: the overlay listing
is well-formed with no empty directory, removing the created leaves and
pruning recovers the initial overlay listing, every created target is a
present leaf, every leaf is initial or created, and the Registry paths are
exactly the created targets relative to the overlay. -/
def MatInv (cs0 : List (GoStr × FNode)) (w : World) (st : State)
    (created : List GoStr) : Prop :=
  w.locked = [] ∧
  ∃ ovA, lookupName w.root (gs "overlay") = some (.dir ovA) ∧
    wfC ovA = true ∧ noEmptyC ovA = true ∧
    pruneFC (dropLeavesC (created.map relSegs) [] ovA) = cs0 ∧
    (∀ p ∈ created, ∃ y, isLeaf y = true ∧
      lookupSegs ovA (relSegs p) = some y) ∧
    (∀ r y, isLeaf y = true → lookupSegs ovA r = some y →
      lookupSegs cs0 r = some y ∨ joinSlash (gs "overlay" :: r) ∈ created) ∧
    st.managedFiles.map (fun f => f.path) =
      created.map (fun p => trimPre (gs "overlay/") p)

theorem createLink_step (cs0 : List (GoStr × FNode)) (w : World) (st : State)
    (created : List GoStr) (src lm : GoStr) (segs : List GoStr)
    (hne : segs ≠ []) (hgood : ∀ s ∈ segs, GoodSeg s)
    (hfresh : lookupSegs cs0 segs = none)
    (hnotin : joinSlash (gs "overlay" :: segs) ∉ created)
    (hgf : ∀ p ∈ created, GoodTarget p)
    (hinv : MatInv cs0 w st created)
    (w' : World) (st' : State) (created' : List GoStr)
    (hsucc : createLink w st created src (joinSlash (gs "overlay" :: segs))
      lm true = ⟨w', st', created', none⟩) :
    created' = created ++ [joinSlash (gs "overlay" :: segs)] ∧
    MatInv cs0 w' st' created' := by
  obtain ⟨hlock, ovA, hov, hwf, hneC, hJ1, hJ4, hJ7, hJ5⟩ := hinv
  unfold createLink at hsucc
  rcases hval : validatePath (gs "overlay")
      (trimPre (gs "overlay/") (joinSlash (gs "overlay" :: segs))) with e | u
  · rw [hval] at hsucc
    simp only [CLRes.mk.injEq] at hsucc
    obtain ⟨-, -, -, hcon⟩ := hsucc
    cases hcon
  · rw [hval] at hsucc
    cases u
    dsimp only at hsucc
    rcases hmk : osMkdirAll w
        (filepathDir (joinSlash (gs "overlay" :: segs))) with _ | w₁
    · rw [hmk] at hsucc
      simp only [CLRes.mk.injEq] at hsucc
      obtain ⟨-, -, -, hcon⟩ := hsucc
      cases hcon
    · rw [hmk] at hsucc
      dsimp only at hsucc
      rw [goodTarget_parent segs hne hgood] at hmk
      obtain ⟨ovA₁, hmk₁, hov₁, hss₁, hlk₁⟩ := osMkdirAll_overlay w
        segs.dropLast ovA w₁ hov
        (fun s hs => hgood s (List.dropLast_subset segs hs)) hmk
      have hwf₁ : wfC ovA₁ = true := wfC_mkdirAllSegs _ _ _ hmk₁ hwf
      have hsplit : segs.dropLast ++ [segs.getLast hne] = segs :=
        List.dropLast_append_getLast hne
      rcases hdd : lookupSegs ovA₁ segs with _ | x
      · -- no node at the target: the core runs and inserts a fresh leaf
        rw [statW_overlay_none w₁ ovA₁ segs hov₁ hne hgood hdd] at hsucc
        dsimp only at hsucc
        have hroot : lookupSegs w₁.root
            (splitSlash (joinSlash (gs "overlay" :: segs))) = none := by
          rw [goodTarget_split segs hne hgood,
            lookupSegs_root_overlay w₁.root ovA₁ segs hov₁ hne, hdd]
        obtain ⟨hcr, ⟨md, sr, hst⟩, x, r, hx, hins, hw'⟩ :=
          createLinkCore_success w₁ st created src _ lm w' st' created'
            hroot hsucc
        rw [goodTarget_split segs hne hgood] at hins
        obtain ⟨ovA₂, hins₂, hr⟩ := insert_root_overlay w₁.root ovA₁ segs x r
          hov₁ hne hins
        refine ⟨hcr, ?_, ovA₂, ?_, ?_, ?_, ?_, ?_, ?_, ?_⟩
        · rw [hw']
          dsimp only
          rw [hlk₁]
          exact hlock
        · rw [hw']
          dsimp only
          rw [hr]
          exact lookupName_setAtName_self _ _ _
        · exact wfC_insertSegs segs ovA₁ ovA₂ x hins₂ hwf₁ (by
            rcases x with c | t | d
            · rfl
            · rfl
            · cases hx)
        · have := noEmptyC_mkdir_insert segs.dropLast (segs.getLast hne)
            ovA ovA₁ ovA₂ x hneC hx hmk₁ (by rw [hsplit]; exact hins₂)
          exact this.1
        · -- the strip equation
          rw [hcr, List.map_append]
          rw [show [joinSlash (gs "overlay" :: segs)].map relSegs =
            [segs] from by
              simp only [List.map_cons, List.map_nil]
              rw [goodTarget_relSegs segs hne hgood]]
          rw [insertSegs_dropEq segs ovA₁ ovA₂ x (created.map relSegs ++ [segs])
            [] hins₂ hdd hx
            (List.mem_append_right _ (List.mem_singleton.mpr rfl))]
          rw [mkdirAllSegs_prune segs.dropLast ovA ovA₁ _ [] hmk₁]
          rw [← dropLeavesC_comp (created.map relSegs) [segs] [] ovA]
          rw [dropLeavesC_id [segs] [] (dropLeavesC (created.map relSegs) [] ovA)
            (wfC_dropLeavesC _ [] ovA hwf) (fun t y hy hl hmem => by
              rw [List.nil_append, List.mem_singleton] at hmem
              rw [hmem] at hl
              rw [lookupSegs_dropLeavesC (created.map relSegs) [] ovA segs
                hwf hne] at hl
              rcases hA : lookupSegs ovA segs with _ | z
              · rw [hA] at hl
                cases hl
              · rcases z with c | t₀ | d
                · rw [hA] at hl
                  dsimp only at hl
                  by_cases hin : ([] : List GoStr) ++ segs ∈ created.map relSegs
                  · rw [if_pos hin] at hl
                    cases hl
                  · rw [if_neg hin] at hl
                    rcases hJ7 segs (.file c) rfl hA with hc | hc
                    · rw [hfresh] at hc
                      cases hc
                    · apply hin
                      rw [List.nil_append]
                      have hmm := List.mem_map_of_mem relSegs hc
                      rw [goodTarget_relSegs segs hne hgood] at hmm
                      exact hmm
                · rw [hA] at hl
                  dsimp only at hl
                  by_cases hin : ([] : List GoStr) ++ segs ∈ created.map relSegs
                  · rw [if_pos hin] at hl
                    cases hl
                  · rw [if_neg hin] at hl
                    rcases hJ7 segs (.symlink t₀) rfl hA with hc | hc
                    · rw [hfresh] at hc
                      cases hc
                    · apply hin
                      rw [List.nil_append]
                      have hmm := List.mem_map_of_mem relSegs hc
                      rw [goodTarget_relSegs segs hne hgood] at hmm
                      exact hmm
                · rw [hA] at hl
                  dsimp only at hl
                  injection hl with hl₁
                  rw [← hl₁] at hy
                  cases hy)]
          exact hJ1
        · rw [hcr]
          intro p hp
          rcases List.mem_append.1 hp with hp₁ | hp₁
          · obtain ⟨y, hy, hlp⟩ := hJ4 p hp₁
            obtain ⟨segsP, hneP, hgoodP, hpP⟩ := hgf p hp₁
            have hrel : relSegs p = segsP := by
              rw [hpP, goodTarget_relSegs segsP hneP hgoodP]
            have hrne0 : relSegs p ≠ [] := by
              rw [hrel]
              exact hneP
            have hrne : relSegs p ≠ segs := by
              intro hcon
              apply hnotin
              rw [hrel] at hcon
              rw [← hcon, ← hpP]
              exact hp₁
            refine ⟨y, hy, ?_⟩
            have h₁ : lookupSegs ovA₁ (relSegs p) = some y :=
              (mkdirAllSegs_frame segs.dropLast ovA ovA₁ hmk₁ (relSegs p) y
                hy hrne0).2 hlp
            exact (insertSegs_frame segs ovA₁ ovA₂ x hins₂ hdd hx (relSegs p)
              y hy hrne0 hrne).2 h₁
          · rw [List.mem_singleton] at hp₁
            subst hp₁
            refine ⟨x, hx, ?_⟩
            rw [goodTarget_relSegs segs hne hgood]
            exact insertSegs_self segs ovA₁ ovA₂ x hins₂
        · rw [hcr]
          intro r y hy hl
          by_cases hr0 : r = []
          · subst hr0
            cases hl
          · by_cases hrs : r = segs
            · subst hrs
              exact Or.inr (List.mem_append_right _ (List.mem_singleton.mpr rfl))
            · have h₁ : lookupSegs ovA₁ r = some y :=
                (insertSegs_frame segs ovA₁ ovA₂ x hins₂ hdd hx r y hy
                  hr0 hrs).1 hl
              have h₂ : lookupSegs ovA r = some y :=
                (mkdirAllSegs_frame segs.dropLast ovA ovA₁ hmk₁ r y hy hr0).1 h₁
              rcases hJ7 r y hy h₂ with hc | hc
              · exact Or.inl hc
              · exact Or.inr (List.mem_append_left _ hc)
        · rw [hcr, hst]
          unfold State.addManagedFile
          dsimp only
          have hfil : st.managedFiles.filter
              (fun f => f.path ≠ trimPre (gs "overlay/")
                (joinSlash (gs "overlay" :: segs))) = st.managedFiles := by
            apply List.filter_eq_self.mpr
            intro f hf
            simp only [decide_eq_true_eq, ne_eq]
            intro hcon
            have hmem : f.path ∈
                created.map (fun p => trimPre (gs "overlay/") p) := by
              rw [← hJ5]
              exact List.mem_map_of_mem _ hf
            obtain ⟨p, hp, htp⟩ := List.mem_map.1 hmem
            obtain ⟨segsP, hneP, hgoodP, hpP⟩ := hgf p hp
            rw [hpP, goodTarget_trim segsP hneP hgoodP] at htp
            rw [goodTarget_trim segs hne hgood] at hcon
            have hseq : segsP = segs := joinSlash_good_inj hneP hne
              (fun s hs => (hgoodP s hs).2) (fun s hs => (hgood s hs).2)
              (htp.trans hcon)
            apply hnotin
            rw [← hseq, ← hpP]
            exact hp
          rw [hfil, List.map_append, List.map_append, hJ5]
          rfl
      · rcases x with c | t | d
        · have hpre : lookupSegs ovA segs = some (.file c) :=
            (mkdirAllSegs_frame segs.dropLast ovA ovA₁ hmk₁ segs (.file c)
              rfl hne).1 hdd
          rcases hJ7 segs (.file c) rfl hpre with hc | hc
          · rw [hfresh] at hc
            cases hc
          · exact absurd hc hnotin
        · have hpre : lookupSegs ovA segs = some (.symlink t) :=
            (mkdirAllSegs_frame segs.dropLast ovA ovA₁ hmk₁ segs (.symlink t)
              rfl hne).1 hdd
          rcases hJ7 segs (.symlink t) rfl hpre with hc | hc
          · rw [hfresh] at hc
            cases hc
          · exact absurd hc hnotin
        · have hpre : lookupSegs ovA segs = some (.dir d) := by
            rcases mkdirAllSegs_lookup_ext segs.dropLast ovA ovA₁
                [segs.getLast hne] (by simp) hmk₁ with hext | hext
            · rw [hsplit] at hext
              rw [← hext]
              exact hdd
            · rw [hsplit] at hext
              rw [hdd] at hext
              cases hext
          have hnd := noEmptyC_lookupSegs ovA segs (.dir d) hneC hpre
          unfold noEmptyN at hnd
          rw [Bool.and_eq_true, Bool.not_eq_true'] at hnd
          rw [statW_overlay_dir w₁ ovA₁ d segs hov₁ hne hgood hdd] at hsucc
          dsimp only at hsucc
          rw [if_pos rfl] at hsucc
          have hrm : osRemove w₁ (joinSlash (gs "overlay" :: segs)) = none := by
            unfold osRemove
            rw [goodTarget_split segs hne hgood,
              lookupSegs_root_overlay w₁.root ovA₁ segs hov₁ hne, hdd]
            dsimp only
            rw [if_neg (fun hcon => by
              rw [hnd.1] at hcon
              cases hcon.1)]
          rw [hrm] at hsucc
          dsimp only at hsucc
          simp only [CLRes.mk.injEq] at hsucc
          obtain ⟨-, -, -, hcon⟩ := hsucc
          cases hcon

theorem createLinkFiles_cons (fp tb lm : GoStr) (force : Bool) (acc : CLRes)
    (rsegs : List GoStr) (rest : List (List GoStr)) :
    createLinkFiles fp tb lm force acc (rsegs :: rest) =
      match acc.err with
      | some _ => acc
      | none =>
        createLinkFiles fp tb lm force
          (createLink acc.w acc.st acc.created
            (filepathJoin fp (joinSlash rsegs))
            (filepathJoin (filepathJoin (gs "overlay") tb) (joinSlash rsegs))
            lm force) rest := rfl

theorem createLinkFiles_err (fp tb lm : GoStr) (force : Bool)
    (L : List (List GoStr)) (acc : CLRes) (e : GoErr) (he : acc.err = some e) :
    createLinkFiles fp tb lm force acc L = acc := by
  cases L with
  | nil => rfl
  | cons rsegs rest =>
    rw [createLinkFiles_cons, he]

theorem createLinksLoop_cons (lm : GoStr) (force : Bool) (acc : CLRes)
    (spec : SymlinkSpec) (rest : List SymlinkSpec) :
    createLinksLoop lm force acc (spec :: rest) =
      match acc.err with
      | some _ => acc
      | none =>
        match statW acc.w (filepathJoin (gs ".upstream")
            (if spec.strVal ≠ [] then spec.strVal else spec.fromVal)) with
        | none => ⟨acc.w, acc.st, acc.created, some (.sourceNotFound
            (filepathJoin (gs ".upstream")
              (if spec.strVal ≠ [] then spec.strVal else spec.fromVal)))⟩
        | some (.dir cs) =>
          createLinksLoop lm force
            (createLinkFiles (filepathJoin (gs ".upstream")
                (if spec.strVal ≠ [] then spec.strVal else spec.fromVal))
              (if spec.strVal ≠ [] then spec.strVal else spec.toVal) lm force
              ⟨acc.w, acc.st, acc.created, none⟩ (walkFilesChildren cs)) rest
        | some _ =>
          createLinksLoop lm force
            (createLink acc.w acc.st acc.created
              (filepathJoin (gs ".upstream")
                (if spec.strVal ≠ [] then spec.strVal else spec.fromVal))
              (filepathJoin (gs "overlay")
                (if spec.strVal ≠ [] then spec.strVal else spec.toVal))
              lm force) rest := rfl

theorem createLinksLoop_err (lm : GoStr) (force : Bool)
    (specs : List SymlinkSpec) (acc : CLRes) (e : GoErr)
    (he : acc.err = some e) :
    createLinksLoop lm force acc specs = acc := by
  cases specs with
  | nil => rfl
  | cons spec rest =>
    rw [createLinksLoop_cons, he]

theorem createLinkCore_created_ext (w : World) (st : State)
    (created : List GoStr) (src dst m : GoStr) :
    ∃ d, (createLinkCore w st created src dst m).created = created ++ d := by
  unfold createLinkCore
  dsimp only
  repeat' split
  all_goals
    first
    | exact ⟨[dst], rfl⟩
    | exact ⟨[], (List.append_nil created).symm⟩

theorem createLink_created_ext (w : World) (st : State) (created : List GoStr)
    (src dst m : GoStr) (force : Bool) :
    ∃ d, (createLink w st created src dst m force).created = created ++ d := by
  unfold createLink
  repeat' split
  all_goals
    first
    | exact createLinkCore_created_ext _ _ _ _ _ _
    | exact ⟨[], (List.append_nil created).symm⟩

theorem createLinkFiles_created_ext (fp tb lm : GoStr) (force : Bool) :
    ∀ (L : List (List GoStr)) (acc : CLRes),
      ∃ d, (createLinkFiles fp tb lm force acc L).created = acc.created ++ d
  | [], acc => ⟨[], (List.append_nil _).symm⟩
  | rsegs :: rest, acc => by
    rcases he : acc.err with _ | e
    · rw [createLinkFiles_cons, he]
      dsimp only
      obtain ⟨d₁, h₁⟩ := createLink_created_ext acc.w acc.st acc.created
        (filepathJoin fp (joinSlash rsegs))
        (filepathJoin (filepathJoin (gs "overlay") tb) (joinSlash rsegs))
        lm force
      obtain ⟨d₂, h₂⟩ := createLinkFiles_created_ext fp tb lm force rest
        (createLink acc.w acc.st acc.created
          (filepathJoin fp (joinSlash rsegs))
          (filepathJoin (filepathJoin (gs "overlay") tb) (joinSlash rsegs))
          lm force)
      exact ⟨d₁ ++ d₂, by rw [h₂, h₁, List.append_assoc]⟩
    · rw [createLinkFiles_err fp tb lm force _ acc e he]
      exact ⟨[], (List.append_nil _).symm⟩

theorem createLinksLoop_created_ext (lm : GoStr) (force : Bool) :
    ∀ (specs : List SymlinkSpec) (acc : CLRes),
      ∃ d, (createLinksLoop lm force acc specs).created = acc.created ++ d
  | [], acc => ⟨[], (List.append_nil _).symm⟩
  | spec :: rest, acc => by
    rcases he : acc.err with _ | e
    · rw [createLinksLoop_cons, he]
      dsimp only
      rcases hsw : statW acc.w (filepathJoin (gs ".upstream")
          (if spec.strVal ≠ [] then spec.strVal else spec.fromVal)) with _ | f
      · exact ⟨[], (List.append_nil _).symm⟩
      · rcases f with c | t | cs
        · dsimp only
          obtain ⟨d₁, h₁⟩ := createLink_created_ext acc.w acc.st acc.created
            (filepathJoin (gs ".upstream")
              (if spec.strVal ≠ [] then spec.strVal else spec.fromVal))
            (filepathJoin (gs "overlay")
              (if spec.strVal ≠ [] then spec.strVal else spec.toVal)) lm force
          obtain ⟨d₂, h₂⟩ := createLinksLoop_created_ext lm force rest
            (createLink acc.w acc.st acc.created
              (filepathJoin (gs ".upstream")
                (if spec.strVal ≠ [] then spec.strVal else spec.fromVal))
              (filepathJoin (gs "overlay")
                (if spec.strVal ≠ [] then spec.strVal else spec.toVal))
              lm force)
          exact ⟨d₁ ++ d₂, by rw [h₂, h₁, List.append_assoc]⟩
        · dsimp only
          obtain ⟨d₁, h₁⟩ := createLink_created_ext acc.w acc.st acc.created
            (filepathJoin (gs ".upstream")
              (if spec.strVal ≠ [] then spec.strVal else spec.fromVal))
            (filepathJoin (gs "overlay")
              (if spec.strVal ≠ [] then spec.strVal else spec.toVal)) lm force
          obtain ⟨d₂, h₂⟩ := createLinksLoop_created_ext lm force rest
            (createLink acc.w acc.st acc.created
              (filepathJoin (gs ".upstream")
                (if spec.strVal ≠ [] then spec.strVal else spec.fromVal))
              (filepathJoin (gs "overlay")
                (if spec.strVal ≠ [] then spec.strVal else spec.toVal))
              lm force)
          exact ⟨d₁ ++ d₂, by rw [h₂, h₁, List.append_assoc]⟩
        · dsimp only
          obtain ⟨d₁, h₁⟩ := createLinkFiles_created_ext
            (filepathJoin (gs ".upstream")
              (if spec.strVal ≠ [] then spec.strVal else spec.fromVal))
            (if spec.strVal ≠ [] then spec.strVal else spec.toVal) lm force
            (walkFilesChildren cs) ⟨acc.w, acc.st, acc.created, none⟩
          obtain ⟨d₂, h₂⟩ := createLinksLoop_created_ext lm force rest
            (createLinkFiles (filepathJoin (gs ".upstream")
                (if spec.strVal ≠ [] then spec.strVal else spec.fromVal))
              (if spec.strVal ≠ [] then spec.strVal else spec.toVal) lm force
              ⟨acc.w, acc.st, acc.created, none⟩ (walkFilesChildren cs))
          exact ⟨d₁ ++ d₂, by rw [h₂, h₁, List.append_assoc]⟩
    · rw [createLinksLoop_err lm force _ acc e he]
      exact ⟨[], (List.append_nil _).symm⟩

theorem createLink_created (w : World) (st : State) (created : List GoStr)
    (src dst m : GoStr) (force : Bool) (w' : World) (st' : State)
    (created' : List GoStr)
    (h : createLink w st created src dst m force = ⟨w', st', created', none⟩) :
    created' = created ++ [dst] := by
  unfold createLink at h
  repeat' split at h
  all_goals
    first
    | (unfold createLinkCore at h
       dsimp only at h
       repeat' split at h
       all_goals
         simp only [CLRes.mk.injEq] at h
       all_goals
         first
         | (obtain ⟨-, -, h₃, -⟩ := h; exact h₃.symm)
         | (obtain ⟨-, -, -, hcon⟩ := h; cases hcon))
    | (simp only [CLRes.mk.injEq] at h; obtain ⟨-, -, -, hcon⟩ := h; cases hcon)

theorem createLink_stepG (cs0 : List (GoStr × FNode)) (w : World) (st : State)
    (created : List GoStr) (src dst lm : GoStr)
    (hgt : GoodTarget dst) (hfr : lookupSegs cs0 (relSegs dst) = none)
    (hni : dst ∉ created) (hgf : ∀ p ∈ created, GoodTarget p)
    (hinv : MatInv cs0 w st created) (w' : World) (st' : State)
    (created' : List GoStr)
    (hsucc : createLink w st created src dst lm true =
      ⟨w', st', created', none⟩) :
    created' = created ++ [dst] ∧ MatInv cs0 w' st' created' := by
  obtain ⟨segs, hne, hgood, hdst⟩ := hgt
  subst hdst
  rw [goodTarget_relSegs segs hne hgood] at hfr
  exact createLink_step cs0 w st created src lm segs hne hgood hfr hni hgf
    hinv w' st' created' hsucc

theorem goodTarget_joinBack (segs : List GoStr) (hne : segs ≠ [])
    (hgood : ∀ s ∈ segs, GoodSeg s) :
    filepathJoin (gs "overlay") (joinSlash segs) =
      joinSlash (gs "overlay" :: segs) := by
  have hb : joinSlash segs ≠ [] := by
    cases segs with
    | nil => exact absurd rfl hne
    | cons x t => exact joinSlash_ne_nil x t (hgood x (by simp)).1.1
  unfold filepathJoin
  rw [if_neg (fun h => hb h.2), if_neg (by decide), if_neg hb]
  rw [show (gs "overlay") ++ '/' :: joinSlash segs =
    joinSlash (gs "overlay" :: segs) from (joinSlash_cons_of_ne _ segs hne).symm]
  exact filepathClean_good (gs "overlay" :: segs) (fun s hs => by
    rcases List.mem_cons.1 hs with h | h
    · subst h
      exact ⟨⟨by decide, by decide, by decide⟩, by decide⟩
    · exact hgood s h) (by simp)

theorem goodTarget_trim_inj (p q : GoStr) (hp : GoodTarget p) (hq : GoodTarget q)
    (h : trimPre (gs "overlay/") p = trimPre (gs "overlay/") q) : p = q := by
  obtain ⟨a, ha, hga, hpa⟩ := hp
  obtain ⟨b, hb, hgb, hqb⟩ := hq
  rw [hpa, hqb, goodTarget_trim a ha hga, goodTarget_trim b hb hgb] at h
  rw [hpa, hqb, joinSlash_good_inj ha hb (fun s hs => (hga s hs).2)
    (fun s hs => (hgb s hs).2) h]

theorem remove_root_overlay (root ovA : List (GoStr × FNode))
    (segs : List GoStr)
    (hov : lookupName root (gs "overlay") = some (.dir ovA)) (hne : segs ≠ [])
    (r : List (GoStr × FNode)) (hr : removeSegs ovA segs = some r) :
    removeSegs root (gs "overlay" :: segs) =
      some (setAtName root (gs "overlay") (.dir r)) := by
  cases segs with
  | nil => exact absurd rfl hne
  | cons a b =>
    rw [removeSegs_cons2, hov]
    dsimp only
    rw [hr]

theorem createLinkFiles_inv (cs0 : List (GoStr × FNode)) (fp tb lm : GoStr) :
    ∀ (L : List (List GoStr)) (acc r : CLRes),
      createLinkFiles fp tb lm true acc L = r → r.err = none →
      acc.err = none → MatInv cs0 acc.w acc.st acc.created →
      (∀ p ∈ r.created, GoodTarget p ∧ lookupSegs cs0 (relSegs p) = none) →
      r.created.Nodup →
      MatInv cs0 r.w r.st r.created ∧ ∃ d, r.created = acc.created ++ d
  | [], acc, r, hL, hre, hae, hinv, hall, hnd => by
    rw [show createLinkFiles fp tb lm true acc [] = acc from rfl] at hL
    subst hL
    exact ⟨hinv, ⟨[], (List.append_nil _).symm⟩⟩
  | rsegs :: rest, acc, r, hL, hre, hae, hinv, hall, hnd => by
    rw [createLinkFiles_cons, hae] at hL
    dsimp only at hL
    rcases hcl : createLink acc.w acc.st acc.created
        (filepathJoin fp (joinSlash rsegs))
        (filepathJoin (filepathJoin (gs "overlay") tb) (joinSlash rsegs))
        lm true with ⟨w₁, st₁, created₁, err₁⟩
    rw [hcl] at hL
    rcases err₁ with _ | e
    · have hcr₁ : created₁ = acc.created ++
          [filepathJoin (filepathJoin (gs "overlay") tb) (joinSlash rsegs)] :=
        createLink_created _ _ _ _ _ _ _ _ _ _ hcl
      obtain ⟨d, hd⟩ := createLinkFiles_created_ext fp tb lm true rest
        ⟨w₁, st₁, created₁, none⟩
      rw [hL] at hd
      have hdst_mem : filepathJoin (filepathJoin (gs "overlay") tb)
          (joinSlash rsegs) ∈ r.created := by
        rw [hd]
        dsimp only
        rw [hcr₁]
        exact List.mem_append_left _
          (List.mem_append_right _ (List.mem_singleton.mpr rfl))
      obtain ⟨hgt, hfr⟩ := hall _ hdst_mem
      have hni : filepathJoin (filepathJoin (gs "overlay") tb)
          (joinSlash rsegs) ∉ acc.created := by
        intro hcon
        have hnd₁ : ((acc.created ++
            [filepathJoin (filepathJoin (gs "overlay") tb)
              (joinSlash rsegs)]) ++ d).Nodup := by
          have := hnd
          rw [hd] at this
          dsimp only at this
          rw [hcr₁] at this
          exact this
        have hnd₂ := hnd₁.of_append_left
        rw [List.nodup_append] at hnd₂
        exact hnd₂.2.2 hcon (List.mem_singleton.mpr rfl)
      have hsub : ∀ p ∈ acc.created, p ∈ r.created := by
        intro p hp
        rw [hd]
        dsimp only
        rw [hcr₁]
        exact List.mem_append_left _ (List.mem_append_left _ hp)
      obtain ⟨-, hinv₁⟩ := createLink_stepG cs0 acc.w acc.st acc.created
        (filepathJoin fp (joinSlash rsegs))
        (filepathJoin (filepathJoin (gs "overlay") tb) (joinSlash rsegs)) lm
        hgt hfr hni (fun p hp => (hall p (hsub p hp)).1) hinv
        w₁ st₁ created₁ hcl
      obtain ⟨hinvr, d₂, hd₂⟩ := createLinkFiles_inv cs0 fp tb lm rest
        ⟨w₁, st₁, created₁, none⟩ r hL hre rfl hinv₁ hall hnd
      refine ⟨hinvr, ⟨[filepathJoin (filepathJoin (gs "overlay") tb)
        (joinSlash rsegs)] ++ d₂, ?_⟩⟩
      rw [hd₂]
      dsimp only
      rw [hcr₁, List.append_assoc]
    · rw [createLinkFiles_err fp tb lm true rest _ e rfl] at hL
      subst hL
      cases hre

theorem createLinksLoop_inv (cs0 : List (GoStr × FNode)) (lm : GoStr) :
    ∀ (specs : List SymlinkSpec) (acc r : CLRes),
      createLinksLoop lm true acc specs = r → r.err = none →
      acc.err = none → MatInv cs0 acc.w acc.st acc.created →
      (∀ p ∈ r.created, GoodTarget p ∧ lookupSegs cs0 (relSegs p) = none) →
      r.created.Nodup →
      MatInv cs0 r.w r.st r.created ∧ ∃ d, r.created = acc.created ++ d
  | [], acc, r, hL, hre, hae, hinv, hall, hnd => by
    rw [show createLinksLoop lm true acc [] = acc from rfl] at hL
    subst hL
    exact ⟨hinv, ⟨[], (List.append_nil _).symm⟩⟩
  | spec :: rest, acc, r, hL, hre, hae, hinv, hall, hnd => by
    rw [createLinksLoop_cons, hae] at hL
    dsimp only at hL
    rcases hsw : statW acc.w (filepathJoin (gs ".upstream")
        (if spec.strVal ≠ [] then spec.strVal else spec.fromVal)) with _ | f
    · rw [hsw] at hL
      dsimp only at hL
      subst hL
      cases hre
    · rw [hsw] at hL
      rcases f with c | t | cs
      all_goals dsimp only at hL
      case file =>
        rcases hcl : createLink acc.w acc.st acc.created
            (filepathJoin (gs ".upstream")
              (if spec.strVal ≠ [] then spec.strVal else spec.fromVal))
            (filepathJoin (gs "overlay")
              (if spec.strVal ≠ [] then spec.strVal else spec.toVal))
            lm true with ⟨w₁, st₁, created₁, err₁⟩
        rw [hcl] at hL
        rcases err₁ with _ | e
        · have hcr₁ : created₁ = acc.created ++
              [filepathJoin (gs "overlay")
                (if spec.strVal ≠ [] then spec.strVal else spec.toVal)] :=
            createLink_created _ _ _ _ _ _ _ _ _ _ hcl
          obtain ⟨d, hd⟩ := createLinksLoop_created_ext lm true rest
            ⟨w₁, st₁, created₁, none⟩
          rw [hL] at hd
          have hdst_mem : filepathJoin (gs "overlay")
              (if spec.strVal ≠ [] then spec.strVal else spec.toVal) ∈
              r.created := by
            rw [hd]
            dsimp only
            rw [hcr₁]
            exact List.mem_append_left _
              (List.mem_append_right _ (List.mem_singleton.mpr rfl))
          obtain ⟨hgt, hfr⟩ := hall _ hdst_mem
          have hni : filepathJoin (gs "overlay")
              (if spec.strVal ≠ [] then spec.strVal else spec.toVal) ∉
              acc.created := by
            intro hcon
            have hnd₁ : ((acc.created ++
                [filepathJoin (gs "overlay")
                  (if spec.strVal ≠ [] then spec.strVal else spec.toVal)]) ++
                d).Nodup := by
              have := hnd
              rw [hd] at this
              dsimp only at this
              rw [hcr₁] at this
              exact this
            have hnd₂ := hnd₁.of_append_left
            rw [List.nodup_append] at hnd₂
            exact hnd₂.2.2 hcon (List.mem_singleton.mpr rfl)
          have hsub : ∀ p ∈ acc.created, p ∈ r.created := by
            intro p hp
            rw [hd]
            dsimp only
            rw [hcr₁]
            exact List.mem_append_left _ (List.mem_append_left _ hp)
          obtain ⟨-, hinv₁⟩ := createLink_stepG cs0 acc.w acc.st acc.created
            (filepathJoin (gs ".upstream")
              (if spec.strVal ≠ [] then spec.strVal else spec.fromVal))
            (filepathJoin (gs "overlay")
              (if spec.strVal ≠ [] then spec.strVal else spec.toVal)) lm
            hgt hfr hni (fun p hp => (hall p (hsub p hp)).1) hinv
            w₁ st₁ created₁ hcl
          obtain ⟨hinvr, d₂, hd₂⟩ := createLinksLoop_inv cs0 lm rest
            ⟨w₁, st₁, created₁, none⟩ r hL hre rfl hinv₁ hall hnd
          refine ⟨hinvr, ⟨[filepathJoin (gs "overlay")
            (if spec.strVal ≠ [] then spec.strVal else spec.toVal)] ++ d₂, ?_⟩⟩
          rw [hd₂]
          dsimp only
          rw [hcr₁, List.append_assoc]
        · rw [createLinksLoop_err lm true rest _ e rfl] at hL
          subst hL
          cases hre
      case symlink =>
        rcases hcl : createLink acc.w acc.st acc.created
            (filepathJoin (gs ".upstream")
              (if spec.strVal ≠ [] then spec.strVal else spec.fromVal))
            (filepathJoin (gs "overlay")
              (if spec.strVal ≠ [] then spec.strVal else spec.toVal))
            lm true with ⟨w₁, st₁, created₁, err₁⟩
        rw [hcl] at hL
        rcases err₁ with _ | e
        · have hcr₁ : created₁ = acc.created ++
              [filepathJoin (gs "overlay")
                (if spec.strVal ≠ [] then spec.strVal else spec.toVal)] :=
            createLink_created _ _ _ _ _ _ _ _ _ _ hcl
          obtain ⟨d, hd⟩ := createLinksLoop_created_ext lm true rest
            ⟨w₁, st₁, created₁, none⟩
          rw [hL] at hd
          have hdst_mem : filepathJoin (gs "overlay")
              (if spec.strVal ≠ [] then spec.strVal else spec.toVal) ∈
              r.created := by
            rw [hd]
            dsimp only
            rw [hcr₁]
            exact List.mem_append_left _
              (List.mem_append_right _ (List.mem_singleton.mpr rfl))
          obtain ⟨hgt, hfr⟩ := hall _ hdst_mem
          have hni : filepathJoin (gs "overlay")
              (if spec.strVal ≠ [] then spec.strVal else spec.toVal) ∉
              acc.created := by
            intro hcon
            have hnd₁ : ((acc.created ++
                [filepathJoin (gs "overlay")
                  (if spec.strVal ≠ [] then spec.strVal else spec.toVal)]) ++
                d).Nodup := by
              have := hnd
              rw [hd] at this
              dsimp only at this
              rw [hcr₁] at this
              exact this
            have hnd₂ := hnd₁.of_append_left
            rw [List.nodup_append] at hnd₂
            exact hnd₂.2.2 hcon (List.mem_singleton.mpr rfl)
          have hsub : ∀ p ∈ acc.created, p ∈ r.created := by
            intro p hp
            rw [hd]
            dsimp only
            rw [hcr₁]
            exact List.mem_append_left _ (List.mem_append_left _ hp)
          obtain ⟨-, hinv₁⟩ := createLink_stepG cs0 acc.w acc.st acc.created
            (filepathJoin (gs ".upstream")
              (if spec.strVal ≠ [] then spec.strVal else spec.fromVal))
            (filepathJoin (gs "overlay")
              (if spec.strVal ≠ [] then spec.strVal else spec.toVal)) lm
            hgt hfr hni (fun p hp => (hall p (hsub p hp)).1) hinv
            w₁ st₁ created₁ hcl
          obtain ⟨hinvr, d₂, hd₂⟩ := createLinksLoop_inv cs0 lm rest
            ⟨w₁, st₁, created₁, none⟩ r hL hre rfl hinv₁ hall hnd
          refine ⟨hinvr, ⟨[filepathJoin (gs "overlay")
            (if spec.strVal ≠ [] then spec.strVal else spec.toVal)] ++ d₂, ?_⟩⟩
          rw [hd₂]
          dsimp only
          rw [hcr₁, List.append_assoc]
        · rw [createLinksLoop_err lm true rest _ e rfl] at hL
          subst hL
          cases hre
      case dir =>
        rcases hf : createLinkFiles (filepathJoin (gs ".upstream")
            (if spec.strVal ≠ [] then spec.strVal else spec.fromVal))
            (if spec.strVal ≠ [] then spec.strVal else spec.toVal) lm true
            ⟨acc.w, acc.st, acc.created, none⟩ (walkFilesChildren cs)
            with ⟨w₁, st₁, created₁, err₁⟩
        rw [hf] at hL
        rcases err₁ with _ | e
        · obtain ⟨d, hd⟩ := createLinksLoop_created_ext lm true rest
            ⟨w₁, st₁, created₁, none⟩
          rw [hL] at hd
          have hall₁ : ∀ p ∈ created₁, GoodTarget p ∧
              lookupSegs cs0 (relSegs p) = none := by
            intro p hp
            refine hall p ?_
            rw [hd]
            exact List.mem_append_left _ hp
          have hnd₁ : created₁.Nodup := by
            have := hnd
            rw [hd] at this
            exact this.of_append_left
          obtain ⟨hinv₁, d₁, hd₁⟩ := createLinkFiles_inv cs0
            (filepathJoin (gs ".upstream")
              (if spec.strVal ≠ [] then spec.strVal else spec.fromVal))
            (if spec.strVal ≠ [] then spec.strVal else spec.toVal) lm
            (walkFilesChildren cs) ⟨acc.w, acc.st, acc.created, none⟩
            ⟨w₁, st₁, created₁, none⟩ hf rfl rfl hinv hall₁ hnd₁
          obtain ⟨hinvr, d₂, hd₂⟩ := createLinksLoop_inv cs0 lm rest
            ⟨w₁, st₁, created₁, none⟩ r hL hre rfl hinv₁ hall hnd
          refine ⟨hinvr, ⟨d₁ ++ d₂, ?_⟩⟩
          rw [hd₂]
          dsimp only
          dsimp only at hd₁
          rw [hd₁, List.append_assoc]
        · rw [createLinksLoop_err lm true rest _ e rfl] at hL
          subst hL
          cases hre

theorem matInv_init (cs0 : List (GoStr × FNode)) (w : World)
    (hlock : w.locked = []) (hsave : w.savedState = ⟨[]⟩)
    (hov : lookupName w.root (gs "overlay") = some (.dir cs0))
    (hwf : wfC cs0 = true) (hneC : noEmptyC cs0 = true) :
    MatInv cs0 w w.savedState [] := by
  refine ⟨hlock, cs0, hov, hwf, hneC, ?_, ?_, ?_, ?_⟩
  · rw [List.map_nil]
    rw [dropLeavesC_id [] [] cs0 hwf
      (fun t y hy hl hmem => absurd hmem (List.not_mem_nil _))]
    exact pruneFC_noEmpty cs0 hneC
  · intro p hp
    exact absurd hp (List.not_mem_nil p)
  · intro r y hy hl
    exact Or.inl hl
  · rw [hsave]
    rfl

theorem CreateLinks_materialize (cs0 : List (GoStr × FNode)) (w : World)
    (cfg : Config) (flag : GoStr) (w₂ : World) (created : List GoStr)
    (hmat : CreateLinks w cfg flag true = (w₂, created, none))
    (hlock : w.locked = []) (hsave : w.savedState = ⟨[]⟩)
    (hov : lookupName w.root (gs "overlay") = some (.dir cs0))
    (hwf : wfC cs0 = true) (hneC : noEmptyC cs0 = true)
    (hall : ∀ p ∈ created, GoodTarget p ∧ lookupSegs cs0 (relSegs p) = none)
    (hnd : created.Nodup) :
    w₂.locked = [] ∧
    w₂.savedState.managedFiles.map (fun f => f.path) =
      created.map (fun p => trimPre (gs "overlay/") p) ∧
    ∃ ovB, lookupName w₂.root (gs "overlay") = some (.dir ovB) ∧
      wfC ovB = true ∧
      pruneFC (dropLeavesC (created.map relSegs) [] ovB) = cs0 ∧
      (∀ p ∈ created, ∃ y, isLeaf y = true ∧
        lookupSegs ovB (relSegs p) = some y) := by
  unfold CreateLinks at hmat
  dsimp only at hmat
  rcases hres : createLinksLoop (if cfg.linkMode ≠ [] then cfg.linkMode else flag)
      true ⟨w, w.savedState, [], none⟩ cfg.symlinks with ⟨wr, str, crr, errr⟩
  rw [hres] at hmat
  rcases errr with _ | e
  · dsimp only at hmat
    simp only [Prod.mk.injEq] at hmat
    obtain ⟨hw₂, hcrr, -⟩ := hmat
    subst hcrr
    obtain ⟨hinvr, -⟩ := createLinksLoop_inv cs0
      (if cfg.linkMode ≠ [] then cfg.linkMode else flag) cfg.symlinks
      ⟨w, w.savedState, [], none⟩ ⟨wr, str, crr, none⟩ hres rfl rfl
      (matInv_init cs0 w hlock hsave hov hwf hneC) hall hnd
    obtain ⟨hlkr, ovB, hovr, hwfr, -, hJ1r, hJ4r, -, hJ5r⟩ := hinvr
    refine ⟨?_, ?_, ovB, ?_, hwfr, hJ1r, hJ4r⟩
    · rw [← hw₂]
      exact hlkr
    · rw [← hw₂]
      exact hJ5r
    · rw [← hw₂]
      dsimp only
      unfold updateGitignoreW
      dsimp only
      rw [lookupName_setAtName_ne wr.root (gs ".gitignore") (gs "overlay")
        (.file 0) (by decide)]
      exact hovr
  · dsimp only at hmat
    simp only [Prod.mk.injEq] at hmat
    obtain ⟨-, -, hcon⟩ := hmat
    cases hcon

theorem cleanLoop_cons (managed : List GoStr) (w : World) (st : State)
    (removed : Nat) (relPath : GoStr) (rest : List GoStr) :
    cleanLoop managed (w, st, removed) (relPath :: rest) =
      match lstatW w (filepathJoin (gs "overlay") relPath) with
      | none =>
        cleanLoop managed (w, st.removeManagedFile relPath, removed) rest
      | some (.dir cs) =>
        if isFullyManagedChildren managed
            (filepathJoin (gs "overlay") relPath) cs then
          match osRemoveAll w (filepathJoin (gs "overlay") relPath) with
          | some w₁ =>
            cleanLoop managed
              (w₁, st.removeManagedFile relPath, removed + 1) rest
          | none =>
            cleanLoop managed (w, st.removeManagedFile relPath, removed) rest
        else cleanLoop managed (w, st, removed) rest
      | some _ =>
        match osRemove w (filepathJoin (gs "overlay") relPath) with
        | some w₁ =>
          cleanLoop managed (w₁, st.removeManagedFile relPath, removed + 1) rest
        | none =>
          cleanLoop managed (w, st.removeManagedFile relPath, removed) rest := rfl

theorem cleanLoop_world (managed : List GoStr) (created : List GoStr)
    (ovB : List (GoStr × FNode)) (hwfB : wfC ovB = true)
    (hgf : ∀ p ∈ created, GoodTarget p)
    (hJ4 : ∀ p ∈ created, ∃ y, isLeaf y = true ∧
      lookupSegs ovB (relSegs p) = some y) :
    ∀ (Q : List GoStr) (S : List (List GoStr)) (w : World) (st : State)
      (k : Nat),
      (∀ q ∈ Q, ∃ p ∈ created, q = trimPre (gs "overlay/") p) →
      (∀ t ∈ S, ∃ p ∈ created, t = relSegs p) →
      w.locked = [] →
      lookupName w.root (gs "overlay") = some (.dir (dropLeavesC S [] ovB)) →
      ∃ S₁, (∀ t ∈ S₁, ∃ p ∈ created, t = relSegs p) ∧
        (∀ p ∈ created, trimPre (gs "overlay/") p ∈ Q → relSegs p ∈ S₁) ∧
        (∀ t ∈ S, t ∈ S₁) ∧
        (cleanLoop managed (w, st, k) Q).1.locked = [] ∧
        (cleanLoop managed (w, st, k) Q).1.savedState = w.savedState ∧
        lookupName (cleanLoop managed (w, st, k) Q).1.root (gs "overlay") =
          some (.dir (dropLeavesC S₁ [] ovB))
  | [], S, w, st, k, hQ, hS, hlk, hov =>
    ⟨S, hS, fun p hp hq => absurd hq (List.not_mem_nil _),
      fun t ht => ht, hlk, rfl, hov⟩
  | q :: Qr, S, w, st, k, hQ, hS, hlk, hov => by
    obtain ⟨p₀, hp₀, hq₀⟩ := hQ q (List.mem_cons_self q Qr)
    obtain ⟨segs, hne, hgood, hp₀e⟩ := hgf p₀ hp₀
    obtain ⟨y, hy, hly⟩ := hJ4 p₀ hp₀
    have hrel : relSegs p₀ = segs := by
      rw [hp₀e, goodTarget_relSegs segs hne hgood]
    rw [hrel] at hly
    have hfull : filepathJoin (gs "overlay") q =
        joinSlash (gs "overlay" :: segs) := by
      rw [hq₀, hp₀e, goodTarget_trim segs hne hgood,
        goodTarget_joinBack segs hne hgood]
    rw [cleanLoop_cons, hfull]
    have hlst : lstatW w (joinSlash (gs "overlay" :: segs)) =
        lookupSegs (dropLeavesC S [] ovB) segs := by
      unfold lstatW
      rw [goodTarget_split segs hne hgood,
        lookupSegs_root_overlay w.root _ segs hov hne]
    rw [lookupSegs_dropLeavesC S [] ovB segs hwfB hne, hly] at hlst
    by_cases hin : ([] : List GoStr) ++ segs ∈ S
    · have hlst₂ : lstatW w (joinSlash (gs "overlay" :: segs)) = none := by
        rw [hlst]
        rcases y with c | t | d
        · dsimp only
          rw [if_pos hin]
        · dsimp only
          rw [if_pos hin]
        · cases hy
      rw [hlst₂]
      dsimp only
      obtain ⟨S₁, h1, h2, h3, h4, h5, h6⟩ := cleanLoop_world managed created
        ovB hwfB hgf hJ4 Qr S w (st.removeManagedFile q) k
        (fun q₂ h => hQ q₂ (List.mem_cons_of_mem _ h)) hS hlk hov
      refine ⟨S₁, h1, ?_, h3, h4, h5, h6⟩
      intro p hp hqmem
      rcases List.mem_cons.1 hqmem with he | hm
      · have hpp : p = p₀ :=
          goodTarget_trim_inj p p₀ (hgf p hp) (hgf p₀ hp₀) (he.trans hq₀)
        rw [hpp, hrel]
        exact h3 segs hin
      · exact h2 p hp hm
    · rcases y with c | t | d
      · have hlst₂ : lstatW w (joinSlash (gs "overlay" :: segs)) =
            some (.file c) := by
          rw [hlst]
          dsimp only
          rw [if_neg hin]
        rw [hlst₂]
        dsimp only
        have hrm : osRemove w (joinSlash (gs "overlay" :: segs)) = some
            { w with root := (setAtName w.root (gs "overlay")
              (.dir (dropLeavesC (S ++ [segs]) [] ovB))) } := by
          unfold osRemove
          rw [goodTarget_split segs hne hgood,
            lookupSegs_root_overlay w.root _ segs hov hne]
          have hlk2 : lookupSegs (dropLeavesC S [] ovB) segs =
              some (.file c) := by
            rw [lookupSegs_dropLeavesC S [] ovB segs hwfB hne, hly]
            dsimp only
            rw [if_neg hin]
          rw [hlk2]
          dsimp only
          rw [if_pos (by rw [hlk]; exact List.not_mem_nil _)]
          rw [remove_root_overlay w.root _ segs hov hne
              (dropLeavesC (S ++ [segs]) [] ovB) (by
                rw [removeSegs_leaf_eq segs (dropLeavesC S [] ovB) (.file c) []
                  (wfC_dropLeavesC S [] ovB hwfB) hlk2 rfl]
                rw [show dropLeavesC [[] ++ segs] [] (dropLeavesC S [] ovB) =
                  dropLeavesC [segs] [] (dropLeavesC S [] ovB) from rfl]
                rw [dropLeavesC_comp S [segs] [] ovB])]
          rfl
        rw [hrm]
        dsimp only
        obtain ⟨S₁, h1, h2, h3, h4, h5, h6⟩ := cleanLoop_world managed created
          ovB hwfB hgf hJ4 Qr (S ++ [segs])
          { w with root := (setAtName w.root (gs "overlay")
            (.dir (dropLeavesC (S ++ [segs]) [] ovB))) }
          (st.removeManagedFile q) (k + 1)
          (fun q₂ h => hQ q₂ (List.mem_cons_of_mem _ h))
          (fun t ht => by
            rcases List.mem_append.1 ht with h | h
            · exact hS t h
            · rw [List.mem_singleton] at h
              exact ⟨p₀, hp₀, h.trans hrel.symm⟩)
          hlk (lookupName_setAtName_self _ _ _)
        refine ⟨S₁, h1, ?_, fun t ht => h3 t (List.mem_append_left _ ht),
          h4, h5, h6⟩
        intro p hp hqmem
        rcases List.mem_cons.1 hqmem with he | hm
        · have hpp : p = p₀ :=
            goodTarget_trim_inj p p₀ (hgf p hp) (hgf p₀ hp₀) (he.trans hq₀)
          rw [hpp, hrel]
          exact h3 segs
            (List.mem_append_right _ (List.mem_singleton.mpr rfl))
        · exact h2 p hp hm
      · have hlst₂ : lstatW w (joinSlash (gs "overlay" :: segs)) =
            some (.symlink t) := by
          rw [hlst]
          dsimp only
          rw [if_neg hin]
        rw [hlst₂]
        dsimp only
        have hrm : osRemove w (joinSlash (gs "overlay" :: segs)) = some
            { w with root := (setAtName w.root (gs "overlay")
              (.dir (dropLeavesC (S ++ [segs]) [] ovB))) } := by
          unfold osRemove
          rw [goodTarget_split segs hne hgood,
            lookupSegs_root_overlay w.root _ segs hov hne]
          have hlk2 : lookupSegs (dropLeavesC S [] ovB) segs =
              some (.symlink t) := by
            rw [lookupSegs_dropLeavesC S [] ovB segs hwfB hne, hly]
            dsimp only
            rw [if_neg hin]
          rw [hlk2]
          dsimp only
          rw [if_pos (by rw [hlk]; exact List.not_mem_nil _)]
          rw [remove_root_overlay w.root _ segs hov hne
              (dropLeavesC (S ++ [segs]) [] ovB) (by
                rw [removeSegs_leaf_eq segs (dropLeavesC S [] ovB)
                  (.symlink t) [] (wfC_dropLeavesC S [] ovB hwfB) hlk2 rfl]
                rw [show dropLeavesC [[] ++ segs] [] (dropLeavesC S [] ovB) =
                  dropLeavesC [segs] [] (dropLeavesC S [] ovB) from rfl]
                rw [dropLeavesC_comp S [segs] [] ovB])]
          rfl
        rw [hrm]
        dsimp only
        obtain ⟨S₁, h1, h2, h3, h4, h5, h6⟩ := cleanLoop_world managed created
          ovB hwfB hgf hJ4 Qr (S ++ [segs])
          { w with root := (setAtName w.root (gs "overlay")
            (.dir (dropLeavesC (S ++ [segs]) [] ovB))) }
          (st.removeManagedFile q) (k + 1)
          (fun q₂ h => hQ q₂ (List.mem_cons_of_mem _ h))
          (fun t₂ ht => by
            rcases List.mem_append.1 ht with h | h
            · exact hS t₂ h
            · rw [List.mem_singleton] at h
              exact ⟨p₀, hp₀, h.trans hrel.symm⟩)
          hlk (lookupName_setAtName_self _ _ _)
        refine ⟨S₁, h1, ?_, fun t₂ ht => h3 t₂ (List.mem_append_left _ ht),
          h4, h5, h6⟩
        intro p hp hqmem
        rcases List.mem_cons.1 hqmem with he | hm
        · have hpp : p = p₀ :=
            goodTarget_trim_inj p p₀ (hgf p hp) (hgf p₀ hp₀) (he.trans hq₀)
          rw [hpp, hrel]
          exact h3 segs
            (List.mem_append_right _ (List.mem_singleton.mpr rfl))
        · exact h2 p hp hm
      · cases hy

theorem mem_sortManagedPaths (l : List GoStr) (a : GoStr) :
    a ∈ sortManagedPaths l ↔ a ∈ l :=
  (sortBy_perm cleanLe l).mem_iff

theorem cleanCmd_restore (w₂ : World) (created : List GoStr)
    (cs0 ovB : List (GoStr × FNode))
    (hlk : w₂.locked = [])
    (hreg : w₂.savedState.managedFiles.map (fun f => f.path) =
      created.map (fun p => trimPre (gs "overlay/") p))
    (hov : lookupName w₂.root (gs "overlay") = some (.dir ovB))
    (hwfB : wfC ovB = true)
    (hJ1 : pruneFC (dropLeavesC (created.map relSegs) [] ovB) = cs0)
    (hJ4 : ∀ p ∈ created, ∃ y, isLeaf y = true ∧
      lookupSegs ovB (relSegs p) = some y)
    (hgf : ∀ p ∈ created, GoodTarget p) :
    ∃ w₃ n, cleanCmd w₂ = (w₃, Except.ok n) ∧
      lookupName w₃.root (gs "overlay") = some (.dir cs0) ∧
      w₃.savedState = ⟨[]⟩ := by
  have hstat : statW w₂ (gs "overlay") = some (.dir ovB) := by
    show statSegs w₂.root 40 (gs "overlay") = some (.dir ovB)
    rw [show (40 : Nat) = 39 + 1 from rfl, statSegs_succ,
      show splitSlash (gs "overlay") = [gs "overlay"] from rfl,
      lookupSegs_single, hov]
  have hdrop0 : dropLeavesC [] [] ovB = ovB :=
    dropLeavesC_id [] [] ovB hwfB
      (fun t y hy hl hmem => absurd hmem (List.not_mem_nil _))
  obtain ⟨S₁, hS1mem, hS1cov, -, hlkr, hssr, hovr⟩ := cleanLoop_world
    ((w₂.savedState.managedFiles.map (fun f => f.path)).dedup) created ovB
    hwfB hgf hJ4
    (sortManagedPaths ((w₂.savedState.managedFiles.map
      (fun f => f.path)).dedup))
    [] w₂ w₂.savedState 0
    (fun q hq => by
      have hq₂ : q ∈ (w₂.savedState.managedFiles.map
          (fun f => f.path)).dedup := (mem_sortManagedPaths _ q).1 hq
      have hq₃ := List.mem_dedup.1 hq₂
      rw [hreg] at hq₃
      obtain ⟨p, hp, htp⟩ := List.mem_map.1 hq₃
      exact ⟨p, hp, htp.symm⟩)
    (fun t ht => absurd ht (List.not_mem_nil _))
    hlk (by rw [hdrop0]; exact hov)
  have hcongr : dropLeavesC S₁ [] ovB =
      dropLeavesC (created.map relSegs) [] ovB := by
    refine dropLeavesC_congr S₁ (created.map relSegs) [] ovB ?_
    intro t ht
    rw [List.nil_append]
    constructor
    · intro hts
      obtain ⟨p, hp, htp⟩ := hS1mem t hts
      rw [htp]
      exact List.mem_map_of_mem _ hp
    · intro htm
      obtain ⟨p, hp, htp⟩ := List.mem_map.1 htm
      have hQmem : trimPre (gs "overlay/") p ∈ sortManagedPaths
          ((w₂.savedState.managedFiles.map (fun f => f.path)).dedup) := by
        refine (mem_sortManagedPaths _ _).2 (List.mem_dedup.2 ?_)
        rw [hreg]
        exact List.mem_map_of_mem _ hp
      rw [← htp]
      exact hS1cov p hp hQmem
  have hrem : removeEmptyDirs (cleanLoop
      ((w₂.savedState.managedFiles.map (fun f => f.path)).dedup)
      (w₂, w₂.savedState, 0)
      (sortManagedPaths ((w₂.savedState.managedFiles.map
        (fun f => f.path)).dedup))).1 =
      Except.ok { (cleanLoop
        ((w₂.savedState.managedFiles.map (fun f => f.path)).dedup)
        (w₂, w₂.savedState, 0)
        (sortManagedPaths ((w₂.savedState.managedFiles.map
          (fun f => f.path)).dedup))).1 with
        root := (setAtName (cleanLoop
          ((w₂.savedState.managedFiles.map (fun f => f.path)).dedup)
          (w₂, w₂.savedState, 0)
          (sortManagedPaths ((w₂.savedState.managedFiles.map
            (fun f => f.path)).dedup))).1.root (gs "overlay") (.dir cs0)) } := by
    unfold removeEmptyDirs
    rw [show splitSlash (gs "overlay") = [gs "overlay"] from rfl,
      lookupSegs_single, hovr]
    dsimp only
    rw [hlkr, pruneChildren_pruneFC]
    dsimp only
    rw [hcongr, hJ1]
  unfold cleanCmd
  rw [hstat]
  dsimp only
  rw [hrem]
  refine ⟨_, _, rfl, ?_, ?_⟩
  · exact lookupName_setAtName_self _ _ _
  · refine congrArg State.mk ?_
    rw [foldl_removeManagedFile]
    refine List.filter_eq_nil_iff.mpr ?_
    intro f hf
    have hmem := cleanLoop_st_sub
      ((w₂.savedState.managedFiles.map (fun f => f.path)).dedup)
      (sortManagedPaths ((w₂.savedState.managedFiles.map
        (fun f => f.path)).dedup)) w₂ w₂.savedState 0 f hf
    simp only [decide_eq_true_eq]
    exact not_not_intro (List.mem_dedup.mpr (List.mem_map_of_mem _ hmem))

/-- The C3 counterexample world: the overlay directory holds a pre-existing
empty unmanaged directory, and the mapping set is empty. -/
def wC3 : World :=
  ⟨[(gs "overlay", .dir [(gs "emptydir", .dir [])])], ⟨[]⟩, []⟩

/-- C3 counterexample (original claim): with an empty mapping set,
materialize succeeds and changes nothing under overlay, yet clean() prunes
the pre-existing empty unmanaged directory overlay/emptydir, so the target
tree's set of paths is NOT equal to its pre-materialize set. -/
theorem c3_counterexample :
    (CreateLinks wC3 ⟨[], []⟩ (gs "symlink") true).2.2 = none ∧
    lstatW wC3 (gs "overlay/emptydir") = some (.dir []) ∧
    lstatW (CreateLinks wC3 ⟨[], []⟩ (gs "symlink") true).1
      (gs "overlay/emptydir") = some (.dir []) ∧
    (cleanCmd (CreateLinks wC3 ⟨[], []⟩ (gs "symlink") true).1).2 =
      Except.ok 0 ∧
    lstatW (cleanCmd (CreateLinks wC3 ⟨[], []⟩ (gs "symlink") true).1).1
      (gs "overlay/emptydir") = none :=
  ⟨rfl, rfl, rfl, rfl, rfl⟩

/-- C3 (amended): materialize followed by clean is a round trip for the
overlay tree under the stated side conditions — the Registry starts empty,
there are no injected failures, the initial overlay listing is well formed
and contains no empty directory anywhere, and the successful
CreateLinks(force := true) run produced distinct well-formed overlay target
paths that were absent from the initial overlay listing.  Then clean()
succeeds, restores the overlay listing exactly to its pre-materialize
listing, and leaves the Registry empty.  (Unconditionally the round trip
fails: removeEmptyDirs prunes pre-existing empty unmanaged directories —
see the counterexample — and force=true deletes colliding pre-existing
files.) -/
theorem c3_materialize_clean_roundtrip (w : World) (cfg : Config)
    (flag : GoStr) (w₂ : World) (created : List GoStr)
    (cs0 : List (GoStr × FNode))
    (hmat : CreateLinks w cfg flag true = (w₂, created, none))
    (hlock : w.locked = []) (hsave : w.savedState = ⟨[]⟩)
    (hov : lookupName w.root (gs "overlay") = some (.dir cs0))
    (hwf : wfC cs0 = true) (hneC : noEmptyC cs0 = true)
    (hall : ∀ p ∈ created, GoodTarget p ∧ lookupSegs cs0 (relSegs p) = none)
    (hnd : created.Nodup) :
    ∃ w₃ n, cleanCmd w₂ = (w₃, Except.ok n) ∧
      lookupName w₃.root (gs "overlay") = some (.dir cs0) ∧
      w₃.savedState = ⟨[]⟩ := by
  obtain ⟨hlk₂, hreg, ovB, hov₂, hwfB, hJ1, hJ4⟩ :=
    CreateLinks_materialize cs0 w cfg flag w₂ created hmat hlock hsave hov
      hwf hneC hall hnd
  exact cleanCmd_restore w₂ created cs0 ovB hlk₂ hreg hov₂ hwfB hJ1 hJ4
    (fun p hp => (hall p hp).1)

/-- The C3 witness world: an upstream file a.txt and an overlay holding a
pre-existing custom file keep.txt. -/
def wWit : World :=
  ⟨[(gs ".upstream", .dir [(gs "a.txt", .file 1)]),
    (gs "overlay", .dir [(gs "keep.txt", .file 7)])], ⟨[]⟩, []⟩

/-- The C3 witness configuration: the single bare mapping a.txt. -/
def cfgWit : Config := ⟨[⟨gs "a.txt", [], []⟩], []⟩

theorem c3_materialize_clean_roundtrip_witness :
    ∃ w₃ n, cleanCmd (CreateLinks wWit cfgWit (gs "symlink") true).1 =
      (w₃, Except.ok n) ∧
      lookupName w₃.root (gs "overlay") =
        some (.dir [(gs "keep.txt", FNode.file 7)]) ∧
      w₃.savedState = ⟨[]⟩ :=
  c3_materialize_clean_roundtrip wWit cfgWit (gs "symlink")
    (CreateLinks wWit cfgWit (gs "symlink") true).1
    [gs "overlay/a.txt"] [(gs "keep.txt", FNode.file 7)]
    rfl rfl rfl rfl rfl rfl
    (fun p hp => by
      rw [List.mem_singleton] at hp
      subst hp
      exact ⟨⟨[gs "a.txt"], by decide, by decide, by decide⟩, rfl⟩)
    (List.nodup_singleton _)
